import Mathlib

/-!
Verification of the compact radix trie implementation in
`rust-module/src/trie.rs`.

The Rust module is shallowly embedded as follows.

* A Rust `char` is modelled by Lean's `Char` (both are Unicode scalar
  values), a Rust `String`/`&str` by `List Char`, and the UTF-8 byte view
  of a string (`as_bytes`, byte slicing, byte length) by `strBytes`,
  which maps each scalar value through `utf8Encode`, the standard UTF-8
  encoder also used by Rust.
* A byte is a `Nat` (values produced are < 256); `usize`/`u32`/`u16`
  arithmetic is `Nat` arithmetic with explicit `% 2 ^ w` where the Rust
  code masks or truncates.
* Functions that can panic return `Exec α` (`ok` / `panic reason`); loops
  whose termination is not structural take an explicit fuel argument and
  return `Exec.fuelOut` when it runs out.  Every theorem below either
  proves the fuel given by the wrapper sufficient or takes the successful
  run as a hypothesis, so `fuelOut` never stands in for real behaviour.
-/

/-- Outcome of running a piece of Rust code that may panic. -/
inductive PanicKind where
  | charBoundary
  | unwrapFail
  | labelTooLong
  | trieTooLarge
  | sliceOutOfRange
  deriving DecidableEq, Repr

/-- Result of executing an embedded Rust function: a value, a panic, or
fuel exhaustion of the embedding (never reachable in the proved runs). -/
inductive Exec (α : Type) where
  | ok (a : α)
  | panic (k : PanicKind)
  | fuelOut
  deriving DecidableEq, Repr

/-- Monadic bind for `Exec`. -/
def Exec.bind {α β : Type} : Exec α → (α → Exec β) → Exec β
  | .ok a, f => f a
  | .panic k, _ => .panic k
  | .fuelOut, _ => .fuelOut

instance : Monad Exec where
  pure := Exec.ok
  bind := Exec.bind

/-- UTF-8 encoding of one Unicode scalar value, exactly as Rust encodes a
`char` into a `String`'s byte buffer. -/
def utf8Encode (c : Char) : List Nat :=
  let n := c.toNat
  if n < 0x80 then [n]
  else if n < 0x800 then [0xC0 + n / 0x40, 0x80 + n % 0x40]
  else if n < 0x10000 then
    [0xE0 + n / 0x1000, 0x80 + n / 0x40 % 0x40, 0x80 + n % 0x40]
  else
    [0xF0 + n / 0x40000, 0x80 + n / 0x1000 % 0x40,
     0x80 + n / 0x40 % 0x40, 0x80 + n % 0x40]

/-- Byte view of a Rust string (`str::as_bytes`). -/
def strBytes (s : List Char) : List Nat :=
  (s.map utf8Encode).flatten

/-- Length in bytes of a Rust string (`str::len`). -/
def strLen (s : List Char) : Nat :=
  (strBytes s).length

/-- Boolean byte-prefix test (`<[u8]>::starts_with` / `str::starts_with`). -/
def isPre : List Nat → List Nat → Bool
  | [], _ => true
  | _ :: _, [] => false
  | a :: as, b :: bs => a = b && isPre as bs

/-- Byte-lexicographic comparison, `true` when `a ≤ b` in the order that
Rust's `Ord` puts on `&[u8]` and `&str` (prefixes sort first). -/
def lexLe : List Nat → List Nat → Bool
  | [], _ => true
  | _ :: _, [] => false
  | a :: as, b :: bs => if a < b then true else if b < a then false else lexLe as bs

/-- Strict version of `lexLe`. -/
def lexLt : List Nat → List Nat → Bool
  | _, [] => false
  | [], _ :: _ => true
  | a :: as, b :: bs => if a < b then true else if b < a then false else lexLt as bs

/-- Length of the longest common byte prefix of two byte slices:
`TrieBuilder::common_prefix_len` and the free `common_prefix_len` in
`trie.rs` (both zip the bytes and `take_while` equality). -/
def commonPreLen : List Nat → List Nat → Nat
  | a :: as, b :: bs => if a = b then commonPreLen as bs + 1 else 0
  | _, _ => 0

/-- Splitting a Rust string at byte index `n` (`&s[..n]` / `&s[n..]` /
`String::truncate`): succeeds only when `n` lands on a character
boundary inside the string, otherwise Rust panics. -/
def splitAtByte : List Char → Nat → Option (List Char × List Char)
  | s, 0 => some ([], s)
  | [], _ + 1 => none
  | c :: s, n + 1 =>
    let k := (utf8Encode c).length
    if k ≤ n + 1 then
      match splitAtByte s (n + 1 - k) with
      | some (a, b) => some (c :: a, b)
      | none => none
    else none

/-- Sentinel for `CompactNode.first_child` (23 bits): `COMPACT_NONE`. -/
def COMPACT_NONE : Nat := 0x007FFFFF

/-- The 8-byte compact node: `label_start` and `packed`, two `u32`s.
`packed` holds `first_child` (bits 0-22), `label_len` (bits 23-29),
`is_terminal` (bit 30) and `has_next_sibling` (bit 31). -/
structure CompactNode where
  label_start : Nat
  packed : Nat
  deriving DecidableEq, Repr

instance : Inhabited CompactNode := ⟨⟨0, 0⟩⟩

/-- Accessor `CompactNode::first_child`: `packed & 0x007FFFFF`. -/
def CompactNode.first_child (n : CompactNode) : Nat :=
  n.packed % 2 ^ 23

/-- Accessor `CompactNode::label_len`: `(packed >> 23) & 0x7F`. -/
def CompactNode.label_len (n : CompactNode) : Nat :=
  n.packed / 2 ^ 23 % 2 ^ 7

/-- Accessor `CompactNode::is_terminal`: `(packed >> 30) & 1 != 0`. -/
def CompactNode.is_terminal (n : CompactNode) : Bool :=
  n.packed / 2 ^ 30 % 2 = 1

/-- Accessor `CompactNode::has_next_sibling`: `(packed >> 31) & 1 != 0`. -/
def CompactNode.has_next_sibling (n : CompactNode) : Bool :=
  n.packed / 2 ^ 31 % 2 = 1

/-- Constructor `CompactNode::new`.  The Rust `debug_assert!`s are
compiled out of release builds, so the release semantics is pure masking:
`first_child & 0x007FFFFF`, `label_len & 0x7F`, flags shifted into place
(the ORs combine disjoint bit ranges, hence the sums). -/
def CompactNode.new (label_start first_child label_len : Nat)
    (is_terminal has_next_sibling : Bool) : CompactNode where
  label_start := label_start
  packed := first_child % 2 ^ 23 + label_len % 2 ^ 7 * 2 ^ 23
    + cond is_terminal 1 0 * 2 ^ 30 + cond has_next_sibling 1 0 * 2 ^ 31

/-- The builder's pointer node (`struct Node`): an edge label, children
indexed by their first character, and the end-of-word flag.  The Rust
`HashMap<char, Node>` is modelled as an association list with distinct
keys; the only observations the code makes of it are key lookups,
keyed insertion, and iteration over values followed by sorting, so the
list order is never observable in the compact output. -/
inductive BNode : Type where
  | mk (pfx : List Char) (children : List (Char × BNode)) (is_leaf : Bool)

/-- Edge label leading into this node (`Node.prefix`). -/
def BNode.pfx : BNode → List Char
  | .mk p _ _ => p

/-- Children map of this node. -/
def BNode.children : BNode → List (Char × BNode)
  | .mk _ c _ => c

/-- End-of-word flag (`Node.is_leaf`). -/
def BNode.is_leaf : BNode → Bool
  | .mk _ _ l => l

/-- HashMap lookup by key (`children.get` / `contains_key`). -/
def alLookup : List (Char × BNode) → Char → Option BNode
  | [], _ => none
  | (k, v) :: r, c => if k = c then some v else alLookup r c

/-- HashMap keyed insertion (`children.insert`): replaces the entry with
an equal key, otherwise adds one. -/
def alInsert : List (Char × BNode) → Char → BNode → List (Char × BNode)
  | [], c, v => [(c, v)]
  | (k, w) :: r, c, v => if k = c then (c, v) :: r else (k, w) :: alInsert r c v

/-- The body of `TrieBuilder::insert`.  One fuel unit per iteration of
the Rust `while` loop; each iteration that continues strips at least one
character from `remaining` on builder-reachable trees, so the wrapper's
fuel is sufficient there.  `panic .charBoundary` models the Rust panic of
slicing a `&str` off a character boundary, which happens exactly when the
byte LCP ends inside a multi-byte character. -/
def insertGo : Nat → BNode → List Char → Exec BNode
  | 0, _, _ => .fuelOut
  | fuel + 1, node, remaining =>
    match remaining with
    | [] => .ok node
    | fc :: _ =>
      match alLookup node.children fc with
      | none =>
        .ok ⟨node.pfx, alInsert node.children fc ⟨remaining, [], true⟩, node.is_leaf⟩
      | some child =>
        let cl := commonPreLen (strBytes child.pfx) (strBytes remaining)
        if cl = strLen child.pfx then
          match splitAtByte remaining cl with
          | none => .panic .charBoundary
          | some (_, rest) =>
            if rest.isEmpty then
              .ok ⟨node.pfx,
                alInsert node.children fc ⟨child.pfx, child.children, true⟩,
                node.is_leaf⟩
            else
              match insertGo fuel child rest with
              | .ok child' => .ok ⟨node.pfx, alInsert node.children fc child', node.is_leaf⟩
              | e => e
        else
          match splitAtByte child.pfx cl with
          | none => .panic .charBoundary
          | some (ptrunc, csfx) =>
            match splitAtByte remaining cl with
            | none => .panic .charBoundary
            | some (_, isfx) =>
              match csfx with
              | [] => .panic .unwrapFail
              | sk :: _ =>
                let split : BNode := ⟨csfx, child.children, child.is_leaf⟩
                match isfx with
                | [] =>
                  .ok ⟨node.pfx, alInsert node.children fc ⟨ptrunc, [(sk, split)], true⟩,
                    node.is_leaf⟩
                | ik :: _ =>
                  .ok ⟨node.pfx,
                    alInsert node.children fc
                      ⟨ptrunc, alInsert [(sk, split)] ik ⟨isfx, [], true⟩, false⟩,
                    node.is_leaf⟩

/-- API operation `TrieBuilder::insert`. -/
def TrieBuilder.insert (root : BNode) (word : List Char) : Exec BNode :=
  insertGo (word.length + 1) root word

/-- A fresh builder: `TrieBuilder::new` (root with empty label, no
children, not a word end). -/
def freshBuilder : BNode := ⟨[], [], false⟩

/-- Folding `TrieBuilder::insert` over a list of words, starting from a
fresh builder. -/
def insertAll (ws : List (List Char)) : Exec BNode :=
  ws.foldl (fun acc w => match acc with
    | .ok t => TrieBuilder.insert t w
    | e => e) (.ok freshBuilder)

/-- Children of a builder node collected and sorted for the flattener:
`source_node.children.values()` sorted by `a.prefix.cmp(&b.prefix)`
(Rust `str` order is byte-lexicographic).  Sibling prefixes are pairwise
distinct in builder-reachable trees, so any correct sort — the Rust
`sort_by` included — produces this unique ordering. -/
def sortChildren (cs : List (Char × BNode)) : List BNode :=
  List.insertionSort (fun a b => lexLe (strBytes a.pfx) (strBytes b.pfx) = true)
    (cs.map Prod.snd)

/-- Patching a parent's `first_child` pointer in `TrieBuilder::build`:
`(parent_packed & !0x007FFFFF) | start` with `start ≤ 0x007FFFFF`. -/
def patchFirstChild (n : CompactNode) (start : Nat) : CompactNode :=
  { n with packed := n.packed / 2 ^ 23 * 2 ^ 23 + start }

/-- The inner `for (i, child) in child_list.iter().enumerate()` loop of
`TrieBuilder::build`: checks the 127-byte label bound, appends the label
bytes, pushes the compact node, and queues the child.  `start` is the
block base, `n` the block size. -/
def buildKids (start n : Nat) : Nat → List BNode → List CompactNode → List Nat →
    List (Nat × BNode) → Exec (List CompactNode × List Nat × List (Nat × BNode))
  | _, [], nodes, labels, newq => .ok (nodes, labels, newq)
  | i, child :: rest, nodes, labels, newq =>
    if 127 < strLen child.pfx then .panic .labelTooLong
    else
      buildKids start n (i + 1) rest
        (nodes ++ [CompactNode.new labels.length COMPACT_NONE (strLen child.pfx)
          child.is_leaf (decide (i < n - 1))])
        (labels ++ strBytes child.pfx)
        (newq ++ [(start + i, child)])

/-- The BFS loop of `TrieBuilder::build`.  One fuel unit per queue pop;
every builder node is queued exactly once, so fuel exceeding the number
of tree nodes is sufficient.  The `nodes.getD pidx default` read models
`nodes[parent_idx]`, whose index is always in range because queued
indices are indices of already-pushed nodes. -/
def buildLoop : Nat → List CompactNode → List Nat → List (Nat × BNode) →
    Exec (List CompactNode × List Nat)
  | 0, _, _, _ => .fuelOut
  | _ + 1, nodes, labels, [] => .ok (nodes, labels)
  | fuel + 1, nodes, labels, (pidx, src) :: qrest =>
    if src.children.isEmpty then buildLoop fuel nodes labels qrest
    else
      let start := nodes.length
      if 0x007FFFFF < start then .panic .trieTooLarge
      else
        let kids := sortChildren src.children
        match buildKids start kids.length 0 kids
            (nodes.set pidx (patchFirstChild (nodes.getD pidx default) start)) labels [] with
        | .ok (nodes2, labels2, newq) => buildLoop fuel nodes2 labels2 (qrest ++ newq)
        | .panic k => .panic k
        | .fuelOut => .fuelOut

/-- The flattening part of `TrieBuilder::build` (everything before the
`compress_labels` call): root bounds check, root node, BFS.  The
`labels.len() as u32` casts in the Rust code are left as `Nat` here: a
compact trie holds at most `2^23` labels of at most 127 bytes, well below
`u32` range. -/
def buildFlatten (fuel : Nat) (root : BNode) : Exec (List CompactNode × List Nat) :=
  if 127 < strLen root.pfx then .panic .labelTooLong
  else
    buildLoop fuel
      [CompactNode.new 0 COMPACT_NONE (strLen root.pfx) root.is_leaf false]
      (strBytes root.pfx) [(0, root)]

/-- Is `b` a UTF-8 continuation byte (`0x80..=0xBF`)? -/
def utf8Cont (b : Nat) : Bool :=
  0x80 ≤ b && b ≤ 0xBF

/-- One step of UTF-8 decoding with replacement, as
`String::from_utf8_lossy` validates: one fuel unit per decoded
character, each consuming at least one byte.  On invalid input this
model emits U+FFFD and resynchronises one byte at a time; the Rust
routine can skip a whole invalid sequence at once, but `compress_labels`
only ever decodes slices that are exact UTF-8 encodings of builder
labels, where both behaviours coincide with exact decoding. -/
def utf8DecodeGo : Nat → List Nat → List Char
  | 0, _ => []
  | _ + 1, [] => []
  | fuel + 1, b :: rest =>
    if b < 0x80 then Char.ofNat b :: utf8DecodeGo fuel rest
    else if 0xC2 ≤ b && b ≤ 0xDF then
      match rest with
      | b1 :: r2 =>
        if utf8Cont b1 then
          Char.ofNat ((b - 0xC0) * 0x40 + (b1 - 0x80)) :: utf8DecodeGo fuel r2
        else Char.ofNat 0xFFFD :: utf8DecodeGo fuel rest
      | [] => [Char.ofNat 0xFFFD]
    else if 0xE0 ≤ b && b ≤ 0xEF then
      match rest with
      | b1 :: b2 :: r3 =>
        if (if b = 0xE0 then 0xA0 ≤ b1 && b1 ≤ 0xBF
            else if b = 0xED then 0x80 ≤ b1 && b1 ≤ 0x9F
            else utf8Cont b1) && utf8Cont b2 then
          Char.ofNat ((b - 0xE0) * 0x1000 + (b1 - 0x80) * 0x40 + (b2 - 0x80))
            :: utf8DecodeGo fuel r3
        else Char.ofNat 0xFFFD :: utf8DecodeGo fuel rest
      | _ => Char.ofNat 0xFFFD :: utf8DecodeGo fuel rest.tail
    else if 0xF0 ≤ b && b ≤ 0xF4 then
      match rest with
      | b1 :: b2 :: b3 :: r4 =>
        if (if b = 0xF0 then 0x90 ≤ b1 && b1 ≤ 0xBF
            else if b = 0xF4 then 0x80 ≤ b1 && b1 ≤ 0x8F
            else utf8Cont b1) && utf8Cont b2 && utf8Cont b3 then
          Char.ofNat ((b - 0xF0) * 0x40000 + (b1 - 0x80) * 0x1000
              + (b2 - 0x80) * 0x40 + (b3 - 0x80)) :: utf8DecodeGo fuel r4
        else Char.ofNat 0xFFFD :: utf8DecodeGo fuel rest
      | _ => Char.ofNat 0xFFFD :: utf8DecodeGo fuel rest.tail
    else Char.ofNat 0xFFFD :: utf8DecodeGo fuel rest

/-- UTF-8 decoding of a byte buffer (`String::from_utf8_lossy`). -/
def utf8DecodeLossy (bs : List Nat) : List Char :=
  utf8DecodeGo bs.length bs

/-- The byte slice `&labels[start..start + label_len]` of a node's label;
`none` models the slice-out-of-range panic. -/
def labelSliceAt (labels : List Nat) (node : CompactNode) : Option (List Nat) :=
  if node.label_start + node.label_len ≤ labels.length then
    some ((labels.drop node.label_start).take node.label_len)
  else none

/-- Index of a string in the list of unique strings seen so far
(the `string_to_id` HashMap keyed by string value). -/
def strIdx : List (List Char) → List Char → Option Nat
  | [], _ => none
  | u :: us, s => if u = s then some 0 else (strIdx us s).map (· + 1)

/-- First phase of `compress_labels`: per-node label strings are read
from `labels`, deduplicated in first-occurrence order into
`unique_strings`, and each node is mapped to its `unique_id`. -/
def dedupLabels (labels : List Nat) : List CompactNode → List (List Char) → List Nat →
    Option (List (List Char) × List Nat)
  | [], uniques, ids => some (uniques, ids)
  | node :: rest, uniques, ids =>
    match labelSliceAt labels node with
    | none => none
    | some bs =>
      let s := utf8DecodeLossy bs
      match strIdx uniques s with
      | some id => dedupLabels labels rest uniques (ids ++ [id])
      | none => dedupLabels labels rest (uniques ++ [s]) (ids ++ [uniques.length])

/-- `unique_strings[i]` with the in-range default that Rust's indexing
assumes (all indices used are in range in every reachable call). -/
def uGet (uniques : List (List Char)) (i : Nat) : List Char :=
  uniques.getD i []

/-- The `sorted_indices` of `compress_labels`: indices `0..U` sorted by
ascending string value (`String` order is byte-lexicographic; the
strings are pairwise distinct so any correct sort, `sort_unstable_by`
included, yields this unique order). -/
def sortedByStr (uniques : List (List Char)) : List Nat :=
  List.insertionSort
    (fun a b => lexLe (strBytes (uGet uniques a)) (strBytes (uGet uniques b)) = true)
    (List.range uniques.length)

/-- The adjacent-pair walk of the prefix-folding loop: when the next
string extends the current one, redirect the current id to it with
offset 0 and deactivate it. -/
def preFoldGo (uniques : List (List Char)) :
    List Nat → List (Nat × Nat) → List Bool → List (Nat × Nat) × List Bool
  | a :: b :: rest, red, act =>
    if isPre (strBytes (uGet uniques a)) (strBytes (uGet uniques b)) then
      preFoldGo uniques (b :: rest) (red.set a (b, 0)) (act.set a false)
    else preFoldGo uniques (b :: rest) red act
  | _, red, act => (red, act)

/-- Rust key for the suffix sort: `unique_strings[i].chars().rev()`,
compared lexicographically by code point. -/
def revKey (uniques : List (List Char)) (i : Nat) : List Nat :=
  (uGet uniques i).reverse.map Char.toNat

/-- The `active_indices` sorted by reversed character sequence. -/
def sortedByRev (uniques : List (List Char)) (active : List Nat) : List Nat :=
  List.insertionSort (fun a b => lexLe (revKey uniques a) (revKey uniques b) = true) active

/-- The Rust suffix test
`s_large.chars().rev().zip(s_small.chars().rev()).all(|(a, b)| a == b)`;
note the `zip` stops at the shorter operand. -/
def revZipAllEq (lg sm : List Char) : Bool :=
  (lg.reverse.zip sm.reverse).all fun p => p.1 = p.2

/-- The adjacent-pair walk of the suffix-folding loop.  The offset is the
`usize` difference `s_large.len() - s_small.len()` in bytes; it never
underflows because in reverse-sorted order the test can only succeed
when the earlier string is the shorter one (proved below). -/
def sufFoldGo (uniques : List (List Char)) :
    List Nat → List (Nat × Nat) → List Bool → List (Nat × Nat) × List Bool
  | a :: b :: rest, red, act =>
    if revZipAllEq (uGet uniques b) (uGet uniques a) then
      sufFoldGo uniques (b :: rest)
        (red.set a (b, strLen (uGet uniques b) - strLen (uGet uniques a)))
        (act.set a false)
    else sufFoldGo uniques (b :: rest) red act
  | _, red, act => (red, act)

/-- The redirect-chain walk of `compress_labels`'s resolution loop.  The
fuel is exactly the Rust depth cap: the loop performs at most 1001 hops
(`depth` reaches 1001 and breaks), so `resolveGo act red 1001` computes
precisely the Rust result, early `break`s included. -/
def resolveGo (act : List Bool) (red : List (Nat × Nat)) : Nat → Nat → Nat → Nat × Nat
  | 0, curr, total => (curr, total)
  | fuel + 1, curr, total =>
    if act.getD curr false then (curr, total)
    else
      let nx := red.getD curr (curr, 0)
      if nx.1 = curr then (curr, total)
      else resolveGo act red fuel nx.1 (total + nx.2)

/-- `final_resolution`: every unique id resolved to its active root and
accumulated offset. -/
def finalResolution (act : List Bool) (red : List (Nat × Nat)) (num : Nat) :
    List (Nat × Nat) :=
  (List.range num).map fun i => resolveGo act red 1001 i 0

/-- Super-buffer construction: active unique strings emitted in id
order, with their base addresses recorded (inactive ids keep the vector
default 0). -/
def superBufGo (uniques : List (List Char)) (act : List Bool) :
    List Nat → List Nat × List Nat → List Nat × List Nat
  | [], st => st
  | i :: rest, (buf, addrs) =>
    if act.getD i false then
      superBufGo uniques act rest (buf ++ strBytes (uGet uniques i), addrs ++ [buf.length])
    else superBufGo uniques act rest (buf, addrs ++ [0])

/-- The final pointer-update pass: every node's `label_start` becomes
`root_addresses[root_id] + relative_offset` for its unique id;
`packed` is untouched. -/
def applyResolution (nodes : List CompactNode) (ids : List Nat)
    (res : List (Nat × Nat)) (addrs : List Nat) : List CompactNode :=
  (nodes.zip ids).map fun p =>
    let r := res.getD p.2 (0, 0)
    { p.1 with label_start := addrs.getD r.1 0 + r.2 }

/-- The function `compress_labels(labels, nodes)`; returns the rewritten
`(labels, nodes)`.  `none` models the two panics the Rust code can hit:
a label slice out of range of `labels`, and the `0..num_uniques - 1`
range underflow when `nodes` is empty (never reached from `build`, whose
node vector always contains the root). -/
def compress_labels (labels : List Nat) (nodes : List CompactNode) :
    Option (List Nat × List CompactNode) :=
  match dedupLabels labels nodes [] [] with
  | none => none
  | some (uniques, ids) =>
    if uniques.length = 0 then none
    else
      let red0 : List (Nat × Nat) := (List.range uniques.length).map fun i => (i, 0)
      let act0 : List Bool := List.replicate uniques.length true
      let st1 := preFoldGo uniques (sortedByStr uniques) red0 act0
      let active := (List.range uniques.length).filter fun i => st1.2.getD i false
      let st2 := sufFoldGo uniques (sortedByRev uniques active) st1.1 st1.2
      let res := finalResolution st2.2 st2.1 uniques.length
      let st3 := superBufGo uniques st2.2 (List.range uniques.length) ([], [])
      some (st3.1, applyResolution nodes ids res st3.2)

/-- API operation `TrieBuilder::build`: flatten by BFS, then compress the
label buffer.  Returns `(nodes, labels)`. -/
def TrieBuilder.build (fuel : Nat) (root : BNode) : Exec (List CompactNode × List Nat) :=
  match buildFlatten fuel root with
  | .ok (nodes, labels) =>
    match compress_labels labels nodes with
    | some (labels2, nodes2) => .ok (nodes2, labels2)
    | none => .panic .sliceOutOfRange
  | .panic k => .panic k
  | .fuelOut => .fuelOut

/-- `CompactRadixTrie::get_label`: `&labels[start..start + len]` of
`nodes[node_idx]`; `none` models the two possible index panics. -/
def getLabel (nodes : List CompactNode) (labels : List Nat) (i : Nat) : Option (List Nat) :=
  match nodes.get? i with
  | some n => labelSliceAt labels n
  | none => none

/-- The sibling scan inside `CompactRadixTrie::contains`: walk the
`has_next_sibling` chain looking for the first child whose whole label
is a prefix of the remaining key; `ok (some (idx, len))` on a match,
`ok none` when the chain ends.  Sibling indices strictly increase, so
`nodes.length + 1` fuel always outlasts the chain (an index past the
node array panics first). -/
def scanSiblings (nodes : List CompactNode) (labels : List Nat) (keyPart : List Nat) :
    Nat → Nat → Exec (Option (Nat × Nat))
  | 0, _ => .fuelOut
  | fuel + 1, child_idx =>
    match getLabel nodes labels child_idx with
    | none => .panic .sliceOutOfRange
    | some lab =>
      if isPre lab keyPart then .ok (some (child_idx, lab.length))
      else if (nodes.getD child_idx default).has_next_sibling then
        scanSiblings nodes labels keyPart fuel (child_idx + 1)
      else .ok none

/-- The outer `while key_cursor < key_bytes.len()` loop of
`CompactRadixTrie::contains`.  One fuel unit per iteration; each
iteration that continues advances the cursor by a matched label's
length. -/
def containsLoop (nodes : List CompactNode) (labels : List Nat) (key : List Nat) :
    Nat → Nat → Nat → Exec Bool
  | 0, _, _ => .fuelOut
  | fuel + 1, node_idx, cursor =>
    match nodes.get? node_idx with
    | none => .panic .sliceOutOfRange
    | some nd =>
      if cursor < key.length then
        if nd.first_child = COMPACT_NONE then .ok false
        else
          match scanSiblings nodes labels (key.drop cursor) (nodes.length + 1) nd.first_child with
          | .ok (some (cidx, consumed)) =>
            containsLoop nodes labels key fuel cidx (cursor + consumed)
          | .ok none => .ok false
          | .panic k => .panic k
          | .fuelOut => .fuelOut
      else .ok nd.is_terminal

/-- API operation `CompactRadixTrie::contains`.  The fuel
`|key| + 1` covers every run on a trie whose labels are non-empty
(each loop iteration consumes at least one key byte); the correctness
theorems prove the result is `ok` on built tries. -/
def CompactRadixTrie.contains (nodes : List CompactNode) (labels : List Nat)
    (key : List Char) : Exec Bool :=
  containsLoop nodes labels (strBytes key) ((strBytes key).length + 1) 0 0

mutual

/-- `CompactRadixTrie::collect_suggestions`: depth-first emission of the
subtree below `node_idx`, label tail from `offset`, capped at `k`
results.  The Rust code pushes the label remainder onto `buffer`, emits
it at terminal nodes, recurses, and truncates `buffer` back on every
exit path, so the buffer a call leaves behind equals the one it was
given; the embedding therefore threads the extended buffer downwards
and simply discards it on return.  Fuel decreases on every nested call;
on built tries child indices strictly increase, so `2·|nodes| + 2`
outlasts every call chain. -/
def collectGo (nodes : List CompactNode) (labels : List Nat) (k : Nat) :
    Nat → Nat → Nat → List Nat → List (List Nat) → Exec (List (List Nat))
  | 0, _, _, _, _ => .fuelOut
  | fuel + 1, node_idx, offset, buffer, results =>
    if k ≤ results.length then .ok results
    else
      match getLabel nodes labels node_idx with
      | none => .panic .sliceOutOfRange
      | some lab =>
        if lab.length < offset then .panic .sliceOutOfRange
        else
          let buffer2 := buffer ++ lab.drop offset
          let results2 := if (nodes.getD node_idx default).is_terminal
            then results ++ [buffer2] else results
          if k ≤ results2.length then .ok results2
          else
            let child := (nodes.getD node_idx default).first_child
            if child = COMPACT_NONE then .ok results2
            else collectSibs nodes labels k fuel child buffer2 results2

/-- The sibling loop shared by `collect_suggestions` and the tail of
`suggest`: run `collect_suggestions` on each sibling in index order,
stopping as soon as `k` results exist. -/
def collectSibs (nodes : List CompactNode) (labels : List Nat) (k : Nat) :
    Nat → Nat → List Nat → List (List Nat) → Exec (List (List Nat))
  | 0, _, _, _ => .fuelOut
  | fuel + 1, child, buffer, results =>
    match collectGo nodes labels k fuel child 0 buffer results with
    | .ok results2 =>
      if k ≤ results2.length then .ok results2
      else if (nodes.getD child default).has_next_sibling then
        collectSibs nodes labels k fuel (child + 1) buffer results2
      else .ok results2
    | e => e

end

/-- The sibling scan of `suggest`'s descent loop.  It commits to the
first sibling with a non-zero byte LCP against the remaining prefix:
collect below it if the prefix is exhausted, descend if the whole label
matched, or return no results on a mid-edge divergence; only an LCP of
zero moves to the next sibling.  `inl` carries a final result list,
`inr` the descent target `(child, cursor, buffer)`. -/
def suggestScan (nodes : List CompactNode) (labels : List Nat) (p : List Nat) (k : Nat) :
    Nat → Nat → Nat → List Nat → Exec (Sum (List (List Nat)) (Nat × Nat × List Nat))
  | 0, _, _, _ => .fuelOut
  | fuel + 1, child_idx, cursor, buffer =>
    match getLabel nodes labels child_idx with
    | none => .panic .sliceOutOfRange
    | some lab =>
      let keyPart := p.drop cursor
      let cl := commonPreLen lab keyPart
      if 0 < cl then
        let buffer2 := buffer ++ lab.take cl
        if cl = keyPart.length then
          match collectGo nodes labels k (2 * nodes.length + 2) child_idx cl buffer2 [] with
          | .ok results => .ok (.inl results)
          | .panic pk => .panic pk
          | .fuelOut => .fuelOut
        else if cl = lab.length then .ok (.inr (child_idx, cursor + cl, buffer2))
        else .ok (.inl [])
      else if (nodes.getD child_idx default).has_next_sibling then
        suggestScan nodes labels p k fuel (child_idx + 1) cursor buffer
      else .ok (.inl [])

/-- The outer `while key_cursor < prefix_bytes.len()` loop of `suggest`,
followed by the post-loop phase: at the node covering the whole prefix,
push the prefix itself if the node is terminal (note: before any `k`
check), then collect over the children in sibling order.  The
`String::from_utf8(buffer).unwrap()` of the collect branch always
succeeds because the buffer then holds exactly the prefix's bytes, so it
is not a separate outcome. -/
def suggestLoop (nodes : List CompactNode) (labels : List Nat) (p : List Nat) (k : Nat) :
    Nat → Nat → Nat → List Nat → Exec (List (List Nat))
  | 0, _, _, _ => .fuelOut
  | fuel + 1, node_idx, cursor, buffer =>
    match nodes.get? node_idx with
    | none => .panic .sliceOutOfRange
    | some nd =>
      if cursor < p.length then
        if nd.first_child = COMPACT_NONE then .ok []
        else
          match suggestScan nodes labels p k (nodes.length + 1) nd.first_child cursor buffer with
          | .ok (.inl results) => .ok results
          | .ok (.inr st) => suggestLoop nodes labels p k fuel st.1 st.2.1 st.2.2
          | .panic pk => .panic pk
          | .fuelOut => .fuelOut
      else
        let results0 := if nd.is_terminal then [p] else []
        if nd.first_child = COMPACT_NONE then .ok results0
        else collectSibs nodes labels k (2 * nodes.length + 2) nd.first_child p results0

/-- API operation `CompactRadixTrie::suggest`.  Results are the byte
strings of the returned `Vec<String>`.  The descent fuel `|prefix| + 1`
covers every run (a descent step always consumes at least one prefix
byte). -/
def CompactRadixTrie.suggest (nodes : List CompactNode) (labels : List Nat)
    (p : List Char) (k : Nat) : Exec (List (List Nat)) :=
  suggestLoop nodes labels (strBytes p) k ((strBytes p).length + 1) 0 0 []

/-- Little-endian bytes of a `u32` (`to_le_bytes`); encoding a `Nat`
keeps only its low 32 bits, exactly like the Rust `as u32` casts. -/
def le4 (n : Nat) : List Nat :=
  [n % 256, n / 256 % 256, n / 65536 % 256, n / 16777216 % 256]

/-- Little-endian `u32` read at offset `i` (`u32::from_le_bytes` of
`data[i..i + 4]`); only evaluated after the corresponding length
check. -/
def le4get (data : List Nat) (i : Nat) : Nat :=
  data.getD i 0 + data.getD (i + 1) 0 * 256 + data.getD (i + 2) 0 * 65536
    + data.getD (i + 3) 0 * 16777216

/-- In-memory bytes of one `CompactNode` (two little-endian `u32`s, as
`#[repr(C)]` lays them out on a little-endian host). -/
def nodeBytes (n : CompactNode) : List Nat :=
  le4 n.label_start ++ le4 n.packed

/-- API operation `CompactRadixTrie::to_bytes`: node count, raw node
records, label count, label bytes. -/
def CompactRadixTrie.to_bytes (nodes : List CompactNode) (labels : List Nat) : List Nat :=
  le4 nodes.length ++ (nodes.map nodeBytes).flatten ++ le4 labels.length ++ labels

/-- Reinterpreting `count * 8` raw bytes as `CompactNode` records
(the `slice::from_raw_parts` cast in `from_bytes`). -/
def decodeNodes : Nat → List Nat → List CompactNode
  | 0, _ => []
  | c + 1, bs => ⟨le4get bs 0, le4get bs 4⟩ :: decodeNodes c (bs.drop 8)

/-- API operation `CompactRadixTrie::from_bytes`.  The only checks the
Rust code performs are the implicit slice-bound panics, modelled by the
three length tests (in the order the slices are taken); there is no
validation of label offsets or child indices. -/
def CompactRadixTrie.from_bytes (data : List Nat) : Option (List CompactNode × List Nat) :=
  if data.length < 4 then none
  else
    let node_count := le4get data 0
    let nodes_end := 4 + node_count * 8
    if data.length < nodes_end then none
    else if data.length < nodes_end + 4 then none
    else
      let labels_count := le4get data nodes_end
      if data.length < nodes_end + 4 + labels_count then none
      else some (decodeNodes node_count ((data.drop 4).take (node_count * 8)),
        (data.drop (nodes_end + 4)).take labels_count)

/-- `size_in_bytes`: `8·N + L`. -/
def CompactRadixTrie.size_in_bytes (nodes : List CompactNode) (labels : List Nat) : Nat :=
  nodes.length * 8 + labels.length

/-- The compact node at index `i` (indices are in range wherever this is
used under a `Matches` or length hypothesis). -/
def nodeAt (nodes : List CompactNode) (i : Nat) : CompactNode :=
  nodes.getD i default

/-- A string of 7-bit characters; on these, `str::len` equals the
character count and distinct first characters give distinct first
bytes. -/
def allAscii (s : List Char) : Prop :=
  ∀ c ∈ s, c.toNat < 128

/-- Well-formedness of builder trees, true of every tree reachable from
`TrieBuilder::new` by `insert`: children are keyed by the (distinct)
first characters of their non-empty edge labels. -/
inductive WFB : BNode → Prop where
  | mk (p : List Char) (cs : List (Char × BNode)) (lf : Bool)
      (hkeys : (cs.map Prod.fst).Nodup)
      (hne : ∀ kn ∈ cs, (kn.2 : BNode).pfx ≠ [])
      (hhead : ∀ kn ∈ cs, (kn.2 : BNode).pfx.head? = some kn.1)
      (hrec : ∀ kn ∈ cs, WFB kn.2) :
      WFB ⟨p, cs, lf⟩

/-- `HasWord t w`: some word inserted below `t` spells `w` (the
concatenation of edge labels from `t` down to a node whose `is_leaf`
flag is set, excluding `t`'s own label).  At the root this is exactly
"`w` was inserted" for non-empty `w`. -/
inductive HasWord : BNode → List Char → Prop where
  | stop (p : List Char) (cs : List (Char × BNode)) : HasWord ⟨p, cs, true⟩ []
  | via (p : List Char) (cs : List (Char × BNode)) (lf : Bool) (k : Char) (n : BNode)
      (w : List Char) (hmem : (k, n) ∈ cs) (hw : HasWord n w) :
      HasWord ⟨p, cs, lf⟩ (n.pfx ++ w)

/-- Correspondence between a builder subtree and the compact arrays: the
node at index `i` carries the subtree root's label bytes and terminal
flag, and its children occupy a contiguous block (in sorted order,
chained by `has_next_sibling`) each of which corresponds recursively. -/
inductive Matches (nodes : List CompactNode) (labels : List Nat) : Nat → BNode → Prop where
  | leafN (i : Nat) (p : List Char) (cs : List (Char × BNode)) (lf : Bool)
      (hi : i < nodes.length)
      (hlab : labelSliceAt labels (nodeAt nodes i) = some (strBytes p))
      (hterm : (nodeAt nodes i).is_terminal = lf)
      (hkids : sortChildren cs = [])
      (hfc : (nodeAt nodes i).first_child = COMPACT_NONE) :
      Matches nodes labels i ⟨p, cs, lf⟩
  | nodeN (i : Nat) (p : List Char) (cs : List (Char × BNode)) (lf : Bool) (s : Nat)
      (hi : i < nodes.length)
      (hlab : labelSliceAt labels (nodeAt nodes i) = some (strBytes p))
      (hterm : (nodeAt nodes i).is_terminal = lf)
      (hne : sortChildren cs ≠ [])
      (hfc : (nodeAt nodes i).first_child = s)
      (hs : s ≠ COMPACT_NONE)
      (hgt : i < s)
      (hblock : s + (sortChildren cs).length ≤ nodes.length)
      (hsib : ∀ j, j < (sortChildren cs).length →
        (nodeAt nodes (s + j)).has_next_sibling = decide (j + 1 < (sortChildren cs).length))
      (hkids : ∀ j, j < (sortChildren cs).length →
        Matches nodes labels (s + j) ((sortChildren cs).getD j freshBuilder)) :
      Matches nodes labels i ⟨p, cs, lf⟩

/-- Precondition `compress_labels` enjoys when called from `build`:
every node's label slice is in range and is the UTF-8 encoding of some
string of at most 127 bytes. -/
def goodNodes (nodes : List CompactNode) (labels : List Nat) : Prop :=
  ∀ cn ∈ nodes, ∃ s : List Char, labelSliceAt labels cn = some (strBytes s) ∧ strLen s ≤ 127

/-- The reference value for `suggest`: the distinct non-empty inserted
words, sorted in ascending byte-lexicographic order. -/
def sortedWords (ws : List (List Char)) : List (List Char) :=
  List.insertionSort (fun a b => lexLe (strBytes a) (strBytes b) = true)
    (ws.filter (fun w => ¬ w.isEmpty)).dedup

/-- The reference value of one `suggest(p, k)` call: the first `k`
sorted matches of the prefix, as byte strings. -/
def expectedSuggest (ws : List (List Char)) (p : List Char) (k : Nat) : List (List Nat) :=
  (((sortedWords ws).filter (fun w => isPre (strBytes p) (strBytes w))).map strBytes).take k

/-- Invariant of the BFS queue in `TrieBuilder::build`: queued indices
are distinct indices of already-pushed nodes whose `first_child` is
still the sentinel and whose label slice and terminal flag describe the
queued builder subtree. -/
def QueueInv (nodes : List CompactNode) (labels : List Nat)
    (q : List (Nat × BNode)) : Prop :=
  (q.map Prod.fst).Nodup ∧
  ∀ it ∈ q, it.1 < nodes.length ∧ WFB it.2 ∧
    (nodeAt nodes it.1).first_child = COMPACT_NONE ∧
    labelSliceAt labels (nodeAt nodes it.1) = some (strBytes (it.2 : BNode).pfx) ∧
    (nodeAt nodes it.1).is_terminal = (it.2 : BNode).is_leaf

/-- Per-index wellformedness of the flattener's output, as
`compress_labels` needs it: the label slice is in range and encodes a
string of at most 127 bytes, and the packed word fits in a `u32`. -/
def goodNode (nodes : List CompactNode) (labels : List Nat) (j : Nat) : Prop :=
  (∃ s : List Char, labelSliceAt labels (nodeAt nodes j) = some (strBytes s) ∧
    strLen s ≤ 127) ∧
  (nodeAt nodes j).packed < 2 ^ 32

/-- Invariant of the two folding phases of `compress_labels`: an id the
folds have deactivated redirects to a strictly longer string containing
its own string at the recorded byte offset; lengths of the two working
vectors never change. -/
def RedInv (uniques : List (List Char)) (red : List (Nat × Nat)) (act : List Bool) :
    Prop :=
  red.length = uniques.length ∧ act.length = uniques.length ∧
  ∀ i, i < uniques.length → act.getD i false = false →
    (red.getD i (i, 0)).1 < uniques.length ∧
    strLen (uGet uniques i) < strLen (uGet uniques (red.getD i (i, 0)).1) ∧
    (red.getD i (i, 0)).2 + strLen (uGet uniques i) ≤
      strLen (uGet uniques (red.getD i (i, 0)).1) ∧
    strBytes (uGet uniques i) =
      ((strBytes (uGet uniques (red.getD i (i, 0)).1)).drop
        (red.getD i (i, 0)).2).take (strLen (uGet uniques i))

/-- Every edge label in a builder subtree is 7-bit.  Insertion of 7-bit
words preserves this, and on such trees the byte LCP always ends on a
character boundary, so the two slicing panics of `insert` are
unreachable. -/
inductive AsciiB : BNode → Prop where
  | mk (p : List Char) (cs : List (Char × BNode)) (lf : Bool)
      (hp : allAscii p) (hrec : ∀ kn ∈ cs, AsciiB kn.2) : AsciiB ⟨p, cs, lf⟩

/-- The word suffixes below a builder node in the depth-first order the
compact trie's `collect_suggestions` emits them: the empty suffix when
the node is terminal, then each child block in sorted label order.  The
fuel only needs to exceed the length of every word below the node
(every level consumes at least one character on well-formed trees). -/
def treeWords : Nat → BNode → List (List Char)
  | 0, _ => []
  | fuel + 1, t =>
    (if t.is_leaf then [[]] else []) ++
      ((sortChildren t.children).map
        (fun c => (treeWords fuel c).map (fun w => c.pfx ++ w))).flatten

mutual

/-- Total number of builder nodes in a subtree, the count the compact
arrays of a successful `build` hold. -/
def countT : BNode → Nat
  | .mk _ cs _ => 1 + countL cs

/-- Sum of the subtree sizes of a children list. -/
def countL : List (Char × BNode) → Nat
  | [] => 0
  | kn :: rest => countT kn.2 + countL rest

end

/-- Every edge label of the subtree fits the 7-bit length field: the
regime in which neither `LabelTooLong` check of `build` can fire. -/
inductive LabOK : BNode → Prop where
  | mk (p : List Char) (cs : List (Char × BNode)) (lf : Bool)
      (hp : strLen p ≤ 127) (hrec : ∀ kn ∈ cs, LabOK kn.2) : LabOK ⟨p, cs, lf⟩

/-- Nodes still to be pushed by the BFS on behalf of the queued entries:
each queued node is already in the array, its strict descendants are
not. -/
def qCount (q : List (Nat × BNode)) : Nat :=
  (q.map (fun it => countL (it.2 : BNode).children)).sum

/-- A chain of `n + 1` single-child nodes with one-byte labels: the
smallest family whose flattened form reaches any prescribed node count
with every block start equal to its depth. -/
def chainB : Nat → BNode
  | 0 => ⟨['a'], [], true⟩
  | n + 1 => ⟨['a'], [('a', chainB n)], false⟩

/-!
Theorems.  First the claim theorems that need no shared machinery, then
the lemma library for the builder/flattener/compressor/reader, then the
remaining claims.
-/

/-- C10: `CompactNode::new` performs no range rejection: the accessors
of the constructed node return `label_start` unchanged, `first_child`
mod `2^23`, `label_len` mod `2^7` and the two flags, and the
constructor/accessor round trip is exact precisely when
`first_child ≤ 0x7FFFFF` and `label_len ≤ 127` (out-of-range values are
silently truncated by masking; the `debug_assert!`s vanish in release
builds). -/
theorem claim_C10 (ls fc len : Nat) (t s : Bool) :
    (CompactNode.new ls fc len t s).label_start = ls ∧
    (CompactNode.new ls fc len t s).first_child = fc % 2 ^ 23 ∧
    (CompactNode.new ls fc len t s).label_len = len % 2 ^ 7 ∧
    (CompactNode.new ls fc len t s).is_terminal = t ∧
    (CompactNode.new ls fc len t s).has_next_sibling = s ∧
    (((CompactNode.new ls fc len t s).first_child = fc ∧
      (CompactNode.new ls fc len t s).label_len = len) ↔ fc ≤ 0x7FFFFF ∧ len ≤ 127) := by
  unfold CompactNode.new CompactNode.first_child CompactNode.label_len
    CompactNode.is_terminal CompactNode.has_next_sibling
  cases t <;> cases s <;>
    refine ⟨rfl, ?_, ?_, ?_, ?_, ?_⟩ <;>
    simp only [cond, decide_eq_true_eq, decide_eq_false_iff_not] <;>
    omega

/-- Counterexample to C8: `from_bytes` does not report any error for
corrupt images.  An image declaring one node whose `label_start = 99`
and `label_len = 5` point far outside its empty label section is
accepted verbatim, and an input too short for its sections makes
`from_bytes` panic (`none`) instead of returning an error value. -/
theorem claim_C8_counter :
    CompactRadixTrie.from_bytes
        [1, 0, 0, 0, 99, 0, 0, 0, 0, 0, 128, 2, 0, 0, 0, 0] =
      some ([⟨99, 5 * 2 ^ 23⟩], []) ∧
    CompactRadixTrie.from_bytes [] = none := by
  constructor <;> rfl

/-- C8 (amended): `from_bytes` validates nothing beyond what slice
indexing forces: it panics — it does not return an error value —
exactly when the input is shorter than its declared sections
(`nodes_end + 4 ≤ len` or `labels_end ≤ len` fails), and otherwise
succeeds whatever the label offsets and child indices contain. -/
theorem claim_C8 (data : List Nat) :
    CompactRadixTrie.from_bytes data = none ↔
      (data.length < 4 + le4get data 0 * 8 + 4 ∨
        data.length < 4 + le4get data 0 * 8 + 4 + le4get data (4 + le4get data 0 * 8)) := by
  unfold CompactRadixTrie.from_bytes
  dsimp only
  split
  · simp; omega
  · split
    · simp; omega
    · split
      · simp; omega
      · split
        · simp; omega
        · simp; omega

/-- Counterexample to C6: inserting the empty string is a no-op, not a
root-terminal marking.  On a fresh builder, `insert("")` returns the
builder unchanged, the root's `is_leaf` stays `false`, and `contains("")`
on the built trie returns `false`. -/
theorem claim_C6_counter :
    TrieBuilder.insert freshBuilder [] = .ok freshBuilder ∧
    freshBuilder.is_leaf = false ∧
    TrieBuilder.build 2 freshBuilder = .ok ([CompactNode.new 0 COMPACT_NONE 0 false false], []) ∧
    CompactRadixTrie.contains [CompactNode.new 0 COMPACT_NONE 0 false false] [] [] =
      .ok false := by
  exact ⟨rfl, rfl, rfl, rfl⟩

/-- C6 (amended): `insert("")` leaves every builder state unchanged —
the `while !remaining_key.is_empty()` loop body never runs — so in
particular the root's `is_leaf` flag keeps its value instead of being
set. -/
theorem claim_C6 (t : BNode) : TrieBuilder.insert t [] = .ok t := rfl

/-- Counterexample to C5: `insert` does not accept every non-empty
word.  Inserting `"aé"` and then `"aè"` panics: their byte LCP is 2,
which falls inside the two-byte encoding of `é`, so the split's string
slicing trips Rust's character-boundary check. -/
theorem claim_C5_counter :
    insertAll [['a', 'é'], ['a', 'è']] = .panic .charBoundary := rfl

theorem char_toNat_lt (c : Char) : c.toNat < 0x110000 := by
  rcases c.valid with h | h
  · exact lt_trans h (by norm_num)
  · exact h.2

theorem char_eq_of_toNat_eq {a b : Char} (h : a.toNat = b.toNat) : a = b :=
  Char.ext (UInt32.ext h)

theorem utf8Encode_ne_nil (c : Char) : utf8Encode c ≠ [] := by
  unfold utf8Encode
  dsimp only
  split <;> try simp
  split <;> try simp
  split <;> simp

theorem utf8Encode_lt_256 (c : Char) : ∀ b ∈ utf8Encode c, b < 256 := by
  have hc := char_toNat_lt c
  unfold utf8Encode
  dsimp only
  split
  · intro b hb; simp at hb; omega
  · split
    · intro b hb; simp at hb; rcases hb with h | h <;> omega
    · split
      · intro b hb; simp at hb; rcases hb with h | h | h <;> omega
      · intro b hb; simp at hb; rcases hb with h | h | h | h <;> omega

theorem utf8Encode_inj_append {a b : Char} {l1 l2 : List Nat}
    (h : utf8Encode a ++ l1 = utf8Encode b ++ l2) : a = b := by
  have ha := char_toNat_lt a
  have hb := char_toNat_lt b
  refine char_eq_of_toNat_eq ?_
  unfold utf8Encode at h
  dsimp only at h
  by_cases h1a : a.toNat < 0x80 <;> by_cases h1b : b.toNat < 0x80 <;>
    by_cases h2a : a.toNat < 0x800 <;> by_cases h2b : b.toNat < 0x800 <;>
    by_cases h3a : a.toNat < 0x10000 <;> by_cases h3b : b.toNat < 0x10000 <;>
    simp only [if_pos, if_neg, h1a, h1b, h2a, h2b, h3a, h3b, if_true, if_false,
      List.cons_append, List.nil_append, List.cons.injEq] at h <;>
    omega

theorem strBytes_nil : strBytes [] = [] := rfl

theorem strBytes_cons (c : Char) (s : List Char) :
    strBytes (c :: s) = utf8Encode c ++ strBytes s := rfl

theorem strBytes_append (a b : List Char) :
    strBytes (a ++ b) = strBytes a ++ strBytes b := by
  simp [strBytes]

theorem strBytes_eq_nil {s : List Char} : strBytes s = [] ↔ s = [] := by
  cases s with
  | nil => simp [strBytes_nil]
  | cons c t =>
    simp only [strBytes_cons, List.append_eq_nil]
    exact ⟨fun h => absurd h.1 (utf8Encode_ne_nil c), fun h => by simp at h⟩

theorem strBytes_inj {s t : List Char} (h : strBytes s = strBytes t) : s = t := by
  induction s generalizing t with
  | nil =>
    exact (strBytes_eq_nil.mp h.symm).symm
  | cons c s ih =>
    cases t with
    | nil => exact absurd (strBytes_eq_nil.mp h) (by simp)
    | cons d t =>
      rw [strBytes_cons, strBytes_cons] at h
      have hcd := utf8Encode_inj_append h
      subst hcd
      have := List.append_cancel_left h
      rw [ih this]

theorem strBytes_pre_iff {s t : List Char} : strBytes s <+: strBytes t ↔ s <+: t := by
  constructor
  · intro h
    induction s generalizing t with
    | nil => exact List.nil_prefix
    | cons c s ih =>
      cases t with
      | nil =>
        rcases h with ⟨l, hl⟩
        rw [strBytes_cons, strBytes_nil] at hl
        exact absurd (List.append_eq_nil.mp (List.append_assoc _ _ _ ▸ hl)).1
          (utf8Encode_ne_nil c)
      | cons d t =>
        rcases h with ⟨l, hl⟩
        rw [strBytes_cons, strBytes_cons, List.append_assoc] at hl
        have hcd := utf8Encode_inj_append hl
        subst hcd
        have hrest := List.append_cancel_left hl
        exact List.cons_prefix_cons.mpr ⟨rfl, ih ⟨l, hrest⟩⟩
  · rintro ⟨u, hu⟩
    exact ⟨strBytes u, by rw [← strBytes_append, hu]⟩

theorem isPre_iff {a b : List Nat} : isPre a b = true ↔ a <+: b := by
  induction a generalizing b with
  | nil => simp [isPre]
  | cons x xs ih =>
    cases b with
    | nil => simp [isPre]
    | cons y ys =>
      simp only [isPre, Bool.and_eq_true, decide_eq_true_eq, List.cons_prefix_cons]
      exact and_congr Iff.rfl ih

theorem commonPreLen_le_left (a b : List Nat) : commonPreLen a b ≤ a.length := by
  induction a generalizing b with
  | nil => simp [commonPreLen]
  | cons x xs ih =>
    cases b with
    | nil => simp [commonPreLen]
    | cons y ys =>
      simp only [commonPreLen]
      split
      · simpa using ih ys
      · simp

theorem commonPreLen_le_right (a b : List Nat) : commonPreLen a b ≤ b.length := by
  induction a generalizing b with
  | nil => simp [commonPreLen]
  | cons x xs ih =>
    cases b with
    | nil => simp [commonPreLen]
    | cons y ys =>
      simp only [commonPreLen]
      split
      · simpa using ih ys
      · simp

theorem commonPreLen_eq_left_iff {a b : List Nat} :
    commonPreLen a b = a.length ↔ a <+: b := by
  induction a generalizing b with
  | nil => simp [commonPreLen]
  | cons x xs ih =>
    cases b with
    | nil =>
      simp only [commonPreLen, List.prefix_nil]
      constructor
      · intro h; simp at h
      · intro h; simp at h
    | cons y ys =>
      by_cases hxy : x = y
      · subst hxy
        simp only [commonPreLen, eq_self_iff_true, if_true, List.length_cons,
          Nat.add_right_cancel_iff, List.cons_prefix_cons, true_and]
        exact ih
      · simp only [commonPreLen, if_neg hxy, List.length_cons, List.cons_prefix_cons]
        constructor
        · intro h; omega
        · rintro ⟨h1, _⟩; exact absurd h1 hxy

theorem commonPreLen_of_pre {a b : List Nat} (h : a <+: b) :
    commonPreLen a b = a.length := commonPreLen_eq_left_iff.mpr h

theorem commonPreLen_take (a b : List Nat) :
    a.take (commonPreLen a b) = b.take (commonPreLen a b) := by
  induction a generalizing b with
  | nil => simp [commonPreLen]
  | cons x xs ih =>
    cases b with
    | nil => simp [commonPreLen]
    | cons y ys =>
      simp only [commonPreLen]
      split
      · next hxy => simp [hxy, List.take_succ_cons, ih ys]
      · simp

theorem commonPreLen_ne {a b : List Nat} (h1 : commonPreLen a b < a.length)
    (h2 : commonPreLen a b < b.length) :
    a.getD (commonPreLen a b) 0 ≠ b.getD (commonPreLen a b) 0 := by
  induction a generalizing b with
  | nil => simp at h1
  | cons x xs ih =>
    cases b with
    | nil => simp at h2
    | cons y ys =>
      by_cases hxy : x = y
      · subst hxy
        have hr : commonPreLen (x :: xs) (x :: ys) = commonPreLen xs ys + 1 := by
          simp [commonPreLen]
        rw [hr] at h1 h2 ⊢
        simp only [List.getD_cons_succ]
        exact ih (by simpa using h1) (by simpa using h2)
      · have hr : commonPreLen (x :: xs) (y :: ys) = 0 := by
          simp [commonPreLen, hxy]
        rw [hr]
        simpa using hxy

theorem lexLe_total (a b : List Nat) : lexLe a b = true ∨ lexLe b a = true := by
  induction a generalizing b with
  | nil => left; rfl
  | cons x xs ih =>
    cases b with
    | nil => right; rfl
    | cons y ys =>
      simp only [lexLe]
      rcases Nat.lt_trichotomy x y with h | h | h
      · left; simp [h]
      · subst h; simpa [Nat.lt_irrefl] using ih ys
      · right; simp [h, Nat.not_lt.mpr (Nat.le_of_lt h)]

theorem lexLe_trans {a b c : List Nat} (h1 : lexLe a b = true) (h2 : lexLe b c = true) :
    lexLe a c = true := by
  induction a generalizing b c with
  | nil => rfl
  | cons x xs ih =>
    cases b with
    | nil => simp [lexLe] at h1
    | cons y ys =>
      cases c with
      | nil => simp [lexLe] at h2
      | cons z zs =>
        simp only [lexLe] at h1 h2 ⊢
        rcases Nat.lt_trichotomy x y with hxy | hxy | hxy
        · rcases Nat.lt_trichotomy y z with hyz | hyz | hyz
          · simp [Nat.lt_trans hxy hyz]
          · subst hyz; simp [hxy]
          · rw [if_neg (by omega), if_pos hyz] at h2; exact absurd h2 (by simp)
        · subst hxy
          rcases Nat.lt_trichotomy x z with hyz | hyz | hyz
          · simp [hyz]
          · subst hyz
            rw [if_neg (Nat.lt_irrefl x), if_neg (Nat.lt_irrefl x)] at h1 h2 ⊢
            exact ih h1 h2
          · rw [if_neg (by omega), if_pos hyz] at h2; exact absurd h2 (by simp)
        · rw [if_neg (by omega), if_pos hxy] at h1; exact absurd h1 (by simp)

theorem lexLe_antisymm {a b : List Nat} (h1 : lexLe a b = true) (h2 : lexLe b a = true) :
    a = b := by
  induction a generalizing b with
  | nil =>
    cases b with
    | nil => rfl
    | cons y ys => simp [lexLe] at h2
  | cons x xs ih =>
    cases b with
    | nil => simp [lexLe] at h1
    | cons y ys =>
      simp only [lexLe] at h1 h2
      rcases Nat.lt_trichotomy x y with h | h | h
      · simp [h, Nat.lt_irrefl, Nat.not_lt.mpr (Nat.le_of_lt h)] at h2
      · subst h
        simp only [Nat.lt_irrefl, if_false] at h1 h2
        rw [ih h1 h2]
      · simp [h, Nat.lt_irrefl, Nat.not_lt.mpr (Nat.le_of_lt h)] at h1

theorem lexLt_irrefl (a : List Nat) : lexLt a a = false := by
  induction a with
  | nil => rfl
  | cons x xs ih => simp [lexLt, Nat.lt_irrefl, ih]

theorem lexLt_of_lexLe_of_ne {a b : List Nat} (h1 : lexLe a b = true) (h2 : a ≠ b) :
    lexLt a b = true := by
  induction a generalizing b with
  | nil =>
    cases b with
    | nil => exact absurd rfl h2
    | cons y ys => rfl
  | cons x xs ih =>
    cases b with
    | nil => simp [lexLe] at h1
    | cons y ys =>
      simp only [lexLe] at h1
      simp only [lexLt]
      rcases Nat.lt_trichotomy x y with h | h | h
      · simp [h]
      · subst h
        simp only [Nat.lt_irrefl, if_false] at h1 ⊢
        exact ih h1 (fun hx => h2 (by rw [hx]))
      · simp [Nat.lt_irrefl, Nat.not_lt.mpr (Nat.le_of_lt h), h] at h1

theorem lexLe_of_lexLt {a b : List Nat} (h : lexLt a b = true) : lexLe a b = true := by
  induction a generalizing b with
  | nil => rfl
  | cons x xs ih =>
    cases b with
    | nil => simp [lexLt] at h
    | cons y ys =>
      simp only [lexLt] at h
      simp only [lexLe]
      rcases Nat.lt_trichotomy x y with hx | hx | hx
      · simp [hx]
      · subst hx
        simp only [Nat.lt_irrefl, if_false] at h ⊢
        exact ih h
      · simp [Nat.lt_irrefl, Nat.not_lt.mpr (Nat.le_of_lt hx), hx] at h

theorem lexLt_ne {a b : List Nat} (h : lexLt a b = true) : a ≠ b := by
  intro he
  subst he
  rw [lexLt_irrefl] at h
  exact Bool.false_ne_true h

theorem lexLt_asymm {a b : List Nat} (h : lexLt a b = true) : lexLt b a = false := by
  by_contra hc
  have hba : lexLt b a = true := by
    cases hb : lexLt b a
    · exact absurd hb hc
    · rfl
  have := lexLe_antisymm (lexLe_of_lexLt h) (lexLe_of_lexLt hba)
  exact lexLt_ne h this

theorem lexLt_trans {a b c : List Nat} (h1 : lexLt a b = true) (h2 : lexLt b c = true) :
    lexLt a c = true := by
  have hle := lexLe_trans (lexLe_of_lexLt h1) (lexLe_of_lexLt h2)
  refine lexLt_of_lexLe_of_ne hle ?_
  intro he
  subst he
  have := lexLt_asymm h1
  rw [h2] at this
  simp at this

theorem lexLe_of_pre {a b : List Nat} (h : a <+: b) : lexLe a b = true := by
  induction a generalizing b with
  | nil => rfl
  | cons x xs ih =>
    cases b with
    | nil => simp at h
    | cons y ys =>
      rcases List.cons_prefix_cons.mp h with ⟨he, ht⟩
      subst he
      simp only [lexLe, Nat.lt_irrefl, if_false]
      exact ih ht

theorem lexLt_of_pre_ne {a b : List Nat} (h : a <+: b) (hne : a ≠ b) :
    lexLt a b = true :=
  lexLt_of_lexLe_of_ne (lexLe_of_pre h) hne

theorem lexLt_append {a b : List Nat} (h : lexLt a b = true) (hp : ¬ a <+: b)
    (u v : List Nat) : lexLt (a ++ u) (b ++ v) = true := by
  induction a generalizing b with
  | nil => exact absurd List.nil_prefix hp
  | cons x xs ih =>
    cases b with
    | nil => simp [lexLt] at h
    | cons y ys =>
      simp only [lexLt] at h
      simp only [List.cons_append, lexLt]
      rcases Nat.lt_trichotomy x y with hxy | hxy | hxy
      · simp [hxy]
      · subst hxy
        simp only [Nat.lt_irrefl, if_false] at h ⊢
        refine ih h ?_
        intro hpre
        exact hp (List.cons_prefix_cons.mpr ⟨rfl, hpre⟩)
      · rw [if_neg (by omega), if_pos hxy] at h
        exact absurd h (by simp)

theorem alLookup_alInsert_self (l : List (Char × BNode)) (k : Char) (v : BNode) :
    alLookup (alInsert l k v) k = some v := by
  induction l with
  | nil => simp [alInsert, alLookup]
  | cons p r ih =>
    rcases p with ⟨k', v'⟩
    by_cases hk : k' = k
    · subst hk; simp [alInsert, alLookup]
    · simp [alInsert, alLookup, hk, ih]

theorem alLookup_alInsert_ne (l : List (Char × BNode)) (k c : Char) (v : BNode)
    (h : c ≠ k) : alLookup (alInsert l k v) c = alLookup l c := by
  have hkc : ¬ (k = c) := fun he => h he.symm
  induction l with
  | nil => simp [alInsert, alLookup, hkc]
  | cons p r ih =>
    rcases p with ⟨k', v'⟩
    by_cases hk : k' = k
    · have h2 : ¬ (k' = c) := by rw [hk]; exact hkc
      simp [alInsert, hk, alLookup, hkc, h2]
    · simp only [alInsert, if_neg hk, alLookup]
      split
      · rfl
      · exact ih

theorem alInsert_keys (l : List (Char × BNode)) (k : Char) (v : BNode) :
    (alInsert l k v).map Prod.fst =
      if k ∈ l.map Prod.fst then l.map Prod.fst else l.map Prod.fst ++ [k] := by
  induction l with
  | nil => simp [alInsert]
  | cons p r ih =>
    rcases p with ⟨k', v'⟩
    by_cases hk : k' = k
    · subst hk; simp [alInsert]
    · have hne : ¬ (k = k') := fun he => hk he.symm
      simp only [alInsert, if_neg hk, List.map_cons, List.mem_cons, ih]
      by_cases hm : k ∈ r.map Prod.fst
      · simp [hm, hne]
      · simp [hm, hne]

theorem alInsert_keys_nodup {l : List (Char × BNode)} (k : Char) (v : BNode)
    (h : (l.map Prod.fst).Nodup) : ((alInsert l k v).map Prod.fst).Nodup := by
  rw [alInsert_keys]
  split
  · exact h
  · next hm => simp [List.nodup_append, h, hm]

theorem alInsert_mem_iff {l : List (Char × BNode)} (hk : (l.map Prod.fst).Nodup)
    (k : Char) (v : BNode) (k' : Char) (v' : BNode) :
    (k', v') ∈ alInsert l k v ↔ (k' = k ∧ v' = v) ∨ ((k', v') ∈ l ∧ k' ≠ k) := by
  induction l with
  | nil =>
    constructor
    · intro h
      simp only [alInsert, List.mem_singleton] at h
      left; exact ⟨congrArg Prod.fst h, congrArg Prod.snd h⟩
    · rintro (⟨h1, h2⟩ | ⟨h, _⟩)
      · subst h1; subst h2; simp [alInsert]
      · simp at h
  | cons p r ih =>
    rcases p with ⟨k0, v0⟩
    simp only [List.map_cons, List.nodup_cons] at hk
    by_cases h0 : k0 = k
    · subst h0
      simp only [alInsert, eq_self_iff_true, if_true, List.mem_cons]
      constructor
      · rintro (h | h)
        · left; exact ⟨congrArg Prod.fst h, congrArg Prod.snd h⟩
        · right
          refine ⟨Or.inr h, ?_⟩
          intro he
          subst he
          exact hk.1 (List.mem_map_of_mem Prod.fst h)
      · rintro (⟨h1, h2⟩ | ⟨h, hne⟩)
        · subst h1; subst h2; left; rfl
        · rcases h with h | h
          · exact absurd (congrArg Prod.fst h) hne
          · right; exact h
    · simp only [alInsert, if_neg h0, List.mem_cons]
      rw [ih hk.2]
      constructor
      · rintro (h | h | h)
        · right
          have h1 := congrArg Prod.fst h
          refine ⟨Or.inl h, ?_⟩
          intro he
          rw [he] at h1
          exact h0 h1.symm
        · left; exact h
        · right; exact ⟨Or.inr h.1, h.2⟩
      · rintro (h | ⟨h, hne⟩)
        · right; left; exact h
        · rcases h with h | h
          · left; exact h
          · right; right; exact ⟨h, hne⟩

theorem alLookup_mem {l : List (Char × BNode)} {k : Char} {v : BNode}
    (h : alLookup l k = some v) : (k, v) ∈ l := by
  induction l with
  | nil => simp [alLookup] at h
  | cons p r ih =>
    rcases p with ⟨k', v'⟩
    simp only [alLookup] at h
    split at h
    · next he =>
      subst he
      cases h
      exact List.mem_cons_self _ _
    · exact List.mem_cons_of_mem _ (ih h)

theorem alLookup_eq_none {l : List (Char × BNode)} {k : Char}
    (h : alLookup l k = none) : k ∉ l.map Prod.fst := by
  induction l with
  | nil => simp
  | cons p r ih =>
    rcases p with ⟨k', v'⟩
    simp only [alLookup] at h
    split at h
    · cases h
    · next hne =>
      simp only [List.map_cons, List.mem_cons]
      rintro (he | hm)
      · exact hne he.symm
      · exact ih h hm

theorem alLookup_of_mem {l : List (Char × BNode)} (hk : (l.map Prod.fst).Nodup)
    {k : Char} {v : BNode} (h : (k, v) ∈ l) : alLookup l k = some v := by
  induction l with
  | nil => simp at h
  | cons p r ih =>
    rcases p with ⟨k', v'⟩
    simp only [List.map_cons, List.nodup_cons] at hk
    rcases List.mem_cons.mp h with h | h
    · cases h; simp [alLookup]
    · have hne : k' ≠ k := by
        intro he
        subst he
        exact hk.1 (List.mem_map_of_mem Prod.fst h)
      simp only [alLookup, if_neg hne]
      exact ih hk.2 h

theorem splitAtByte_spec {s a b : List Char} {n : Nat}
    (h : splitAtByte s n = some (a, b)) : s = a ++ b ∧ strLen a = n := by
  induction s generalizing n a b with
  | nil =>
    cases n with
    | zero => cases h; exact ⟨rfl, rfl⟩
    | succ m => simp [splitAtByte] at h
  | cons c s ih =>
    cases n with
    | zero => cases h; exact ⟨rfl, rfl⟩
    | succ m =>
      simp only [splitAtByte] at h
      split at h
      · next hk =>
        cases hs : splitAtByte s (m + 1 - (utf8Encode c).length) with
        | none => rw [hs] at h; cases h
        | some ab =>
          rcases ab with ⟨a', b'⟩
          rw [hs] at h
          cases h
          rcases ih hs with ⟨h1, h2⟩
          refine ⟨by rw [h1]; rfl, ?_⟩
          have hp : 0 < (utf8Encode c).length :=
            List.length_pos.mpr (utf8Encode_ne_nil c)
          simp only [strLen, strBytes_cons, List.length_append] at h2 ⊢
          omega
      · cases h

theorem splitAtByte_of_boundary (a b : List Char) :
    splitAtByte (a ++ b) (strLen a) = some (a, b) := by
  induction a with
  | nil => simp [splitAtByte, strLen, strBytes_nil]
  | cons c s ih =>
    have hp : 0 < (utf8Encode c).length := List.length_pos.mpr (utf8Encode_ne_nil c)
    have hl : strLen (c :: s) = (utf8Encode c).length + strLen s := by
      simp [strLen, strBytes_cons]
    rw [hl]
    cases he : (utf8Encode c).length + strLen s with
    | zero => omega
    | succ m =>
      simp only [List.cons_append, splitAtByte]
      rw [if_pos (by omega)]
      have hms : m + 1 - (utf8Encode c).length = strLen s := by omega
      simp only [List.append_eq]
      rw [hms, ih]

theorem utf8Encode_ascii {c : Char} (h : c.toNat < 128) : utf8Encode c = [c.toNat] := by
  unfold utf8Encode
  dsimp only
  rw [if_pos h]

theorem strLen_ascii {s : List Char} (h : allAscii s) : strLen s = s.length := by
  induction s with
  | nil => rfl
  | cons c t ih =>
    have hc : c.toNat < 128 := h c (List.mem_cons_self _ _)
    have ht : allAscii t := fun x hx => h x (List.mem_cons_of_mem _ hx)
    simp [strLen, strBytes_cons, utf8Encode_ascii hc] at ih ⊢
    exact ih ht

theorem splitAtByte_ascii {s : List Char} (h : allAscii s) {n : Nat} (hn : n ≤ s.length) :
    splitAtByte s n = some (s.take n, s.drop n) := by
  induction s generalizing n with
  | nil =>
    cases n with
    | zero => rfl
    | succ m => simp at hn
  | cons c t ih =>
    cases n with
    | zero => rfl
    | succ m =>
      have hc : c.toNat < 128 := h c (List.mem_cons_self _ _)
      have ht : allAscii t := fun x hx => h x (List.mem_cons_of_mem _ hx)
      simp only [splitAtByte, utf8Encode_ascii hc, List.length_singleton]
      rw [if_pos (by omega)]
      have : m + 1 - 1 = m := by omega
      rw [this, ih ht (by simpa using hn)]
      rfl

theorem heads_eq_of_strBytes_pre {s t : List Char} (hs : s ≠ []) (ht : t ≠ [])
    (h : strBytes s <+: strBytes t) : s.head? = t.head? := by
  rcases strBytes_pre_iff.mp h with hpre
  cases s with
  | nil => exact absurd rfl hs
  | cons c s' =>
    cases t with
    | nil => exact absurd rfl ht
    | cons d t' =>
      rcases List.cons_prefix_cons.mp hpre with ⟨he, _⟩
      simp [he]

theorem hasWord_inv {p : List Char} {cs : List (Char × BNode)} {lf : Bool} {v : List Char} :
    HasWord ⟨p, cs, lf⟩ v ↔
      (v = [] ∧ lf = true) ∨
      ∃ k n w', (k, n) ∈ cs ∧ HasWord n w' ∧ v = n.pfx ++ w' := by
  constructor
  · intro h
    cases h with
    | stop => left; exact ⟨rfl, rfl⟩
    | via _ _ _ k n w hmem hw => right; exact ⟨k, n, w, hmem, hw, rfl⟩
  · rintro (⟨hv, hlf⟩ | ⟨k, n, w', hmem, hw, hv⟩)
    · subst hv; subst hlf; exact HasWord.stop p cs
    · subst hv; exact HasWord.via p cs lf k n w' hmem hw

theorem hasWord_pfx_free {p1 p2 : List Char} {cs : List (Char × BNode)} {lf : Bool}
    {v : List Char} (h : HasWord ⟨p1, cs, lf⟩ v) : HasWord ⟨p2, cs, lf⟩ v := by
  rcases hasWord_inv.mp h with h | ⟨k, n, w', hmem, hw, hv⟩
  · rcases h with ⟨hv, hlf⟩; subst hv; subst hlf; exact HasWord.stop _ _
  · subst hv; exact HasWord.via _ _ _ k n w' hmem hw

theorem hasWord_head {p : List Char} {cs : List (Char × BNode)} {lf : Bool}
    {v : List Char} (hwf : WFB ⟨p, cs, lf⟩) (h : HasWord ⟨p, cs, lf⟩ v) (hv : v ≠ []) :
    ∃ k n w', (k, n) ∈ cs ∧ HasWord n w' ∧ v = n.pfx ++ w' ∧ v.head? = some k := by
  rcases hasWord_inv.mp h with ⟨hnil, _⟩ | ⟨k, n, w', hmem, hw, heq⟩
  · exact absurd hnil hv
  · cases hwf with
    | mk _ _ _ hkeys hne hhead hrec =>
      refine ⟨k, n, w', hmem, hw, heq, ?_⟩
      have hpne : n.pfx ≠ [] := hne (k, n) hmem
      have hph : n.pfx.head? = some k := hhead (k, n) hmem
      cases hp : n.pfx with
      | nil => exact absurd hp hpne
      | cons c r =>
        rw [hp] at hph
        simp only [List.head?] at hph
        subst heq
        rw [hp]
        simpa using hph

theorem wfb_inv {p : List Char} {cs : List (Char × BNode)} {lf : Bool}
    (h : WFB ⟨p, cs, lf⟩) :
    (cs.map Prod.fst).Nodup ∧
    (∀ kn ∈ cs, (kn.2 : BNode).pfx ≠ []) ∧
    (∀ kn ∈ cs, (kn.2 : BNode).pfx.head? = some kn.1) ∧
    (∀ kn ∈ cs, WFB kn.2) := by
  cases h with
  | mk _ _ _ hkeys hne hhead hrec => exact ⟨hkeys, hne, hhead, hrec⟩

theorem pre_eq_of_length_eq {a b c : List Nat} (ha : a <+: c) (hb : b <+: c)
    (hl : a.length = b.length) : a = b := by
  rcases ha with ⟨u, hu⟩
  rcases hb with ⟨v, hv⟩
  have : a = c.take a.length := by rw [← hu]; simp
  have hb' : b = c.take b.length := by rw [← hv]; simp
  rw [this, hb', hl]

theorem head_byte_eq {s : List Char} {c : Char} (hs : s.head? = some c) :
    (strBytes s).head? = (utf8Encode c).head? := by
  cases s with
  | nil => simp at hs
  | cons d r =>
    have hdc : d = c := by simpa using hs
    rw [strBytes_cons, ← hdc]
    cases he : utf8Encode d with
    | nil => exact absurd he (utf8Encode_ne_nil d)
    | cons b bs => simp [he]

theorem hasWord_leaf {p : List Char} {v : List Char} :
    HasWord ⟨p, [], true⟩ v ↔ v = [] := by
  rw [hasWord_inv]; simp

theorem hasWord_alInsert {p : List Char} {cs : List (Char × BNode)} {lf : Bool}
    {k0 : Char} {n1 : BNode} {v : List Char} (hkeys : (cs.map Prod.fst).Nodup) :
    HasWord ⟨p, alInsert cs k0 n1, lf⟩ v ↔
      ((v = [] ∧ lf = true) ∨
        (∃ k n w', (k, n) ∈ cs ∧ k ≠ k0 ∧ HasWord n w' ∧ v = n.pfx ++ w') ∨
        (∃ w', HasWord n1 w' ∧ v = n1.pfx ++ w')) := by
  rw [hasWord_inv]
  constructor
  · rintro (h | ⟨k, n, w', hmem, hw, hv⟩)
    · left; exact h
    · rcases (alInsert_mem_iff hkeys k0 n1 k n).mp hmem with ⟨hk, hn⟩ | ⟨hm, hk⟩
      · subst hk; subst hn; right; right; exact ⟨w', hw, hv⟩
      · right; left; exact ⟨k, n, w', hm, hk, hw, hv⟩
  · rintro (h | ⟨k, n, w', hm, hk, hw, hv⟩ | ⟨w', hw, hv⟩)
    · left; exact h
    · right
      exact ⟨k, n, w', (alInsert_mem_iff hkeys k0 n1 k n).mpr (Or.inr ⟨hm, hk⟩), hw, hv⟩
    · right
      exact ⟨k0, n1, w', (alInsert_mem_iff hkeys k0 n1 k0 n1).mpr (Or.inl ⟨rfl, rfl⟩), hw, hv⟩

theorem mem_key_unique {l : List (Char × BNode)} (h : (l.map Prod.fst).Nodup)
    {k : Char} {a b : BNode} (ha : (k, a) ∈ l) (hb : (k, b) ∈ l) : a = b := by
  have h1 := alLookup_of_mem h ha
  have h2 := alLookup_of_mem h hb
  rw [h1] at h2
  exact (Option.some.injEq _ _ ▸ h2).symm ▸ rfl

theorem hasWord_set_leaf {p : List Char} {cs : List (Char × BNode)} {lf : Bool}
    {v : List Char} :
    HasWord ⟨p, cs, true⟩ v ↔ HasWord ⟨p, cs, lf⟩ v ∨ v = [] := by
  rw [hasWord_inv, hasWord_inv]
  cases lf
  · constructor
    · rintro (⟨h1, _⟩ | h)
      · right; exact h1
      · left; right; exact h
    · rintro ((⟨_, h⟩ | h) | h)
      · cases h
      · right; exact h
      · left; exact ⟨h, rfl⟩
  · constructor
    · rintro (⟨h1, _⟩ | h)
      · left; left; exact ⟨h1, rfl⟩
      · left; right; exact h
    · rintro ((h | h) | h)
      · left; exact h
      · right; exact h
      · left; exact ⟨h, rfl⟩

theorem commonPreLen_pos {a b : List Nat} (ha : a ≠ []) (hh : a.head? = b.head?) :
    0 < commonPreLen a b := by
  cases a with
  | nil => exact absurd rfl ha
  | cons x xs =>
    cases b with
    | nil => simp at hh
    | cons y ys =>
      have hxy : x = y := by simpa using hh
      simp [commonPreLen, hxy]

theorem head?_append_left {α : Type} {a : List α} (b : List α) (ha : a ≠ []) :
    (a ++ b).head? = a.head? := by
  cases a with
  | nil => exact absurd rfl ha
  | cons x xs => simp

theorem strLen_pos {s : List Char} (h : s ≠ []) : 0 < strLen s := by
  cases s with
  | nil => exact absurd rfl h
  | cons c r =>
    have := List.length_pos.mpr (utf8Encode_ne_nil c)
    simp [strLen, strBytes_cons]
    omega

theorem ne_nil_of_strLen_pos {s : List Char} (h : 0 < strLen s) : s ≠ [] := by
  intro he
  subst he
  simp [strLen, strBytes_nil] at h

theorem wfb_alInsert {p : List Char} {cs : List (Char × BNode)} {lf : Bool}
    {fc : Char} {n1 : BNode} (hwf : WFB ⟨p, cs, lf⟩) (hp : n1.pfx ≠ [])
    (hh : n1.pfx.head? = some fc) (hn : WFB n1) : WFB ⟨p, alInsert cs fc n1, lf⟩ := by
  rcases wfb_inv hwf with ⟨hkeys, hne, hhead, hrec⟩
  refine WFB.mk _ _ _ (alInsert_keys_nodup fc n1 hkeys) ?_ ?_ ?_ <;>
    intro kn hm <;>
    rcases (alInsert_mem_iff hkeys fc n1 kn.1 kn.2).mp (by simpa using hm) with
      ⟨hk, hv⟩ | ⟨hm2, _⟩
  · rw [hv]; exact hp
  · exact hne kn hm2
  · rw [hv, hk]; exact hh
  · exact hhead kn hm2
  · rw [hv]; exact hn
  · exact hrec kn hm2

theorem hasWord_replace_child {p : List Char} {cs : List (Char × BNode)} {lf : Bool}
    {fc : Char} {child n1 : BNode} (hkeys : (cs.map Prod.fst).Nodup)
    (hmemc : (fc, child) ∈ cs) (W : List Char → Prop)
    (hbucket : ∀ v, (∃ w', HasWord n1 w' ∧ v = n1.pfx ++ w') ↔
      ((∃ u, HasWord child u ∧ v = child.pfx ++ u) ∨ W v)) :
    ∀ v, HasWord ⟨p, alInsert cs fc n1, lf⟩ v ↔ (HasWord ⟨p, cs, lf⟩ v ∨ W v) := by
  intro v
  rw [hasWord_alInsert hkeys, hasWord_inv]
  constructor
  · rintro (h | ⟨k, n, w', hm, hk, hw, hv⟩ | hnew)
    · left; left; exact h
    · left; right; exact ⟨k, n, w', hm, hw, hv⟩
    · rcases (hbucket v).mp hnew with ⟨u, hu, hv⟩ | hW
      · left; right; exact ⟨fc, child, u, hmemc, hu, hv⟩
      · right; exact hW
  · rintro ((h | ⟨k, n, w', hm, hw, hv⟩) | hW)
    · left; exact h
    · by_cases hk : k = fc
      · subst hk
        have hnc := mem_key_unique hkeys hm hmemc
        subst hnc
        right; right
        exact (hbucket v).mpr (Or.inl ⟨w', hw, hv⟩)
      · right; left; exact ⟨k, n, w', hm, hk, hw, hv⟩
    · right; right; exact (hbucket v).mpr (Or.inr hW)

theorem hasWord_new_child {p : List Char} {cs : List (Char × BNode)} {lf : Bool}
    {fc : Char} {n1 : BNode} (hkeys : (cs.map Prod.fst).Nodup)
    (hout : fc ∉ cs.map Prod.fst) :
    ∀ v, HasWord ⟨p, alInsert cs fc n1, lf⟩ v ↔
      (HasWord ⟨p, cs, lf⟩ v ∨ ∃ w', HasWord n1 w' ∧ v = n1.pfx ++ w') := by
  intro v
  rw [hasWord_alInsert hkeys, hasWord_inv]
  constructor
  · rintro (h | ⟨k, n, w', hm, hk, hw, hv⟩ | hnew)
    · left; left; exact h
    · left; right; exact ⟨k, n, w', hm, hw, hv⟩
    · right; exact hnew
  · rintro ((h | ⟨k, n, w', hm, hw, hv⟩) | hW)
    · left; exact h
    · right; left
      refine ⟨k, n, w', hm, ?_, hw, hv⟩
      intro he
      subst he
      exact hout (List.mem_map_of_mem Prod.fst hm)
    · right; right; exact hW

theorem insertGo_spec (fuel : Nat) :
    ∀ (t : BNode) (w : List Char) (t' : BNode), WFB t → insertGo fuel t w = .ok t' →
      WFB t' ∧ t'.pfx = t.pfx ∧ t'.is_leaf = t.is_leaf ∧
      ∀ v, (HasWord t' v ↔ HasWord t v ∨ (v = w ∧ w ≠ [])) := by
  induction fuel with
  | zero => intro t w t' _ h; exact Exec.noConfusion h
  | succ fuel ih =>
    intro t w t' hwf h
    rcases t with ⟨p, cs, lf⟩
    rcases wfb_inv hwf with ⟨hkeys, hne, hhead, hrec⟩
    cases w with
    | nil =>
      simp only [insertGo] at h
      rw [Exec.ok.injEq] at h
      subst h
      exact ⟨hwf, rfl, rfl, fun v => by simp⟩
    | cons fc wrest =>
      simp only [insertGo, BNode.children, BNode.pfx, BNode.is_leaf] at h
      cases hlk : alLookup cs fc with
      | none =>
        rw [hlk] at h
        rw [Exec.ok.injEq] at h
        subst h
        have hout : fc ∉ cs.map Prod.fst := alLookup_eq_none hlk
        refine ⟨?_, rfl, rfl, ?_⟩
        · refine wfb_alInsert hwf ?_ ?_ ?_
          · simp [BNode.pfx]
          · simp [BNode.pfx]
          · exact WFB.mk _ _ _ (by simp) (by simp) (by simp) (by simp)
        · intro v
          rw [hasWord_new_child hkeys hout]
          constructor
          · rintro (hv | ⟨w', hw', hv⟩)
            · left; exact hv
            · rw [show BNode.pfx ⟨fc :: wrest, [], true⟩ = fc :: wrest from rfl] at hv
              rw [hasWord_leaf] at hw'
              subst hw'
              right
              simpa using hv
          · rintro (hv | ⟨hv, _⟩)
            · left; exact hv
            · right
              exact ⟨[], hasWord_leaf.mpr rfl, by simp [BNode.pfx, hv]⟩
      | some child =>
        rw [hlk] at h
        rcases child with ⟨cp, ccs, clf⟩
        have hmemc : (fc, ⟨cp, ccs, clf⟩) ∈ cs := alLookup_mem hlk
        have hwfc : WFB ⟨cp, ccs, clf⟩ := hrec _ hmemc
        have hcp_ne : cp ≠ [] := hne _ hmemc
        have hcp_hd : cp.head? = some fc := hhead _ hmemc
        dsimp only [BNode.pfx, BNode.children, BNode.is_leaf] at h
        set cl := commonPreLen (strBytes cp) (strBytes (fc :: wrest)) with hcl_def
        have hcl_pos : 0 < cl := by
          rw [hcl_def]
          refine commonPreLen_pos (fun he => hcp_ne (strBytes_eq_nil.mp he)) ?_
          rw [head_byte_eq hcp_hd, head_byte_eq (show (fc :: wrest).head? = some fc from rfl)]
        have hsl : strLen cp = (strBytes cp).length := rfl
        by_cases hcl : cl = strLen cp
        · rw [if_pos hcl] at h
          cases hsp : splitAtByte (fc :: wrest) cl with
          | none => rw [hsp] at h; exact Exec.noConfusion h
          | some xr =>
            rcases xr with ⟨x, rest⟩
            rw [hsp] at h
            dsimp only at h
            rcases splitAtByte_spec hsp with ⟨hsplit, hxlen⟩
            have hxpfx : x = cp := by
              have hpre1 : strBytes x <+: strBytes (fc :: wrest) :=
                strBytes_pre_iff.mpr ⟨rest, hsplit.symm⟩
              have hpre2 : strBytes cp <+: strBytes (fc :: wrest) := by
                refine commonPreLen_eq_left_iff.mp ?_
                rw [← hcl_def, hcl]
                exact hsl
              have hleq : (strBytes x).length = (strBytes cp).length := by
                have h1 : strLen x = cl := hxlen
                have h2 : strLen x = (strBytes x).length := rfl
                omega
              exact strBytes_inj (pre_eq_of_length_eq hpre1 hpre2 hleq)
            rw [hxpfx] at hsplit
            cases rest with
            | nil =>
              rw [show ([] : List Char).isEmpty = true from rfl, if_pos rfl] at h
              rw [Exec.ok.injEq] at h
              subst h
              have hweq : fc :: wrest = cp := by simpa using hsplit
              refine ⟨?_, rfl, rfl, ?_⟩
              · refine wfb_alInsert hwf ?_ ?_ ?_
                · simpa [BNode.pfx] using hcp_ne
                · simpa [BNode.pfx] using hcp_hd
                · rcases wfb_inv hwfc with ⟨hk2, hn2, hh2, hr2⟩
                  exact WFB.mk _ _ _ hk2 hn2 hh2 hr2
              · intro v
                rw [hasWord_replace_child hkeys hmemc (fun v => v = cp) ?_]
                · constructor
                  · rintro (hv | hv)
                    · left; exact hv
                    · right; exact ⟨by rw [hweq, hv], by simp⟩
                  · rintro (hv | ⟨hv, _⟩)
                    · left; exact hv
                    · right; rw [← hweq]; exact hv
                · intro u
                  dsimp only [BNode.pfx]
                  constructor
                  · rintro ⟨w', hw', hv⟩
                    rcases hasWord_set_leaf.mp hw' with hw2 | hw2
                    · left; exact ⟨w', hw2, hv⟩
                    · subst hw2; right; simpa using hv
                  · rintro (⟨u', hu, hv⟩ | hv)
                    · exact ⟨u', hasWord_set_leaf.mpr (Or.inl hu), hv⟩
                    · exact ⟨[], (@hasWord_set_leaf cp ccs clf []).mpr (Or.inr rfl),
                        by simpa using hv⟩
            | cons r0 rs =>
              rw [show (r0 :: rs).isEmpty = false from rfl] at h
              rw [if_neg (by simp)] at h
              cases hins : insertGo fuel ⟨cp, ccs, clf⟩ (r0 :: rs) with
              | ok child' =>
                rw [hins] at h
                rw [Exec.ok.injEq] at h
                subst h
                rcases ih ⟨cp, ccs, clf⟩ (r0 :: rs) child' hwfc hins with
                  ⟨hwf', hpfx', hleaf', hwords'⟩
                have hpfx2 : child'.pfx = cp := hpfx'
                refine ⟨?_, rfl, rfl, ?_⟩
                · refine wfb_alInsert hwf ?_ ?_ hwf'
                  · rw [hpfx2]; exact hcp_ne
                  · rw [hpfx2]; exact hcp_hd
                · intro v
                  rw [hasWord_replace_child hkeys hmemc (fun v => v = cp ++ (r0 :: rs)) ?_]
                  · constructor
                    · rintro (hv | hv)
                      · left; exact hv
                      · right
                        refine ⟨by rw [hsplit, hv], by simp⟩
                    · rintro (hv | ⟨hv, _⟩)
                      · left; exact hv
                      · right; rw [← hsplit]; exact hv
                  · intro v
                    rw [hpfx2]
                    constructor
                    · rintro ⟨w', hw', hv⟩
                      rcases (hwords' w').mp hw' with hw2 | ⟨hw2, _⟩
                      · left; exact ⟨w', hw2, hv⟩
                      · subst hw2; right; exact hv
                    · rintro (⟨u, hu, hv⟩ | hv)
                      · exact ⟨u, (hwords' u).mpr (Or.inl hu), hv⟩
                      · exact ⟨r0 :: rs, (hwords' _).mpr (Or.inr ⟨rfl, by simp⟩), hv⟩
              | panic k => rw [hins] at h; exact Exec.noConfusion h
              | fuelOut => rw [hins] at h; exact Exec.noConfusion h
        · rw [if_neg hcl] at h
          cases hsp1 : splitAtByte cp cl with
          | none => rw [hsp1] at h; exact Exec.noConfusion h
          | some pc =>
            rcases pc with ⟨ptr, csfx⟩
            rw [hsp1] at h
            dsimp only at h
            cases hsp2 : splitAtByte (fc :: wrest) cl with
            | none => rw [hsp2] at h; exact Exec.noConfusion h
            | some ai =>
              rcases ai with ⟨a', isfx⟩
              rw [hsp2] at h
              dsimp only at h
              rcases splitAtByte_spec hsp1 with ⟨hd1, hl1⟩
              rcases splitAtByte_spec hsp2 with ⟨hd2, hl2⟩
              have ha'pt : a' = ptr := by
                refine strBytes_inj ?_
                have e1 : strBytes (fc :: wrest) = strBytes a' ++ strBytes isfx := by
                  rw [← strBytes_append, ← hd2]
                have e2 : strBytes cp = strBytes ptr ++ strBytes csfx := by
                  rw [← strBytes_append, ← hd1]
                have t1 : strBytes a' = (strBytes (fc :: wrest)).take cl := by
                  rw [e1]
                  have : cl = (strBytes a').length := hl2.symm
                  rw [this]
                  exact (List.take_left _ _).symm
                have t2 : strBytes ptr = (strBytes cp).take cl := by
                  rw [e2]
                  have : cl = (strBytes ptr).length := hl1.symm
                  rw [this]
                  exact (List.take_left _ _).symm
                rw [t1, t2, hcl_def]
                exact (commonPreLen_take _ _).symm
              rw [ha'pt] at hd2 hl2
              have hpt_ne : ptr ≠ [] := by
                refine ne_nil_of_strLen_pos ?_
                rw [hl1]
                exact hcl_pos
              have hpt_hd : ptr.head? = some fc := by
                rw [hd1, head?_append_left csfx hpt_ne] at hcp_hd
                exact hcp_hd
              cases csfx with
              | nil => exact Exec.noConfusion h
              | cons sk csr =>
                cases isfx with
                | nil =>
                  rw [Exec.ok.injEq] at h
                  subst h
                  have hweq : fc :: wrest = ptr := by simpa using hd2
                  refine ⟨?_, rfl, rfl, ?_⟩
                  · refine wfb_alInsert hwf ?_ ?_ ?_
                    · simpa [BNode.pfx] using hpt_ne
                    · simpa [BNode.pfx] using hpt_hd
                    · refine WFB.mk _ _ _ (by simp) ?_ ?_ ?_
                      · intro kn hm
                        rw [List.mem_singleton] at hm
                        subst hm
                        simp [BNode.pfx]
                      · intro kn hm
                        rw [List.mem_singleton] at hm
                        subst hm
                        simp [BNode.pfx]
                      · intro kn hm
                        rw [List.mem_singleton] at hm
                        subst hm
                        rcases wfb_inv hwfc with ⟨hk2, hn2, hh2, hr2⟩
                        exact WFB.mk _ _ _ hk2 hn2 hh2 hr2
                  · intro v
                    rw [hasWord_replace_child hkeys hmemc (fun v => v = ptr) ?_]
                    · constructor
                      · rintro (hv | hv)
                        · left; exact hv
                        · right; exact ⟨by rw [hweq, hv], by simp⟩
                      · rintro (hv | ⟨hv, _⟩)
                        · left; exact hv
                        · right; rw [← hweq]; exact hv
                    · intro v
                      dsimp only [BNode.pfx]
                      constructor
                      · rintro ⟨w', hw', hv⟩
                        rcases hasWord_inv.mp hw' with ⟨he, _⟩ | ⟨k, n, w'', hm, hw2, he⟩
                        · subst he; right; simpa using hv
                        · rw [List.mem_singleton] at hm
                          have hk : k = sk := congrArg Prod.fst hm
                          have hn2 : n = ⟨sk :: csr, ccs, clf⟩ := congrArg Prod.snd hm
                          subst hk
                          subst hn2
                          dsimp only [BNode.pfx] at he
                          left
                          refine ⟨w'', hasWord_pfx_free hw2, ?_⟩
                          rw [hv, he, hd1]
                          simp
                      · rintro (⟨u, hu, hv⟩ | hv)
                        · refine ⟨(sk :: csr) ++ u, ?_, ?_⟩
                          · rw [hasWord_inv]
                            right
                            exact ⟨sk, _, u, List.mem_singleton.mpr rfl,
                              hasWord_pfx_free hu, rfl⟩
                          · rw [hv, hd1]; simp
                        · exact ⟨[], hasWord_inv.mpr (Or.inl ⟨rfl, rfl⟩), by simpa using hv⟩
                | cons ik isr =>
                  rw [Exec.ok.injEq] at h
                  subst h
                  have hcl_lt1 : cl < (strBytes cp).length := by
                    have h1 : commonPreLen (strBytes cp) (strBytes (fc :: wrest)) ≤
                        (strBytes cp).length := commonPreLen_le_left _ _
                    rw [← hcl_def] at h1
                    have h2 : ¬ cl = strLen cp := hcl
                    omega
                  have hcl_lt2 : cl < (strBytes (fc :: wrest)).length := by
                    have e1 : strBytes (fc :: wrest) = strBytes ptr ++ strBytes (ik :: isr) := by
                      rw [← strBytes_append, ← hd2]
                    have h2 : 0 < strLen (ik :: isr) := strLen_pos (by simp)
                    have h3 : strLen (ik :: isr) = (strBytes (ik :: isr)).length := rfl
                    have h4 : (strBytes ptr).length = cl := hl2
                    rw [e1]
                    simp only [List.length_append]
                    omega
                  have hbne : (strBytes cp).getD cl 0 ≠ (strBytes (fc :: wrest)).getD cl 0 := by
                    have h1 : commonPreLen (strBytes cp) (strBytes (fc :: wrest)) <
                        (strBytes cp).length := by rw [← hcl_def]; exact hcl_lt1
                    have h2 : commonPreLen (strBytes cp) (strBytes (fc :: wrest)) <
                        (strBytes (fc :: wrest)).length := by rw [← hcl_def]; exact hcl_lt2
                    have h3 := commonPreLen_ne h1 h2
                    rw [← hcl_def] at h3
                    exact h3
                  have hski : sk ≠ ik := by
                    intro he
                    apply hbne
                    have e2 : strBytes cp = strBytes ptr ++ strBytes (sk :: csr) := by
                      rw [← strBytes_append, ← hd1]
                    have e1 : strBytes (fc :: wrest) = strBytes ptr ++ strBytes (ik :: isr) := by
                      rw [← strBytes_append, ← hd2]
                    have hlen : (strBytes ptr).length = cl := hl1
                    rw [e1, e2, List.getD_append_right _ _ _ _ (le_of_eq hlen),
                      List.getD_append_right _ _ _ _ (le_of_eq hlen), hlen, Nat.sub_self]
                    subst he
                    rw [strBytes_cons, strBytes_cons,
                      List.getD_append _ _ _ _ (List.length_pos.mpr (utf8Encode_ne_nil _)),
                      List.getD_append _ _ _ _ (List.length_pos.mpr (utf8Encode_ne_nil _))]
                  have halI : alInsert [(sk, (⟨sk :: csr, ccs, clf⟩ : BNode))] ik
                      ⟨ik :: isr, [], true⟩ =
                      [(sk, ⟨sk :: csr, ccs, clf⟩), (ik, ⟨ik :: isr, [], true⟩)] := by
                    simp [alInsert, hski]
                  rw [halI]
                  refine ⟨?_, rfl, rfl, ?_⟩
                  · refine wfb_alInsert hwf ?_ ?_ ?_
                    · simpa [BNode.pfx] using hpt_ne
                    · simpa [BNode.pfx] using hpt_hd
                    · refine WFB.mk _ _ _ (by simp [hski]) ?_ ?_ ?_
                      · intro kn hm
                        rcases List.mem_cons.mp hm with hm1 | hm1
                        · subst hm1; simp [BNode.pfx]
                        · rw [List.mem_singleton] at hm1
                          subst hm1
                          simp [BNode.pfx]
                      · intro kn hm
                        rcases List.mem_cons.mp hm with hm1 | hm1
                        · subst hm1; simp [BNode.pfx]
                        · rw [List.mem_singleton] at hm1
                          subst hm1
                          simp [BNode.pfx]
                      · intro kn hm
                        rcases List.mem_cons.mp hm with hm1 | hm1
                        · subst hm1
                          rcases wfb_inv hwfc with ⟨hk2, hn2, hh2, hr2⟩
                          exact WFB.mk _ _ _ hk2 hn2 hh2 hr2
                        · rw [List.mem_singleton] at hm1
                          subst hm1
                          exact WFB.mk _ _ _ (by simp) (by simp) (by simp) (by simp)
                  · intro v
                    rw [hasWord_replace_child hkeys hmemc (fun v => v = fc :: wrest) ?_]
                    · constructor
                      · rintro (hv | hv)
                        · left; exact hv
                        · right; exact ⟨hv, by simp⟩
                      · rintro (hv | ⟨hv, _⟩)
                        · left; exact hv
                        · right; exact hv
                    · intro v
                      dsimp only [BNode.pfx]
                      constructor
                      · rintro ⟨w', hw', hv⟩
                        rcases hasWord_inv.mp hw' with ⟨_, hcon⟩ | ⟨k, n, w'', hm, hw2, he⟩
                        · exact absurd hcon (by simp)
                        · rcases List.mem_cons.mp hm with hm1 | hm1
                          · have hk : k = sk := congrArg Prod.fst hm1
                            have hn2 : n = ⟨sk :: csr, ccs, clf⟩ := congrArg Prod.snd hm1
                            subst hk
                            subst hn2
                            dsimp only [BNode.pfx] at he
                            left
                            refine ⟨w'', hasWord_pfx_free hw2, ?_⟩
                            rw [hv, he, hd1]
                            simp
                          · rw [List.mem_singleton] at hm1
                            have hk : k = ik := congrArg Prod.fst hm1
                            have hn2 : n = ⟨ik :: isr, [], true⟩ := congrArg Prod.snd hm1
                            subst hk
                            subst hn2
                            dsimp only [BNode.pfx] at he
                            rw [hasWord_leaf] at hw2
                            subst hw2
                            right
                            rw [hv, he, hd2]
                            simp
                      · rintro (⟨u, hu, hv⟩ | hv)
                        · refine ⟨(sk :: csr) ++ u, ?_, ?_⟩
                          · rw [hasWord_inv]
                            right
                            exact ⟨sk, _, u, List.mem_cons_self _ _,
                              hasWord_pfx_free hu, rfl⟩
                          · rw [hv, hd1]; simp
                        · refine ⟨ik :: isr, ?_, ?_⟩
                          · rw [hasWord_inv]
                            right
                            refine ⟨ik, _, [], List.mem_cons_of_mem _
                              (List.mem_singleton.mpr rfl), hasWord_leaf.mpr rfl,
                              by simp [BNode.pfx]⟩
                          · rw [hv, hd2]

theorem insertFold_err (ws : List (List Char)) (e : Exec BNode) (he : ∀ t, e ≠ .ok t) :
    ws.foldl (fun acc w => match acc with
      | Exec.ok t => TrieBuilder.insert t w
      | e => e) e = e := by
  induction ws with
  | nil => rfl
  | cons w ws ih =>
    cases e with
    | ok t => exact absurd rfl (he t)
    | panic k => simpa using ih
    | fuelOut => simpa using ih

theorem insertFold_spec (ws : List (List Char)) :
    ∀ (t0 t : BNode), WFB t0 →
      ws.foldl (fun acc w => match acc with
        | Exec.ok t => TrieBuilder.insert t w
        | e => e) (Exec.ok t0) = .ok t →
      WFB t ∧ t.pfx = t0.pfx ∧ t.is_leaf = t0.is_leaf ∧
      ∀ v, (HasWord t v ↔ HasWord t0 v ∨ (v ∈ ws ∧ v ≠ [])) := by
  induction ws with
  | nil =>
    intro t0 t hwf h
    simp only [List.foldl_nil, Exec.ok.injEq] at h
    subst h
    exact ⟨hwf, rfl, rfl, fun v => by simp⟩
  | cons w ws ih =>
    intro t0 t hwf h
    simp only [List.foldl_cons] at h
    cases hi : TrieBuilder.insert t0 w with
    | ok t1 =>
      rw [hi] at h
      rcases insertGo_spec _ t0 w t1 hwf hi with ⟨hwf1, hpfx1, hleaf1, hwords1⟩
      rcases ih t1 t hwf1 h with ⟨hwf2, hpfx2, hleaf2, hwords2⟩
      refine ⟨hwf2, by rw [hpfx2, hpfx1], by rw [hleaf2, hleaf1], ?_⟩
      intro v
      rw [hwords2 v, hwords1 v]
      constructor
      · rintro ((hv | ⟨hv, hne⟩) | ⟨hv, hne⟩)
        · left; exact hv
        · right
          exact ⟨by rw [hv]; exact List.mem_cons_self _ _, by rw [hv]; exact hne⟩
        · right; exact ⟨List.mem_cons_of_mem _ hv, hne⟩
      · rintro (hv | ⟨hv, hne⟩)
        · left; left; exact hv
        · rcases List.mem_cons.mp hv with hv1 | hv1
          · left; right; exact ⟨hv1, by rw [← hv1]; exact hne⟩
          · right; exact ⟨hv1, hne⟩
    | panic k =>
      rw [hi] at h
      rw [insertFold_err ws _ (fun t => by simp)] at h
      exact Exec.noConfusion h
    | fuelOut =>
      rw [hi] at h
      rw [insertFold_err ws _ (fun t => by simp)] at h
      exact Exec.noConfusion h

theorem insertAll_spec {ws : List (List Char)} {t : BNode} (h : insertAll ws = .ok t) :
    WFB t ∧ t.pfx = [] ∧ t.is_leaf = false ∧
    ∀ v, (HasWord t v ↔ v ∈ ws ∧ v ≠ []) := by
  have hwf0 : WFB freshBuilder := WFB.mk _ _ _ (by simp) (by simp) (by simp) (by simp)
  unfold insertAll at h
  rcases insertFold_spec ws freshBuilder t hwf0 h with ⟨h1, h2, h3, h4⟩
  refine ⟨h1, h2, h3, ?_⟩
  intro v
  rw [h4 v]
  constructor
  · rintro (hv | hv)
    · rcases hasWord_inv.mp hv with ⟨_, hcon⟩ | ⟨k, n, w', hm, _, _⟩
      · exact absurd hcon (by simp [freshBuilder])
      · simp [freshBuilder, BNode.children] at hm
    · exact hv
  · intro hv
    right; exact hv

theorem new_spec (ls fc len : Nat) (t s : Bool) :
    (CompactNode.new ls fc len t s).label_start = ls ∧
    (CompactNode.new ls fc len t s).first_child = fc % 2 ^ 23 ∧
    (CompactNode.new ls fc len t s).label_len = len % 2 ^ 7 ∧
    (CompactNode.new ls fc len t s).is_terminal = t ∧
    (CompactNode.new ls fc len t s).has_next_sibling = s ∧
    (CompactNode.new ls fc len t s).packed < 2 ^ 32 := by
  unfold CompactNode.new CompactNode.first_child CompactNode.label_len
    CompactNode.is_terminal CompactNode.has_next_sibling
  cases t <;> cases s <;>
    refine ⟨rfl, ?_, ?_, ?_, ?_, ?_⟩ <;>
    simp only [cond, decide_eq_true_eq, decide_eq_false_iff_not] <;>
    omega

theorem patch_spec (n : CompactNode) (s : Nat) (hs : s < 2 ^ 23) (hp : n.packed < 2 ^ 32) :
    (patchFirstChild n s).first_child = s ∧
    (patchFirstChild n s).label_start = n.label_start ∧
    (patchFirstChild n s).packed / 2 ^ 23 = n.packed / 2 ^ 23 ∧
    (patchFirstChild n s).packed < 2 ^ 32 := by
  unfold patchFirstChild CompactNode.first_child
  refine ⟨?_, rfl, ?_, ?_⟩ <;> dsimp only <;> omega

theorem label_len_hi (n : CompactNode) : n.label_len = n.packed / 2 ^ 23 % 2 ^ 7 := rfl

theorem is_terminal_hi (n : CompactNode) :
    n.is_terminal = decide (n.packed / 2 ^ 23 / 2 ^ 7 % 2 = 1) := by
  unfold CompactNode.is_terminal
  rw [Nat.div_div_eq_div_mul]
  norm_num

theorem has_next_hi (n : CompactNode) :
    n.has_next_sibling = decide (n.packed / 2 ^ 23 / 2 ^ 8 % 2 = 1) := by
  unfold CompactNode.has_next_sibling
  rw [Nat.div_div_eq_div_mul]
  norm_num

theorem eq_of_hi {m n : CompactNode} (h : m.packed / 2 ^ 23 = n.packed / 2 ^ 23) :
    m.label_len = n.label_len ∧ m.is_terminal = n.is_terminal ∧
    m.has_next_sibling = n.has_next_sibling := by
  refine ⟨?_, ?_, ?_⟩
  · rw [label_len_hi, label_len_hi, h]
  · rw [is_terminal_hi, is_terminal_hi, h]
  · rw [has_next_hi, has_next_hi, h]

theorem labelSliceAt_append {labels δ : List Nat} {n : CompactNode} {bs : List Nat}
    (h : labelSliceAt labels n = some bs) : labelSliceAt (labels ++ δ) n = some bs := by
  unfold labelSliceAt at h ⊢
  split at h
  · next hle =>
    rw [if_pos (by simp only [List.length_append]; omega)]
    cases h
    congr 1
    rw [List.drop_append_of_le_length (by omega)]
    rw [List.take_append_of_le_length (by simp; omega)]
  · cases h

theorem labelSliceAt_prefix_stable {labels L : List Nat} {n : CompactNode} {bs : List Nat}
    (hpre : labels <+: L) (h : labelSliceAt labels n = some bs) :
    labelSliceAt L n = some bs := by
  rcases hpre with ⟨δ, hδ⟩
  rw [← hδ]
  exact labelSliceAt_append h

theorem nodeAt_append_left {nodes l : List CompactNode} {j : Nat} (h : j < nodes.length) :
    nodeAt (nodes ++ l) j = nodeAt nodes j := by
  unfold nodeAt
  exact List.getD_append _ _ _ _ h

theorem nodeAt_set_self {l : List CompactNode} {j : Nat} (v : CompactNode)
    (h : j < l.length) : nodeAt (l.set j v) j = v := by
  unfold nodeAt
  rw [List.getD_eq_getD_get?, List.get?_set_eq_of_lt v h]
  rfl

theorem nodeAt_set_ne {l : List CompactNode} {i j : Nat} (v : CompactNode)
    (h : i ≠ j) : nodeAt (l.set i v) j = nodeAt l j := by
  unfold nodeAt
  rw [List.getD_eq_getD_get?, List.get?_set_ne _ _ h, ← List.getD_eq_getD_get?]

theorem sortChildren_length (cs : List (Char × BNode)) :
    (sortChildren cs).length = cs.length := by
  unfold sortChildren
  rw [(List.perm_insertionSort _ _).length_eq, List.length_map]

theorem sortChildren_mem {cs : List (Char × BNode)} {x : BNode} :
    x ∈ sortChildren cs ↔ ∃ k, (k, x) ∈ cs := by
  unfold sortChildren
  rw [(List.perm_insertionSort _ _).mem_iff, List.mem_map]
  constructor
  · rintro ⟨⟨k, v⟩, hm, he⟩
    exact ⟨k, by rwa [← he]⟩
  · rintro ⟨k, hm⟩
    exact ⟨(k, x), hm, rfl⟩

theorem sortChildren_nil_iff {cs : List (Char × BNode)} :
    sortChildren cs = [] ↔ cs = [] := by
  constructor
  · intro h
    have := sortChildren_length cs
    rw [h] at this
    exact List.length_eq_zero.mp this.symm
  · intro h; subst h; rfl

theorem labelSliceAt_congr {labels : List Nat} {m n : CompactNode}
    (h1 : m.label_start = n.label_start) (h2 : m.label_len = n.label_len) :
    labelSliceAt labels m = labelSliceAt labels n := by
  unfold labelSliceAt
  rw [h1, h2]

theorem buildKids_spec (start n : Nat) :
    ∀ (kids : List BNode) (i : Nat) (nodes : List CompactNode) (labels : List Nat)
      (newq : List (Nat × BNode)) (nodes2 : List CompactNode) (labels2 : List Nat)
      (newq2 : List (Nat × BNode)),
      buildKids start n i kids nodes labels newq = .ok (nodes2, labels2, newq2) →
      nodes2.length = nodes.length + kids.length ∧
      labels <+: labels2 ∧
      (∀ j, j < nodes.length → nodeAt nodes2 j = nodeAt nodes j) ∧
      newq2 = newq ++ (List.range kids.length).map
        (fun j => (start + i + j, kids.getD j freshBuilder)) ∧
      ∀ j, j < kids.length →
        (∃ ls : Nat, nodeAt nodes2 (nodes.length + j) =
          CompactNode.new ls COMPACT_NONE (strLen (kids.getD j freshBuilder).pfx)
            (kids.getD j freshBuilder).is_leaf (decide (i + j < n - 1))) ∧
        labelSliceAt labels2 (nodeAt nodes2 (nodes.length + j)) =
          some (strBytes (kids.getD j freshBuilder).pfx) ∧
        strLen (kids.getD j freshBuilder).pfx ≤ 127 := by
  intro kids
  induction kids with
  | nil =>
    intro i nodes labels newq nodes2 labels2 newq2 h
    simp only [buildKids, Exec.ok.injEq, Prod.mk.injEq] at h
    rcases h with ⟨h1, h2, h3⟩
    subst h1; subst h2; subst h3
    refine ⟨by simp, List.prefix_refl _, fun j hj => rfl, by simp, ?_⟩
    intro j hj; simp at hj
  | cons hd rest ih =>
    intro i nodes labels newq nodes2 labels2 newq2 h
    simp only [buildKids] at h
    split at h
    · exact Exec.noConfusion h
    · next hlen =>
      have hlen' : strLen hd.pfx ≤ 127 := by omega
      rcases ih (i + 1) (nodes ++ [CompactNode.new labels.length COMPACT_NONE
          (strLen hd.pfx) hd.is_leaf (decide (i < n - 1))])
          (labels ++ strBytes hd.pfx) (newq ++ [(start + i, hd)]) nodes2 labels2 newq2 h with
        ⟨k1, k2, k3, k4, k5⟩
      refine ⟨by simp at k1 ⊢; omega, ?_, ?_, ?_, ?_⟩
      · exact List.IsPrefix.trans ⟨strBytes hd.pfx, rfl⟩ k2
      · intro j hj
        rw [k3 j (by simp; omega), nodeAt_append_left hj]
      · rw [k4, List.append_assoc]
        congr 1
        simp only [List.length_cons]
        rw [List.range_succ_eq_map]
        simp only [List.map_cons, List.map_map, List.singleton_append]
        congr 1
        refine List.map_congr_left ?_
        intro j hj
        simp only [Function.comp, List.getD_cons_succ, Prod.mk.injEq, Nat.succ_eq_add_one]
        exact ⟨by omega, trivial⟩
      · intro j hj
        cases j with
        | zero =>
          have hidx : nodes.length + 0 < (nodes ++ [CompactNode.new labels.length
              COMPACT_NONE (strLen hd.pfx) hd.is_leaf (decide (i < n - 1))]).length := by
            simp
          rw [k3 _ hidx]
          have hval : nodeAt (nodes ++ [CompactNode.new labels.length COMPACT_NONE
              (strLen hd.pfx) hd.is_leaf (decide (i < n - 1))]) (nodes.length + 0) =
              CompactNode.new labels.length COMPACT_NONE (strLen hd.pfx) hd.is_leaf
                (decide (i < n - 1)) := by
            unfold nodeAt
            rw [List.getD_append_right _ _ _ _ (by omega)]
            simp
          rw [hval]
          refine ⟨⟨labels.length, by norm_num⟩, ?_, by simpa using hlen'⟩
          have hbase : labelSliceAt (labels ++ strBytes hd.pfx)
              (CompactNode.new labels.length COMPACT_NONE (strLen hd.pfx) hd.is_leaf
                (decide (i < n - 1))) = some (strBytes (hd.pfx)) := by
            unfold labelSliceAt
            rcases new_spec labels.length COMPACT_NONE (strLen hd.pfx) hd.is_leaf
              (decide (i < n - 1)) with ⟨hls, _, hll, _⟩
            rw [hls, hll]
            have hmod : strLen hd.pfx % 2 ^ 7 = strLen hd.pfx := Nat.mod_eq_of_lt (by omega)
            rw [hmod]
            rw [if_pos (by simp [strLen])]
            congr 1
            rw [List.drop_append_of_le_length (le_refl _)]
            simp [strLen]
          have := labelSliceAt_prefix_stable k2 hbase
          simpa using this
        | succ j' =>
          have hj' : j' < rest.length := by simpa using hj
          rcases k5 j' hj' with ⟨⟨ls, hnode⟩, hslice, hl127⟩
          have hidx : nodes.length + (j' + 1) =
              (nodes ++ [CompactNode.new labels.length COMPACT_NONE (strLen hd.pfx)
                hd.is_leaf (decide (i < n - 1))]).length + j' := by
            simp; omega
          rw [hidx]
          refine ⟨⟨ls, ?_⟩, ?_, ?_⟩
          · rw [hnode]
            have : i + 1 + j' = i + (j' + 1) := by omega
            simp [this]
          · rw [hslice]
            simp
          · simpa using hl127

theorem wfb_children {t : BNode} (h : WFB t) : ∀ kn ∈ t.children, WFB kn.2 := by
  cases h with
  | mk p cs lf hkeys hne hhead hrec => exact hrec

theorem buildLoop_spec :
    ∀ (fuel : Nat) (nodes : List CompactNode) (labels : List Nat)
      (q : List (Nat × BNode)) (N : List CompactNode) (L : List Nat),
      buildLoop fuel nodes labels q = .ok (N, L) →
      QueueInv nodes labels q →
      (∀ j, j < nodes.length → goodNode nodes labels j) →
      N.length ≤ COMPACT_NONE →
      labels <+: L ∧
      nodes.length ≤ N.length ∧
      (∀ j, j < nodes.length → j ∉ q.map Prod.fst → nodeAt N j = nodeAt nodes j) ∧
      (∀ it ∈ q, Matches N L it.1 it.2 ∧
        (nodeAt N it.1).label_start = (nodeAt nodes it.1).label_start ∧
        (nodeAt N it.1).packed / 2 ^ 23 = (nodeAt nodes it.1).packed / 2 ^ 23) ∧
      (∀ j, j < N.length → goodNode N L j) := by
  intro fuel
  induction fuel with
  | zero => intro nodes labels q N L h; exact fun _ _ _ => Exec.noConfusion h
  | succ fuel ih =>
    intro nodes labels q N L h hq hg hN
    have hCN : COMPACT_NONE = 0x7FFFFF := rfl
    cases q with
    | nil =>
      simp only [buildLoop, Exec.ok.injEq, Prod.mk.injEq] at h
      rcases h with ⟨h1, h2⟩
      subst h1; subst h2
      exact ⟨List.prefix_refl _, le_refl _, fun j _ _ => rfl,
        fun it hit => by simp at hit, hg⟩
    | cons head qrest =>
      rcases head with ⟨pidx, src⟩
      rcases hq with ⟨hnodup, hqfacts⟩
      have hhd := hqfacts (pidx, src) (List.mem_cons_self _ _)
      rcases hhd with ⟨hpidx_lt, hwf_src, hfc_src, hlab_src, hterm_src⟩
      simp only [List.map_cons, List.nodup_cons] at hnodup
      rcases hnodup with ⟨hpidx_nin, hnodup_rest⟩
      simp only [buildLoop] at h
      by_cases hemp : src.children.isEmpty
      · rw [if_pos hemp] at h
        have hchil : src.children = [] := List.isEmpty_iff.mp hemp
        have hq' : QueueInv nodes labels qrest :=
          ⟨hnodup_rest, fun it hit => hqfacts it (List.mem_cons_of_mem _ hit)⟩
        rcases ih nodes labels qrest N L h hq' hg hN with ⟨c1, c2, c3, c4, c5⟩
        refine ⟨c1, c2, ?_, ?_, c5⟩
        · intro j hj hjn
          simp only [List.map_cons, List.mem_cons] at hjn
          exact c3 j hj (fun hm => hjn (Or.inr hm))
        · intro it hit
          rcases List.mem_cons.mp hit with hit1 | hit1
          · subst hit1
            have hNpidx : nodeAt N pidx = nodeAt nodes pidx := c3 pidx hpidx_lt hpidx_nin
            rcases src with ⟨sp, scs, slf⟩
            have hscs : scs = [] := hchil
            subst hscs
            refine ⟨?_, by rw [hNpidx], by rw [hNpidx]⟩
            refine Matches.leafN _ _ _ _ (by omega) ?_ ?_ (by rfl) ?_
            · rw [hNpidx]
              exact labelSliceAt_prefix_stable c1 hlab_src
            · rw [hNpidx]; exact hterm_src
            · rw [hNpidx]; exact hfc_src
          · exact c4 it hit1
      · rw [if_neg hemp] at h
        by_cases hbig : 0x007FFFFF < nodes.length
        · rw [if_pos hbig] at h; exact Exec.noConfusion h
        · rw [if_neg hbig] at h
          cases hbk : buildKids nodes.length (sortChildren src.children).length 0
              (sortChildren src.children)
              (nodes.set pidx (patchFirstChild (nodes.getD pidx default) nodes.length))
              labels [] with
          | panic k => rw [hbk] at h; exact Exec.noConfusion h
          | fuelOut => rw [hbk] at h; exact Exec.noConfusion h
          | ok out =>
            rcases out with ⟨nodes2, labels2, newq⟩
            rw [hbk] at h
            have hchne : src.children ≠ [] := fun hc => hemp (by rw [hc]; rfl)
            have hkpos : 0 < (sortChildren src.children).length := by
              rw [sortChildren_length]
              exact List.length_pos.mpr hchne
            rcases buildKids_spec nodes.length (sortChildren src.children).length
                (sortChildren src.children) 0 _ labels [] nodes2 labels2 newq hbk with
              ⟨k1, k2, k3, k4, k5⟩
            simp only [List.length_set] at k1 k3 k5
            have hk4 : newq = (List.range (sortChildren src.children).length).map
                (fun j => (nodes.length + j, (sortChildren src.children).getD j
                  freshBuilder)) := by
              rw [k4]
              simp
            have hpatch := patch_spec (nodeAt nodes pidx) nodes.length
              (by omega) (hg pidx hpidx_lt).2
            rcases hpatch with ⟨hpa1, hpa2, hpa3, hpa4⟩
            -- value facts about nodes2
            have hn2_old : ∀ j, j < nodes.length → j ≠ pidx →
                nodeAt nodes2 j = nodeAt nodes j := by
              intro j hj hne
              rw [k3 j hj]
              exact nodeAt_set_ne _ (fun he => hne he.symm)
            have hn2_pidx : nodeAt nodes2 pidx =
                patchFirstChild (nodeAt nodes pidx) nodes.length := by
              rw [k3 pidx hpidx_lt]
              have := nodeAt_set_self (l := nodes) (j := pidx)
                (patchFirstChild (nodes.getD pidx default) nodes.length) hpidx_lt
              exact this
            -- WFB of the sorted children
            have hwf_kids : ∀ j, j < (sortChildren src.children).length →
                WFB ((sortChildren src.children).getD j freshBuilder) := by
              intro j hj
              have hmem : (sortChildren src.children).getD j freshBuilder ∈
                  sortChildren src.children := by
                rw [List.getD_eq_getElem _ _ hj]
                exact List.getElem_mem _
              rcases sortChildren_mem.mp hmem with ⟨key, hkm⟩
              exact wfb_children hwf_src (key, _) hkm
            -- queue invariant for the recursive call
            have hq2 : QueueInv nodes2 labels2 (qrest ++ newq) := by
              constructor
              · rw [List.map_append, List.nodup_append]
                refine ⟨hnodup_rest, ?_, ?_⟩
                · rw [hk4]
                  simp only [List.map_map]
                  refine List.Nodup.map ?_ (List.nodup_range _)
                  intro a b hab
                  simp only [Function.comp] at hab
                  omega
                · intro x hx hy
                  rcases List.mem_map.mp hx with ⟨it, hit, he⟩
                  have hlt : it.1 < nodes.length :=
                    (hqfacts it (List.mem_cons_of_mem _ hit)).1
                  rw [hk4] at hy
                  simp only [List.map_map, List.mem_map, List.mem_range,
                    Function.comp] at hy
                  rcases hy with ⟨j, hj, hyv⟩
                  omega
              · intro it hit
                rcases List.mem_append.mp hit with hit1 | hit1
                · have hf := hqfacts it (List.mem_cons_of_mem _ hit1)
                  rcases hf with ⟨hf1, hf2, hf3, hf4, hf5⟩
                  have hnep : it.1 ≠ pidx := by
                    intro he
                    exact hpidx_nin (he ▸ List.mem_map_of_mem Prod.fst hit1)
                  have hnn : nodeAt nodes2 it.1 = nodeAt nodes it.1 :=
                    hn2_old it.1 hf1 hnep
                  refine ⟨by omega, hf2, by rw [hnn]; exact hf3, ?_, by rw [hnn]; exact hf5⟩
                  rw [hnn]
                  exact labelSliceAt_prefix_stable k2 hf4
                · rw [hk4] at hit1
                  simp only [List.mem_map, List.mem_range] at hit1
                  rcases hit1 with ⟨j, hj, hjv⟩
                  subst hjv
                  rcases k5 j hj with ⟨⟨ls, hnode⟩, hslice, h127⟩
                  rcases new_spec ls COMPACT_NONE
                    (strLen ((sortChildren src.children).getD j freshBuilder).pfx)
                    ((sortChildren src.children).getD j freshBuilder).is_leaf
                    (decide (0 + j < (sortChildren src.children).length - 1)) with
                    ⟨hs1, hs2, hs3, hs4, hs5, hs6⟩
                  refine ⟨by dsimp only; omega, hwf_kids j hj, ?_, ?_, ?_⟩
                  · dsimp only
                    rw [hnode, hs2]
                    rfl
                  · dsimp only
                    exact hslice
                  · dsimp only
                    rw [hnode, hs4]
            -- goodness for the recursive call
            have hg2 : ∀ j, j < nodes2.length → goodNode nodes2 labels2 j := by
              intro j hj
              rw [k1] at hj
              by_cases hlt : j < nodes.length
              · by_cases hpe : j = pidx
                · subst hpe
                  rcases hg j hlt with ⟨⟨s, hsl, hs127⟩, hp32⟩
                  constructor
                  · refine ⟨s, ?_, hs127⟩
                    rw [hn2_pidx]
                    rw [labelSliceAt_congr hpa2 (eq_of_hi hpa3).1]
                    exact labelSliceAt_prefix_stable k2 hsl
                  · rw [hn2_pidx]
                    exact hpa4
                · rcases hg j hlt with ⟨⟨s, hsl, hs127⟩, hp32⟩
                  rw [goodNode, hn2_old j hlt hpe]
                  exact ⟨⟨s, labelSliceAt_prefix_stable k2 hsl, hs127⟩, hp32⟩
              · have hj' : j - nodes.length < (sortChildren src.children).length := by
                  omega
                have hjeq : j = nodes.length + (j - nodes.length) := by omega
                rcases k5 (j - nodes.length) hj' with ⟨⟨ls, hnode⟩, hslice, h127⟩
                rw [goodNode, hjeq]
                refine ⟨⟨_, hslice, h127⟩, ?_⟩
                rw [hnode]
                exact (new_spec _ _ _ _ _).2.2.2.2.2
            rcases ih nodes2 labels2 (qrest ++ newq) N L h hq2 hg2 hN with
              ⟨c1, c2, c3, c4, c5⟩
            have hlab_pre : labels <+: L := List.IsPrefix.trans k2 c1
            have hlen2 : nodes2.length = nodes.length +
                (sortChildren src.children).length := k1
            -- final value of the parent node
            have hNpidx : nodeAt N pidx =
                patchFirstChild (nodeAt nodes pidx) nodes.length := by
              rw [← hn2_pidx]
              refine c3 pidx (by omega) ?_
              rw [List.map_append, List.mem_append]
              rintro (hm | hm)
              · exact hpidx_nin hm
              · rw [hk4] at hm
                simp only [List.map_map, List.mem_map, List.mem_range,
                  Function.comp] at hm
                rcases hm with ⟨j, hj, hv⟩
                omega
            -- each child block entry is in the recursive queue
            have hchild_mem : ∀ j, j < (sortChildren src.children).length →
                ((nodes.length + j, (sortChildren src.children).getD j freshBuilder) ∈
                  qrest ++ newq) := by
              intro j hj
              refine List.mem_append.mpr (Or.inr ?_)
              rw [hk4]
              simp only [List.mem_map, List.mem_range]
              exact ⟨j, hj, rfl⟩
            refine ⟨hlab_pre, by omega, ?_, ?_, c5⟩
            · intro j hj hjn
              simp only [List.map_cons, List.mem_cons] at hjn
              have hne_p : j ≠ pidx := fun he => hjn (Or.inl he)
              have hnin2 : j ∉ (qrest ++ newq).map Prod.fst := by
                rw [List.map_append, List.mem_append]
                rintro (hm | hm)
                · exact hjn (Or.inr hm)
                · rw [hk4] at hm
                  simp only [List.map_map, List.mem_map, List.mem_range,
                    Function.comp] at hm
                  rcases hm with ⟨j', hj', hv⟩
                  omega
              rw [c3 j (by omega) hnin2]
              exact hn2_old j hj hne_p
            · intro it hit
              rcases List.mem_cons.mp hit with hit1 | hit1
              · subst hit1
                dsimp only
                refine ⟨?_, ?_, ?_⟩
                · rcases src with ⟨sp, scs, slf⟩
                  have hlen3 : nodes2.length = nodes.length + (sortChildren scs).length :=
                    hlen2
                  have hkpos2 : 0 < (sortChildren scs).length := hkpos
                  refine Matches.nodeN pidx sp scs slf nodes.length (by omega) ?_ ?_ ?_
                    ?_ ?_ ?_ ?_ ?_ ?_
                  · rw [hNpidx, labelSliceAt_congr hpa2 (eq_of_hi hpa3).1]
                    exact labelSliceAt_prefix_stable hlab_pre hlab_src
                  · rw [hNpidx, (eq_of_hi hpa3).2.1]
                    exact hterm_src
                  · rw [← sortChildren_nil_iff.ne] at hchne
                    exact hchne
                  · rw [hNpidx]
                    exact hpa1
                  · omega
                  · omega
                  · omega
                  · intro j hj
                    have hcm := hchild_mem j hj
                    rcases c4 _ hcm with ⟨_, _, chi⟩
                    dsimp only at chi
                    rcases k5 j hj with ⟨⟨ls, hnode⟩, _, _⟩
                    have hhn := (eq_of_hi chi).2.2
                    rw [hhn, hnode, (new_spec _ _ _ _ _).2.2.2.2.1]
                    refine decide_eq_decide.mpr ?_
                    omega
                  · intro j hj
                    have hcm := hchild_mem j hj
                    exact (c4 _ hcm).1
                · rw [hNpidx, hpa2]
                · rw [hNpidx, hpa3]
              · have hf := hqfacts it (List.mem_cons_of_mem _ hit1)
                have hnep : it.1 ≠ pidx := by
                  intro he
                  exact hpidx_nin (he ▸ List.mem_map_of_mem Prod.fst hit1)
                have hnn : nodeAt nodes2 it.1 = nodeAt nodes it.1 :=
                  hn2_old it.1 hf.1 hnep
                rcases c4 it (List.mem_append.mpr (Or.inl hit1)) with ⟨cm, cls, chi⟩
                exact ⟨cm, by rw [cls, hnn], by rw [chi, hnn]⟩

theorem buildFlatten_spec {fuel : Nat} {root : BNode} {N : List CompactNode}
    {L : List Nat}
    (h : buildFlatten fuel root = .ok (N, L))
    (hwf : WFB root)
    (hN : N.length ≤ COMPACT_NONE) :
    Matches N L 0 root ∧ 1 ≤ N.length ∧ (∀ j, j < N.length → goodNode N L j) := by
  unfold buildFlatten at h
  by_cases h127 : 127 < strLen root.pfx
  · rw [if_pos h127] at h; exact Exec.noConfusion h
  · rw [if_neg h127] at h
    have hCN : COMPACT_NONE = 0x7FFFFF := rfl
    rcases new_spec 0 COMPACT_NONE (strLen root.pfx) root.is_leaf false with
      ⟨hs1, hs2, hs3, hs4, hs5, hs6⟩
    have hfc0 : (CompactNode.new 0 COMPACT_NONE (strLen root.pfx) root.is_leaf
        false).first_child = COMPACT_NONE := by
      rw [hs2]
      exact Nat.mod_eq_of_lt (by rw [hCN]; norm_num)
    have hll0 : (CompactNode.new 0 COMPACT_NONE (strLen root.pfx) root.is_leaf
        false).label_len = strLen root.pfx := by
      rw [hs3]
      exact Nat.mod_eq_of_lt (by omega)
    have hslice0 : labelSliceAt (strBytes root.pfx)
        (CompactNode.new 0 COMPACT_NONE (strLen root.pfx) root.is_leaf false) =
        some (strBytes root.pfx) := by
      rw [labelSliceAt, hs1, hll0]
      have hsl : strLen root.pfx = (strBytes root.pfx).length := rfl
      rw [if_pos (by omega)]
      simp [hsl]
    have hq : QueueInv
        [CompactNode.new 0 COMPACT_NONE (strLen root.pfx) root.is_leaf false]
        (strBytes root.pfx) [(0, root)] := by
      refine ⟨by simp, ?_⟩
      intro it hit
      simp only [List.mem_singleton] at hit
      subst hit
      exact ⟨by simp, hwf, hfc0, hslice0, hs4⟩
    have hg : ∀ j, j < ([CompactNode.new 0 COMPACT_NONE (strLen root.pfx)
        root.is_leaf false] : List CompactNode).length →
        goodNode [CompactNode.new 0 COMPACT_NONE (strLen root.pfx) root.is_leaf
          false] (strBytes root.pfx) j := by
      intro j hj
      simp only [List.length_singleton] at hj
      have hj0 : j = 0 := by omega
      subst hj0
      exact ⟨⟨root.pfx, hslice0, by omega⟩, hs6⟩
    rcases buildLoop_spec fuel _ _ _ N L h hq hg hN with ⟨c1, c2, c3, c4, c5⟩
    have hm := c4 (0, root) (List.mem_singleton.mpr rfl)
    exact ⟨hm.1, by simpa using c2, c5⟩

theorem char_valid_ranges (c : Char) :
    c.toNat < 0xD800 ∨ (0xE000 ≤ c.toNat ∧ c.toNat < 0x110000) := c.valid

theorem utf8Cont_true {b : Nat} (h1 : 0x80 ≤ b) (h2 : b ≤ 0xBF) :
    utf8Cont b = true := by
  unfold utf8Cont
  simp only [Bool.and_eq_true, decide_eq_true_eq]
  omega

theorem utf8DecodeGo_encode (c : Char) (rest : List Nat) (fuel : Nat) :
    utf8DecodeGo (fuel + 1) (utf8Encode c ++ rest) = c :: utf8DecodeGo fuel rest := by
  have hv := char_valid_ranges c
  have hlt := char_toNat_lt c
  unfold utf8Encode
  dsimp only
  by_cases h1 : c.toNat < 0x80
  · rw [if_pos h1]
    simp only [List.cons_append, List.nil_append]
    conv_lhs => unfold utf8DecodeGo
    rw [if_pos h1, Char.ofNat_toNat]
  · rw [if_neg h1]
    by_cases h2 : c.toNat < 0x800
    · rw [if_pos h2]
      simp only [List.cons_append, List.nil_append]
      conv_lhs => unfold utf8DecodeGo
      rw [if_neg (by omega)]
      rw [if_pos (by simp only [Bool.and_eq_true, decide_eq_true_eq]; omega)]
      dsimp only
      rw [if_pos (utf8Cont_true (by omega) (by omega))]
      have hval : (0xC0 + c.toNat / 0x40 - 0xC0) * 0x40 +
          (0x80 + c.toNat % 0x40 - 0x80) = c.toNat := by omega
      rw [hval, Char.ofNat_toNat]
    · rw [if_neg h2]
      by_cases h3 : c.toNat < 0x10000
      · rw [if_pos h3]
        simp only [List.cons_append, List.nil_append]
        conv_lhs => unfold utf8DecodeGo
        rw [if_neg (by omega)]
        rw [if_neg (by simp only [Bool.and_eq_true, decide_eq_true_eq]; omega)]
        rw [if_pos (by simp only [Bool.and_eq_true, decide_eq_true_eq]; omega)]
        dsimp only
        have hval : (0xE0 + c.toNat / 0x1000 - 0xE0) * 0x1000 +
            (0x80 + c.toNat / 0x40 % 0x40 - 0x80) * 0x40 +
            (0x80 + c.toNat % 0x40 - 0x80) = c.toNat := by omega
        rw [hval, Char.ofNat_toNat]
        split_ifs <;>
          first
          | rfl
          | (exfalso
             rename ¬ _ => hg
             simp only [utf8Cont, Bool.and_eq_true, decide_eq_true_eq] at hg
             omega)
      · rw [if_neg h3]
        simp only [List.cons_append, List.nil_append]
        conv_lhs => unfold utf8DecodeGo
        rw [if_neg (by omega)]
        rw [if_neg (by simp only [Bool.and_eq_true, decide_eq_true_eq]; omega)]
        rw [if_neg (by simp only [Bool.and_eq_true, decide_eq_true_eq]; omega)]
        rw [if_pos (by simp only [Bool.and_eq_true, decide_eq_true_eq]; omega)]
        dsimp only
        have hval : (0xF0 + c.toNat / 0x40000 - 0xF0) * 0x40000 +
            (0x80 + c.toNat / 0x1000 % 0x40 - 0x80) * 0x1000 +
            (0x80 + c.toNat / 0x40 % 0x40 - 0x80) * 0x40 +
            (0x80 + c.toNat % 0x40 - 0x80) = c.toNat := by omega
        rw [hval, Char.ofNat_toNat]
        split_ifs <;>
          first
          | rfl
          | (exfalso
             rename ¬ _ => hg
             simp only [utf8Cont, Bool.and_eq_true, decide_eq_true_eq] at hg
             omega)

theorem strBytes_length_ge (s : List Char) : s.length ≤ (strBytes s).length := by
  induction s with
  | nil => simp [strBytes]
  | cons c s ih =>
    rw [strBytes_cons, List.length_append, List.length_cons]
    have := List.length_pos.mpr (utf8Encode_ne_nil c)
    omega

theorem utf8DecodeGo_strBytes (s : List Char) :
    ∀ fuel, s.length ≤ fuel → utf8DecodeGo fuel (strBytes s) = s := by
  induction s with
  | nil =>
    intro fuel _
    cases fuel <;> rfl
  | cons c s ih =>
    intro fuel hf
    cases fuel with
    | zero => simp at hf
    | succ f =>
      rw [strBytes_cons, utf8DecodeGo_encode, ih f (by simp at hf; omega)]

theorem utf8DecodeLossy_strBytes (s : List Char) :
    utf8DecodeLossy (strBytes s) = s :=
  utf8DecodeGo_strBytes s _ (strBytes_length_ge s)

theorem strIdx_none {us : List (List Char)} {s : List Char} :
    strIdx us s = none ↔ s ∉ us := by
  induction us with
  | nil => simp [strIdx]
  | cons u rest ih =>
    rw [strIdx]
    by_cases he : u = s
    · subst he
      simp
    · rw [if_neg he]
      cases hr : strIdx rest s with
      | none =>
        have hnr : s ∉ rest := ih.mp hr
        simp only [Option.map, List.mem_cons]
        constructor
        · intro _ hm
          rcases hm with hm | hm
          · exact he hm.symm
          · exact hnr hm
        · intro _
          trivial
      | some i0 =>
        have hmr : s ∈ rest := by
          by_contra hns
          rw [← ih] at hns
          rw [hns] at hr
          exact Option.noConfusion hr
        simp only [Option.map, List.mem_cons]
        constructor
        · intro hc
          exact Option.noConfusion hc
        · intro hn
          exact absurd (Or.inr hmr) hn

theorem strIdx_some {us : List (List Char)} {s : List Char} :
    ∀ {i : Nat}, strIdx us s = some i → i < us.length ∧ uGet us i = s := by
  induction us with
  | nil => intro i h; exact Option.noConfusion h
  | cons u rest ih =>
    intro i h
    rw [strIdx] at h
    by_cases he : u = s
    · rw [if_pos he, Option.some.injEq] at h
      subst h
      exact ⟨by simp, he⟩
    · rw [if_neg he] at h
      cases hr : strIdx rest s with
      | none => rw [hr] at h; exact Option.noConfusion h
      | some i0 =>
        rw [hr] at h
        simp only [Option.map, Option.some.injEq] at h
        subst h
        rcases ih hr with ⟨h1, h2⟩
        refine ⟨by simp; omega, ?_⟩
        rw [uGet] at h2 ⊢
        simpa using h2

theorem getD_of_prefix {α : Type} {l1 l2 : List α} (d : α) (h : l1 <+: l2)
    {i : Nat} (hi : i < l1.length) : l2.getD i d = l1.getD i d := by
  rcases h with ⟨t, ht⟩
  subst ht
  rw [List.getD_eq_getElem?_getD, List.getD_eq_getElem?_getD,
    List.getElem?_append_left hi]

theorem getD_append_self {α : Type} (l : List α) (x : α) (t : List α) (d : α) :
    (l ++ x :: t).getD l.length d = x := by
  rw [List.getD_eq_getElem?_getD, List.getElem?_append_right (le_refl _)]
  simp

theorem uGet_of_prefix {us1 us2 : List (List Char)} (h : us1 <+: us2)
    {i : Nat} (hi : i < us1.length) : uGet us2 i = uGet us1 i :=
  getD_of_prefix [] h hi

theorem dedupLabels_spec (labels : List Nat) :
    ∀ (nodes : List CompactNode) (us0 : List (List Char)) (ids0 : List Nat)
      (us : List (List Char)) (ids : List Nat),
      dedupLabels labels nodes us0 ids0 = some (us, ids) →
      us0 <+: us ∧
      ids0 <+: ids ∧
      ids.length = ids0.length + nodes.length ∧
      (us0.Nodup → us.Nodup) ∧
      (∀ u ∈ us, u ∈ us0 ∨ ∃ cn ∈ nodes, ∃ bs, labelSliceAt labels cn = some bs ∧
        u = utf8DecodeLossy bs) ∧
      (∀ j, j < nodes.length → ∃ bs, labelSliceAt labels (nodeAt nodes j) = some bs ∧
        ids.getD (ids0.length + j) 0 < us.length ∧
        uGet us (ids.getD (ids0.length + j) 0) = utf8DecodeLossy bs) := by
  intro nodes
  induction nodes with
  | nil =>
    intro us0 ids0 us ids h
    rw [dedupLabels, Option.some.injEq, Prod.mk.injEq] at h
    rcases h with ⟨h1, h2⟩
    subst h1; subst h2
    refine ⟨List.prefix_refl _, List.prefix_refl _, by simp, fun hn => hn,
      fun u hu => Or.inl hu, ?_⟩
    intro j hj
    simp at hj
  | cons node rest ih =>
    intro us0 ids0 us ids h
    rw [dedupLabels] at h
    cases hsl : labelSliceAt labels node with
    | none => rw [hsl] at h; exact Option.noConfusion h
    | some bs =>
      rw [hsl] at h
      dsimp only at h
      cases hidx : strIdx us0 (utf8DecodeLossy bs) with
      | some id =>
        rw [hidx] at h
        rcases ih us0 (ids0 ++ [id]) us ids h with ⟨c1, c2, c3, c4, c5, c6⟩
        rcases strIdx_some hidx with ⟨hid1, hid2⟩
        refine ⟨c1, ?_, ?_, c4, ?_, ?_⟩
        · exact List.IsPrefix.trans (List.prefix_append _ _) c2
        · rw [c3]
          simp only [List.length_append, List.length_singleton, List.length_cons,
            List.length_nil]
          omega
        · intro u hu
          rcases c5 u hu with hm | ⟨cn, hcn, bs2, hb1, hb2⟩
          · exact Or.inl hm
          · exact Or.inr ⟨cn, List.mem_cons_of_mem _ hcn, bs2, hb1, hb2⟩
        · intro j hj
          cases j with
          | zero =>
            refine ⟨bs, hsl, ?_, ?_⟩
            · have hg : ids.getD (ids0.length + 0) 0 = id := by
                rw [Nat.add_zero]
                rw [ getD_of_prefix 0 c2 (by simp)]
                exact getD_append_self ids0 id [] 0
              rw [hg]
              exact lt_of_lt_of_le hid1 c1.length_le
            · have hg : ids.getD (ids0.length + 0) 0 = id := by
                rw [Nat.add_zero]
                rw [ getD_of_prefix 0 c2 (by simp)]
                exact getD_append_self ids0 id [] 0
              rw [hg, uGet_of_prefix c1 hid1, hid2]
          | succ j0 =>
            simp only [List.length_cons] at hj
            rcases c6 j0 (by omega) with ⟨bs2, hb1, hb2, hb3⟩
            refine ⟨bs2, ?_, ?_, ?_⟩
            · exact hb1
            · have : ids0.length + (j0 + 1) = (ids0 ++ [id]).length + j0 := by
                simp
                omega
              rw [this]
              exact hb2
            · have : ids0.length + (j0 + 1) = (ids0 ++ [id]).length + j0 := by
                simp
                omega
              rw [this]
              exact hb3
      | none =>
        rw [hidx] at h
        rcases ih (us0 ++ [utf8DecodeLossy bs]) (ids0 ++ [us0.length]) us ids h with
          ⟨c1, c2, c3, c4, c5, c6⟩
        have hnm : utf8DecodeLossy bs ∉ us0 := strIdx_none.mp hidx
        refine ⟨?_, ?_, ?_, ?_, ?_, ?_⟩
        · exact List.IsPrefix.trans (List.prefix_append _ _) c1
        · exact List.IsPrefix.trans (List.prefix_append _ _) c2
        · rw [c3]
          simp only [List.length_append, List.length_singleton, List.length_cons,
            List.length_nil]
          omega
        · intro hn
          refine c4 ?_
          simp only [List.nodup_append, List.nodup_singleton]
          refine ⟨hn, trivial, ?_⟩
          intro x hx
          simp only [List.mem_singleton]
          intro he
          subst he
          exact hnm hx
        · intro u hu
          rcases c5 u hu with hm | ⟨cn, hcn, bs2, hb1, hb2⟩
          · rcases List.mem_append.mp hm with hm2 | hm2
            · exact Or.inl hm2
            · simp only [List.mem_singleton] at hm2
              subst hm2
              exact Or.inr ⟨node, List.mem_cons_self _ _, bs, hsl, rfl⟩
          · exact Or.inr ⟨cn, List.mem_cons_of_mem _ hcn, bs2, hb1, hb2⟩
        · intro j hj
          cases j with
          | zero =>
            refine ⟨bs, hsl, ?_, ?_⟩
            · have hg : ids.getD (ids0.length + 0) 0 = us0.length := by
                rw [Nat.add_zero]
                rw [ getD_of_prefix 0 c2 (by simp)]
                exact getD_append_self ids0 us0.length [] 0
              rw [hg]
              have : us0.length < (us0 ++ [utf8DecodeLossy bs]).length := by simp
              exact lt_of_lt_of_le this c1.length_le
            · have hg : ids.getD (ids0.length + 0) 0 = us0.length := by
                rw [Nat.add_zero]
                rw [ getD_of_prefix 0 c2 (by simp)]
                exact getD_append_self ids0 us0.length [] 0
              rw [hg, uGet_of_prefix c1 (by simp)]
              exact getD_append_self us0 (utf8DecodeLossy bs) [] []
          | succ j0 =>
            simp only [List.length_cons] at hj
            rcases c6 j0 (by omega) with ⟨bs2, hb1, hb2, hb3⟩
            refine ⟨bs2, hb1, ?_, ?_⟩
            · have : ids0.length + (j0 + 1) = (ids0 ++ [us0.length]).length + j0 := by
                simp
                omega
              rw [this]
              exact hb2
            · have : ids0.length + (j0 + 1) = (ids0 ++ [us0.length]).length + j0 := by
                simp
                omega
              rw [this]
              exact hb3

theorem getD_set_self {α : Type} (l : List α) {j : Nat} (v : α) (d : α)
    (h : j < l.length) : (l.set j v).getD j d = v := by
  rw [List.getD_eq_getElem?_getD, List.getElem?_set_eq_of_lt _ h]
  rfl

theorem getD_set_ne {α : Type} (l : List α) {i j : Nat} (v : α) (d : α)
    (h : i ≠ j) : (l.set i v).getD j d = l.getD j d := by
  rw [List.getD_eq_getElem?_getD, List.getD_eq_getElem?_getD, List.getElem?_set_ne h]

theorem uGet_inj {us : List (List Char)} (hnd : us.Nodup) {a b : Nat}
    (ha : a < us.length) (hb : b < us.length) (he : uGet us a = uGet us b) :
    a = b := by
  rw [uGet, uGet, List.getD_eq_getElem _ _ ha, List.getD_eq_getElem _ _ hb] at he
  have h2 : us.get ⟨a, ha⟩ = us.get ⟨b, hb⟩ := he
  exact Fin.val_eq_of_eq ((List.Nodup.get_inj_iff hnd).mp h2)

theorem uGet_mem {us : List (List Char)} {i : Nat} (h : i < us.length) :
    uGet us i ∈ us := by
  rw [uGet, List.getD_eq_getElem _ _ h]
  exact List.getElem_mem _

theorem zip_all_eq_take {α : Type} [DecidableEq α] :
    ∀ (l1 l2 : List α), ((l1.zip l2).all fun p => decide (p.1 = p.2)) = true →
      l1.take l2.length = l2.take l1.length := by
  intro l1
  induction l1 with
  | nil => intro l2 _; simp
  | cons a l1 ih =>
    intro l2 h
    cases l2 with
    | nil => simp
    | cons b l2 =>
      simp only [List.zip_cons_cons, List.all_cons, Bool.and_eq_true,
        decide_eq_true_eq] at h
      rw [List.length_cons, List.length_cons, List.take_succ_cons,
        List.take_succ_cons, h.1, ih l2 h.2]

theorem revZipAllEq_pre {lg sm : List Char} (h : revZipAllEq lg sm = true)
    (hlen : sm.length ≤ lg.length) : sm.reverse <+: lg.reverse := by
  unfold revZipAllEq at h
  have ht := zip_all_eq_take lg.reverse sm.reverse h
  rw [List.take_of_length_le (show sm.reverse.length ≤ lg.reverse.length by
    simpa using hlen)] at ht
  rw [← ht]
  exact List.take_prefix _ _

theorem revZipAllEq_pre_rev {lg sm : List Char} (h : revZipAllEq lg sm = true)
    (hlen : lg.length ≤ sm.length) : lg.reverse <+: sm.reverse := by
  unfold revZipAllEq at h
  have ht := zip_all_eq_take lg.reverse sm.reverse h
  rw [List.take_of_length_le (show lg.reverse.length ≤ sm.reverse.length by
    simpa using hlen)] at ht
  rw [ht]
  exact List.take_prefix _ _

theorem redInv_set {uniques : List (List Char)} {red : List (Nat × Nat)}
    {act : List Bool} (hinv : RedInv uniques red act) {a b off : Nat}
    (ha : a < uniques.length) (hb : b < uniques.length)
    (hlt : strLen (uGet uniques a) < strLen (uGet uniques b))
    (hbound : off + strLen (uGet uniques a) ≤ strLen (uGet uniques b))
    (hslice : strBytes (uGet uniques a) =
      ((strBytes (uGet uniques b)).drop off).take (strLen (uGet uniques a))) :
    RedInv uniques (red.set a (b, off)) (act.set a false) := by
  rcases hinv with ⟨hl1, hl2, hmain⟩
  refine ⟨by rw [List.length_set]; exact hl1,
    by rw [List.length_set]; exact hl2, ?_⟩
  intro i hi hact
  by_cases he : a = i
  · subst he
    have hred : (red.set a (b, off)).getD a (a, 0) = (b, off) :=
      getD_set_self red _ _ (by omega)
    rw [hred]
    exact ⟨hb, hlt, hbound, hslice⟩
  · have hact2 : act.getD i false = false := by
      rw [getD_set_ne act false false he] at hact
      exact hact
    have hred : (red.set a (b, off)).getD i (i, 0) = red.getD i (i, 0) :=
      getD_set_ne red _ _ he
    rw [hred]
    exact hmain i hi hact2

theorem redInv_init (uniques : List (List Char)) :
    RedInv uniques ((List.range uniques.length).map fun i => (i, 0))
      (List.replicate uniques.length true) := by
  refine ⟨by simp, by simp, ?_⟩
  intro i hi hact
  exfalso
  rw [List.getD_eq_getElem?_getD, List.getElem?_replicate] at hact
  rw [if_pos hi] at hact
  simp at hact

theorem preFoldGo_inv (uniques : List (List Char)) (hnd : uniques.Nodup) :
    ∀ (walk : List Nat) (red : List (Nat × Nat)) (act : List Bool),
      RedInv uniques red act →
      (∀ a ∈ walk, a < uniques.length) →
      walk.Nodup →
      RedInv uniques (preFoldGo uniques walk red act).1
        (preFoldGo uniques walk red act).2 := by
  intro walk
  induction walk with
  | nil => intro red act hinv _ _; exact hinv
  | cons a tail ih =>
    intro red act hinv hmem hnodup
    cases tail with
    | nil => exact hinv
    | cons b rest =>
      have ha : a < uniques.length := hmem a (List.mem_cons_self _ _)
      have hb : b < uniques.length :=
        hmem b (List.mem_cons_of_mem _ (List.mem_cons_self _ _))
      have hane : a ≠ b := by
        rcases List.nodup_cons.mp hnodup with ⟨hna, _⟩
        intro he
        exact hna (he ▸ List.mem_cons_self _ _)
      have hmem2 : ∀ x ∈ b :: rest, x < uniques.length :=
        fun x hx => hmem x (List.mem_cons_of_mem _ hx)
      have hnodup2 : (b :: rest).Nodup := (List.nodup_cons.mp hnodup).2
      rw [preFoldGo]
      by_cases hp : isPre (strBytes (uGet uniques a)) (strBytes (uGet uniques b)) = true
      · rw [if_pos hp]
        refine ih _ _ ?_ hmem2 hnodup2
        have hpre : strBytes (uGet uniques a) <+: strBytes (uGet uniques b) :=
          isPre_iff.mp hp
        have hune : uGet uniques a ≠ uGet uniques b :=
          fun he => hane (uGet_inj hnd ha hb he)
        have hbne : strBytes (uGet uniques a) ≠ strBytes (uGet uniques b) :=
          fun he => hune (strBytes_inj he)
        have hsla : strLen (uGet uniques a) = (strBytes (uGet uniques a)).length := rfl
        have hslb : strLen (uGet uniques b) = (strBytes (uGet uniques b)).length := rfl
        have hlt : strLen (uGet uniques a) < strLen (uGet uniques b) := by
          have hle := hpre.length_le
          rcases Nat.lt_or_ge (strBytes (uGet uniques a)).length
              (strBytes (uGet uniques b)).length with h | h
          · omega
          · exact absurd (hpre.eq_of_length (by omega)) hbne
        refine redInv_set hinv ha hb hlt (by omega) ?_
        rw [List.drop_zero, hsla]
        exact List.prefix_iff_eq_take.mp hpre
      · rw [if_neg hp]
        exact ih _ _ hinv hmem2 hnodup2

theorem sufFoldGo_inv (uniques : List (List Char)) (hnd : uniques.Nodup) :
    ∀ (walk : List Nat) (red : List (Nat × Nat)) (act : List Bool),
      RedInv uniques red act →
      (∀ a ∈ walk, a < uniques.length) →
      walk.Nodup →
      walk.Chain' (fun a b => lexLe (revKey uniques a) (revKey uniques b) = true) →
      RedInv uniques (sufFoldGo uniques walk red act).1
        (sufFoldGo uniques walk red act).2 := by
  intro walk
  induction walk with
  | nil => intro red act hinv _ _ _; exact hinv
  | cons a tail ih =>
    intro red act hinv hmem hnodup hchain
    cases tail with
    | nil => exact hinv
    | cons b rest =>
      have ha : a < uniques.length := hmem a (List.mem_cons_self _ _)
      have hb : b < uniques.length :=
        hmem b (List.mem_cons_of_mem _ (List.mem_cons_self _ _))
      have hane : a ≠ b := by
        rcases List.nodup_cons.mp hnodup with ⟨hna, _⟩
        intro he
        exact hna (he ▸ List.mem_cons_self _ _)
      have hmem2 : ∀ x ∈ b :: rest, x < uniques.length :=
        fun x hx => hmem x (List.mem_cons_of_mem _ hx)
      have hnodup2 : (b :: rest).Nodup := (List.nodup_cons.mp hnodup).2
      have hchain2 : (b :: rest).Chain'
          (fun a b => lexLe (revKey uniques a) (revKey uniques b) = true) :=
        (List.chain'_cons.mp hchain).2
      have hrel : lexLe (revKey uniques a) (revKey uniques b) = true :=
        (List.chain'_cons.mp hchain).1
      rw [sufFoldGo]
      by_cases hz : revZipAllEq (uGet uniques b) (uGet uniques a) = true
      · rw [if_pos hz]
        refine ih _ _ ?_ hmem2 hnodup2 hchain2
        have hune : uGet uniques a ≠ uGet uniques b :=
          fun he => hane (uGet_inj hnd ha hb he)
        have hlen : (uGet uniques a).length ≤ (uGet uniques b).length := by
          by_contra hgt
          push_neg at hgt
          have hpp : (uGet uniques b).reverse <+: (uGet uniques a).reverse :=
            revZipAllEq_pre_rev hz (by omega)
          have hkpre : revKey uniques b <+: revKey uniques a := by
            rw [revKey, revKey]
            exact hpp.map Char.toNat
          have hkne : revKey uniques b ≠ revKey uniques a := by
            intro he
            have := congrArg List.length he
            rw [revKey, revKey] at this
            simp at this
            omega
          have hklt := lexLt_of_pre_ne hkpre hkne
          have := lexLe_antisymm hrel (lexLe_of_lexLt hklt)
          exact hkne this.symm
        have hpp : (uGet uniques a).reverse <+: (uGet uniques b).reverse :=
          revZipAllEq_pre hz hlen
        rcases hpp with ⟨t, ht⟩
        have hub : uGet uniques b = t.reverse ++ uGet uniques a := by
          have h2 := congrArg List.reverse ht
          rw [List.reverse_reverse, List.reverse_append, List.reverse_reverse] at h2
          exact h2.symm
        have htne : t.reverse ≠ [] := by
          intro he
          rw [he, List.nil_append] at hub
          exact hune hub.symm
        have hbytes : strBytes (uGet uniques b) =
            strBytes t.reverse ++ strBytes (uGet uniques a) := by
          rw [hub, strBytes_append]
        have hlenb : strLen (uGet uniques b) =
            strLen t.reverse + strLen (uGet uniques a) := by
          rw [strLen, strLen, strLen, hbytes, List.length_append]
        have hpos : 0 < strLen t.reverse := strLen_pos htne
        have hoff : strLen (uGet uniques b) - strLen (uGet uniques a) =
            strLen t.reverse := by omega
        refine redInv_set hinv ha hb (by omega) (by omega) ?_
        rw [hoff, hbytes]
        have hdl : (strBytes t.reverse ++ strBytes (uGet uniques a)).drop
            (strLen t.reverse) = strBytes (uGet uniques a) := by
          have : strLen t.reverse = (strBytes t.reverse).length := rfl
          rw [this, List.drop_left]
        rw [hdl]
        have : strLen (uGet uniques a) = (strBytes (uGet uniques a)).length := rfl
        rw [this, List.take_length]
      · rw [if_neg hz]
        exact ih _ _ hinv hmem2 hnodup2 hchain2

theorem resolveGo_spec {uniques : List (List Char)} {red : List (Nat × Nat)}
    {act : List Bool} (hinv : RedInv uniques red act)
    (h127 : ∀ i, i < uniques.length → strLen (uGet uniques i) ≤ 127) :
    ∀ (fuel curr total : Nat), curr < uniques.length →
      128 ≤ strLen (uGet uniques curr) + fuel →
      ∃ r T, resolveGo act red fuel curr total = (r, total + T) ∧
        r < uniques.length ∧ act.getD r false = true ∧
        T + strLen (uGet uniques curr) ≤ strLen (uGet uniques r) ∧
        strBytes (uGet uniques curr) =
          ((strBytes (uGet uniques r)).drop T).take (strLen (uGet uniques curr)) := by
  intro fuel
  induction fuel with
  | zero =>
    intro curr total hc hf
    exfalso
    have := h127 curr hc
    omega
  | succ fuel ih =>
    intro curr total hc hf
    rw [resolveGo]
    cases hact : act.getD curr false with
    | true =>
      rw [if_pos rfl]
      refine ⟨curr, 0, by rw [Nat.add_zero], hc, hact, by omega, ?_⟩
      rw [List.drop_zero]
      have hb : strLen (uGet uniques curr) = (strBytes (uGet uniques curr)).length := rfl
      rw [hb, List.take_length]
    | false =>
      rw [if_neg Bool.false_ne_true]
      rcases hinv.2.2 curr hc hact with ⟨hn1, hn2, hn3, hn4⟩
      have hne : (red.getD curr (curr, 0)).1 ≠ curr := by
        intro he
        rw [he] at hn2
        omega
      rw [if_neg hne]
      rcases ih (red.getD curr (curr, 0)).1 (total + (red.getD curr (curr, 0)).2)
          hn1 (by omega) with ⟨r, T, hres, hr1, hr2, hr3, hr4⟩
      refine ⟨r, (red.getD curr (curr, 0)).2 + T, ?_, hr1, hr2, by omega, ?_⟩
      · rw [hres]
        rw [Prod.mk.injEq]
        exact ⟨rfl, by omega⟩
      · rw [hn4, hr4]
        have hlen1 : strLen (uGet uniques (red.getD curr (curr, 0)).1) =
            (strBytes (uGet uniques (red.getD curr (curr, 0)).1)).length := rfl
        rw [List.drop_take, List.drop_drop, List.take_take]
        have h1 : T + (red.getD curr (curr, 0)).2 = (red.getD curr (curr, 0)).2 + T := by
          omega
        rw [h1]
        congr 1
        omega

theorem superBufGo_spec (uniques : List (List Char)) (act : List Bool) :
    ∀ (idx : List Nat) (buf addrs : List Nat),
      buf <+: (superBufGo uniques act idx (buf, addrs)).1 ∧
      (superBufGo uniques act idx (buf, addrs)).2.length =
        addrs.length + idx.length ∧
      addrs <+: (superBufGo uniques act idx (buf, addrs)).2 ∧
      (∀ j, j < idx.length → act.getD (idx.getD j 0) false = true →
        (superBufGo uniques act idx (buf, addrs)).2.getD (addrs.length + j) 0 +
          strLen (uGet uniques (idx.getD j 0)) ≤
          (superBufGo uniques act idx (buf, addrs)).1.length ∧
        ((superBufGo uniques act idx (buf, addrs)).1.drop
          ((superBufGo uniques act idx (buf, addrs)).2.getD (addrs.length + j) 0)).take
          (strLen (uGet uniques (idx.getD j 0))) =
          strBytes (uGet uniques (idx.getD j 0))) := by
  intro idx
  induction idx with
  | nil =>
    intro buf addrs
    refine ⟨List.prefix_refl _, by simp [superBufGo], List.prefix_refl _, ?_⟩
    intro j hj
    simp at hj
  | cons i rest ih =>
    intro buf addrs
    rw [superBufGo]
    by_cases hai : act.getD i false = true
    · rw [if_pos hai]
      rcases ih (buf ++ strBytes (uGet uniques i)) (addrs ++ [buf.length]) with
        ⟨c1, c2, c3, c4⟩
      refine ⟨List.IsPrefix.trans (List.prefix_append _ _) c1, ?_,
        List.IsPrefix.trans (List.prefix_append _ _) c3, ?_⟩
      · rw [c2]
        simp only [List.length_append, List.length_cons, List.length_nil]
        omega
      · intro j hj hact
        cases j with
        | zero =>
          have hg0 : (i :: rest).getD 0 0 = i := rfl
          rw [hg0] at hact ⊢
          have haddr : (superBufGo uniques act rest
              (buf ++ strBytes (uGet uniques i), addrs ++ [buf.length])).2.getD
              (addrs.length + 0) 0 = buf.length := by
            rw [Nat.add_zero, getD_of_prefix 0 c3 (by simp)]
            exact getD_append_self addrs buf.length [] 0
          rcases c1 with ⟨t, ht⟩
          have hsl : strLen (uGet uniques i) = (strBytes (uGet uniques i)).length := rfl
          constructor
          · rw [haddr, ← ht]
            simp only [List.length_append]
            omega
          · rw [haddr, ← ht, List.append_assoc, List.drop_left]
            rw [hsl, List.take_left]
        | succ j0 =>
          simp only [List.length_cons] at hj
          have hre : addrs.length + (j0 + 1) = (addrs ++ [buf.length]).length + j0 := by
            simp only [List.length_append, List.length_cons, List.length_nil]
            omega
          have hget : (i :: rest).getD (j0 + 1) 0 = rest.getD j0 0 := rfl
          rw [hget] at hact ⊢
          rw [hre]
          exact c4 j0 (by omega) hact
    · rw [if_neg hai]
      rcases ih buf (addrs ++ [0]) with ⟨c1, c2, c3, c4⟩
      refine ⟨c1, ?_, List.IsPrefix.trans (List.prefix_append _ _) c3, ?_⟩
      · rw [c2]
        simp only [List.length_append, List.length_cons, List.length_nil]
        omega
      · intro j hj hact
        cases j with
        | zero =>
          exfalso
          exact hai hact
        | succ j0 =>
          simp only [List.length_cons] at hj
          have hre : addrs.length + (j0 + 1) = (addrs ++ [0]).length + j0 := by
            simp only [List.length_append, List.length_cons, List.length_nil]
            omega
          have hget : (i :: rest).getD (j0 + 1) 0 = rest.getD j0 0 := rfl
          rw [hget] at hact ⊢
          rw [hre]
          exact c4 j0 (by omega) hact

theorem sortedByStr_mem {uniques : List (List Char)} {a : Nat}
    (h : a ∈ sortedByStr uniques) : a < uniques.length := by
  have hp := List.perm_insertionSort
    (fun a b => lexLe (strBytes (uGet uniques a)) (strBytes (uGet uniques b)) = true)
    (List.range uniques.length)
  have := hp.mem_iff.mp h
  rwa [List.mem_range] at this

theorem sortedByStr_nodup (uniques : List (List Char)) :
    (sortedByStr uniques).Nodup := by
  have hp := List.perm_insertionSort
    (fun a b => lexLe (strBytes (uGet uniques a)) (strBytes (uGet uniques b)) = true)
    (List.range uniques.length)
  exact hp.nodup_iff.mpr (List.nodup_range _)

theorem sortedByRev_mem {uniques : List (List Char)} {active : List Nat} {a : Nat}
    (h : a ∈ sortedByRev uniques active) : a ∈ active := by
  have hp := List.perm_insertionSort
    (fun a b => lexLe (revKey uniques a) (revKey uniques b) = true) active
  exact hp.mem_iff.mp h

theorem sortedByRev_nodup {uniques : List (List Char)} {active : List Nat}
    (h : active.Nodup) : (sortedByRev uniques active).Nodup := by
  have hp := List.perm_insertionSort
    (fun a b => lexLe (revKey uniques a) (revKey uniques b) = true) active
  exact hp.nodup_iff.mpr h

theorem sortedByRev_chain (uniques : List (List Char)) (active : List Nat) :
    (sortedByRev uniques active).Chain'
      (fun a b => lexLe (revKey uniques a) (revKey uniques b) = true) := by
  haveI : IsTotal Nat (fun a b => lexLe (revKey uniques a) (revKey uniques b) = true) :=
    ⟨fun a b => lexLe_total _ _⟩
  haveI : IsTrans Nat (fun a b => lexLe (revKey uniques a) (revKey uniques b) = true) :=
    ⟨fun a b c h1 h2 => lexLe_trans h1 h2⟩
  exact (List.sorted_insertionSort _ active).chain'

theorem finalResolution_getD {act : List Bool} {red : List (Nat × Nat)} {num i : Nat}
    (h : i < num) :
    (finalResolution act red num).getD i (0, 0) = resolveGo act red 1001 i 0 := by
  rw [finalResolution, List.getD_eq_getElem _ _ (by simpa using h)]
  rw [List.getElem_map, List.getElem_range]

theorem range_getD {n j : Nat} (h : j < n) : (List.range n).getD j 0 = j := by
  rw [List.getD_eq_getElem _ _ (by simpa using h), List.getElem_range]

theorem applyResolution_length (nodes : List CompactNode) (ids : List Nat)
    (res : List (Nat × Nat)) (addrs : List Nat) (h : ids.length = nodes.length) :
    (applyResolution nodes ids res addrs).length = nodes.length := by
  rw [applyResolution, List.length_map, List.length_zip, h, Nat.min_self]

theorem applyResolution_at (nodes : List CompactNode) (ids : List Nat)
    (res : List (Nat × Nat)) (addrs : List Nat) (h : ids.length = nodes.length)
    {j : Nat} (hj : j < nodes.length) :
    nodeAt (applyResolution nodes ids res addrs) j =
      { nodeAt nodes j with label_start :=
          (addrs.getD (res.getD (ids.getD j 0) (0, 0)).1 0 +
            (res.getD (ids.getD j 0) (0, 0)).2) } := by
  have hlen : (applyResolution nodes ids res addrs).length = nodes.length :=
    applyResolution_length nodes ids res addrs h
  rw [nodeAt, List.getD_eq_getElem _ _ (by rw [hlen]; exact hj)]
  unfold applyResolution
  rw [List.getElem_map, List.getElem_zip]
  dsimp only
  rw [nodeAt, List.getD_eq_getElem nodes default hj,
    List.getD_eq_getElem ids 0 (show j < ids.length by omega)]

theorem labelSliceAt_inv {labels : List Nat} {n : CompactNode} {bs : List Nat}
    (h : labelSliceAt labels n = some bs) :
    n.label_start + n.label_len ≤ labels.length ∧
    bs = (labels.drop n.label_start).take n.label_len ∧
    bs.length = n.label_len := by
  rw [labelSliceAt] at h
  by_cases hc : n.label_start + n.label_len ≤ labels.length
  · rw [if_pos hc, Option.some.injEq] at h
    subst h
    refine ⟨hc, rfl, ?_⟩
    rw [List.length_take, List.length_drop]
    omega
  · rw [if_neg hc] at h
    exact Option.noConfusion h

theorem nodeAt_mem {nodes : List CompactNode} {j : Nat} (h : j < nodes.length) :
    nodeAt nodes j ∈ nodes := by
  rw [nodeAt, List.getD_eq_getElem _ _ h]
  exact List.getElem_mem _

theorem label_start_update (n : CompactNode) (v : Nat) :
    ({ n with label_start := v } : CompactNode).label_start = v := rfl

theorem label_len_update (n : CompactNode) (v : Nat) :
    ({ n with label_start := v } : CompactNode).label_len = n.label_len := rfl

theorem packed_update (n : CompactNode) (v : Nat) :
    ({ n with label_start := v } : CompactNode).packed = n.packed := rfl

theorem compress_node_slice {us : List (List Char)} {labels2 : List Nat}
    {red2 : List (Nat × Nat)} {act2 : List Bool} {addrs : List Nat}
    (inv2 : RedInv us red2 act2)
    (h127 : ∀ i, i < us.length → strLen (uGet us i) ≤ 127)
    (hsup : ∀ r, r < us.length → act2.getD r false = true →
      addrs.getD r 0 + strLen (uGet us r) ≤ labels2.length ∧
      (labels2.drop (addrs.getD r 0)).take (strLen (uGet us r)) =
        strBytes (uGet us r))
    {id : Nat} (hid : id < us.length) (n : CompactNode)
    (hlen : n.label_len = strLen (uGet us id)) :
    labelSliceAt labels2
      { n with label_start := (addrs.getD (resolveGo act2 red2 1001 id 0).1 0 +
          (resolveGo act2 red2 1001 id 0).2) } = some (strBytes (uGet us id)) := by
  rcases resolveGo_spec inv2 h127 1001 id 0 hid
      (by have := h127 id hid; omega) with ⟨r, T, hres, hr1, hr2, hr3, hr4⟩
  rcases hsup r hr1 hr2 with ⟨hs1, hs2⟩
  rw [hres]
  dsimp only
  rw [Nat.zero_add]
  rw [labelSliceAt, label_start_update, label_len_update, hlen]
  rw [if_pos (by omega)]
  have halg : labels2.drop (addrs.getD r 0 + T) =
      (labels2.drop (addrs.getD r 0)).drop T := by
    rw [List.drop_drop, Nat.add_comm]
  rw [halg]
  have h3 : ((labels2.drop (addrs.getD r 0)).drop T).take (strLen (uGet us id)) =
      (((labels2.drop (addrs.getD r 0)).take (strLen (uGet us r))).drop T).take
        (strLen (uGet us id)) := by
    rw [List.drop_take, List.take_take, Nat.min_eq_left (by omega)]
  rw [h3, hs2, ← hr4]

theorem compress_labels_spec {labels : List Nat} {nodes : List CompactNode}
    {labels2 : List Nat} {nodes2 : List CompactNode}
    (h : compress_labels labels nodes = some (labels2, nodes2))
    (hg : ∀ cn ∈ nodes, ∃ s : List Char,
      labelSliceAt labels cn = some (strBytes s) ∧ strLen s ≤ 127) :
    nodes2.length = nodes.length ∧
    (∀ j, j < nodes.length → (nodeAt nodes2 j).packed = (nodeAt nodes j).packed) ∧
    (∀ j, j < nodes.length →
      labelSliceAt labels2 (nodeAt nodes2 j) = labelSliceAt labels (nodeAt nodes j)) := by
  rw [compress_labels] at h
  cases hd : dedupLabels labels nodes [] [] with
  | none => rw [hd] at h; exact Option.noConfusion h
  | some pr =>
    rcases pr with ⟨us, ids⟩
    rw [hd] at h
    dsimp only at h
    by_cases hu0 : us.length = 0
    · rw [if_pos hu0] at h
      exact Option.noConfusion h
    · rw [if_neg hu0] at h
      rw [Option.some.injEq, Prod.mk.injEq] at h
      rcases h with ⟨hL, hN⟩
      rcases dedupLabels_spec labels nodes [] [] us ids hd with ⟨d1, d2, d3, d4, d5, d6⟩
      simp only [List.length_nil, Nat.zero_add] at d3 d6
      have hids : ids.length = nodes.length := d3
      have hnodup : us.Nodup := d4 List.nodup_nil
      have h127 : ∀ i, i < us.length → strLen (uGet us i) ≤ 127 := by
        intro i hi
        rcases d5 (uGet us i) (uGet_mem hi) with hm | ⟨cn, hcn, bs, hb1, hb2⟩
        · simp at hm
        · rcases hg cn hcn with ⟨s, hs1, hs2⟩
          rw [hs1, Option.some.injEq] at hb1
          rw [hb2, ← hb1, utf8DecodeLossy_strBytes]
          exact hs2
      have inv1 := preFoldGo_inv us hnodup (sortedByStr us) _ _ (redInv_init us)
        (fun a ha => sortedByStr_mem ha) (sortedByStr_nodup us)
      refine ⟨?_, ?_, ?_⟩
      · rw [← hN]
        exact applyResolution_length nodes ids _ _ hids
      · intro j hj
        rw [← hN, applyResolution_at nodes ids _ _ hids hj, packed_update]
      · intro j hj
        rcases d6 j hj with ⟨bs, hb1, hb2, hb3⟩
        have hmem : nodeAt nodes j ∈ nodes := nodeAt_mem hj
        rcases hg _ hmem with ⟨s, hs1, hs2⟩
        have hbs : bs = strBytes s := by
          rw [hs1, Option.some.injEq] at hb1
          exact hb1.symm
        have huid : uGet us (ids.getD j 0) = s := by
          rw [hb3, hbs, utf8DecodeLossy_strBytes]
        have hbid : strBytes (uGet us (ids.getD j 0)) = bs := by
          rw [huid, hbs]
        rcases labelSliceAt_inv hs1 with ⟨hi1, hi2, hi3⟩
        have hlen : (nodeAt nodes j).label_len = strLen (uGet us (ids.getD j 0)) := by
          have : strLen (uGet us (ids.getD j 0)) =
              (strBytes (uGet us (ids.getD j 0))).length := rfl
          rw [this, hbid, hbs, hi3]
        rw [← hN, ← hL, applyResolution_at nodes ids _ _ hids hj]
        rw [finalResolution_getD hb2]
        rw [compress_node_slice ?inv2 h127 ?hsup hb2 (nodeAt nodes j) hlen]
        case inv2 =>
          exact sufFoldGo_inv us hnodup _ _ _ inv1
            (fun a ha => by
              have hm := sortedByRev_mem ha
              have hm2 := List.mem_filter.mp hm
              exact List.mem_range.mp hm2.1)
            (sortedByRev_nodup ((List.nodup_range _).filter _))
            (sortedByRev_chain _ _)
        case hsup =>
          intro r hr hact
          have hs := (superBufGo_spec us _ (List.range us.length) [] []).2.2.2 r
            (by simpa using hr) (by rw [range_getD hr]; exact hact)
          simp only [List.length_nil, Nat.zero_add, range_getD hr] at hs
          exact hs
        rw [hs1, huid]

theorem compress_labels_frame {labels : List Nat} {nodes : List CompactNode}
    {labels2 : List Nat} {nodes2 : List CompactNode}
    (h : compress_labels labels nodes = some (labels2, nodes2)) :
    nodes2.length = nodes.length ∧
    ∀ j, j < nodes.length → (nodeAt nodes2 j).packed = (nodeAt nodes j).packed := by
  rw [compress_labels] at h
  cases hd : dedupLabels labels nodes [] [] with
  | none => rw [hd] at h; exact Option.noConfusion h
  | some pr =>
    rcases pr with ⟨us, ids⟩
    rw [hd] at h
    dsimp only at h
    by_cases hu0 : us.length = 0
    · rw [if_pos hu0] at h
      exact Option.noConfusion h
    · rw [if_neg hu0] at h
      rw [Option.some.injEq, Prod.mk.injEq] at h
      rcases h with ⟨hL, hN⟩
      rcases dedupLabels_spec labels nodes [] [] us ids hd with ⟨d1, d2, d3, d4, d5, d6⟩
      simp only [List.length_nil, Nat.zero_add] at d3
      constructor
      · rw [← hN]
        exact applyResolution_length nodes ids _ _ d3
      · intro j hj
        rw [← hN, applyResolution_at nodes ids _ _ d3 hj, packed_update]

theorem eq_of_packed {m n : CompactNode} (h : m.packed = n.packed) :
    m.first_child = n.first_child ∧ m.label_len = n.label_len ∧
    m.is_terminal = n.is_terminal ∧ m.has_next_sibling = n.has_next_sibling := by
  rw [CompactNode.first_child, CompactNode.label_len, CompactNode.is_terminal,
    CompactNode.has_next_sibling, CompactNode.first_child, CompactNode.label_len,
    CompactNode.is_terminal, CompactNode.has_next_sibling, h]
  exact ⟨rfl, rfl, rfl, rfl⟩

theorem matches_transfer {N N2 : List CompactNode} {L L2 : List Nat}
    (hlen : N2.length = N.length)
    (hpacked : ∀ j, j < N.length → (nodeAt N2 j).packed = (nodeAt N j).packed)
    (hslice : ∀ j, j < N.length →
      labelSliceAt L2 (nodeAt N2 j) = labelSliceAt L (nodeAt N j)) :
    ∀ {i : Nat} {t : BNode}, Matches N L i t → Matches N2 L2 i t := by
  intro i t h
  induction h with
  | leafN i p cs lf hi hlab hterm hkids hfc =>
    refine Matches.leafN i p cs lf (by omega) ?_ ?_ hkids ?_
    · rw [hslice i hi, hlab]
    · rw [(eq_of_packed (hpacked i hi)).2.2.1, hterm]
    · rw [(eq_of_packed (hpacked i hi)).1, hfc]
  | nodeN i p cs lf s hi hlab hterm hne hfc hs hgt hblock hsib hkids ih =>
    refine Matches.nodeN i p cs lf s (by omega) ?_ ?_ hne ?_ hs hgt (by omega) ?_ ?_
    · rw [hslice i hi, hlab]
    · rw [(eq_of_packed (hpacked i hi)).2.2.1, hterm]
    · rw [(eq_of_packed (hpacked i hi)).1, hfc]
    · intro j hj
      have hsj : s + j < N.length := by omega
      rw [(eq_of_packed (hpacked (s + j) hsj)).2.2.2, hsib j hj]
    · intro j hj
      exact ih j hj

theorem build_spec {fuel : Nat} {root : BNode} {N : List CompactNode} {L : List Nat}
    (h : TrieBuilder.build fuel root = .ok (N, L))
    (hwf : WFB root) (hN : N.length ≤ COMPACT_NONE) :
    Matches N L 0 root ∧ 1 ≤ N.length := by
  rw [TrieBuilder.build] at h
  cases hf : buildFlatten fuel root with
  | panic k => rw [hf] at h; exact Exec.noConfusion h
  | fuelOut => rw [hf] at h; exact Exec.noConfusion h
  | ok pr =>
    rcases pr with ⟨nodes0, labels0⟩
    rw [hf] at h
    dsimp only at h
    cases hc : compress_labels labels0 nodes0 with
    | none => rw [hc] at h; exact Exec.noConfusion h
    | some pr2 =>
      rcases pr2 with ⟨labels2, nodes2⟩
      rw [hc] at h
      dsimp only at h
      rw [Exec.ok.injEq, Prod.mk.injEq] at h
      rcases h with ⟨hN2, hL2⟩
      subst hN2
      subst hL2
      have hlen0 : nodes2.length = nodes0.length := (compress_labels_frame hc).1
      rcases buildFlatten_spec hf hwf (by omega) with ⟨hm, hlen, hgood⟩
      have hg : ∀ cn ∈ nodes0, ∃ s : List Char,
          labelSliceAt labels0 cn = some (strBytes s) ∧ strLen s ≤ 127 := by
        intro cn hcn
        rcases List.mem_iff_getElem.mp hcn with ⟨j, hj, hje⟩
        have hj2 := hgood j hj
        rcases hj2.1 with ⟨s, hs1, hs2⟩
        refine ⟨s, ?_, hs2⟩
        rw [← hs1]
        have : nodeAt nodes0 j = cn := by
          rw [nodeAt, List.getD_eq_getElem _ _ hj, hje]
        rw [this]
      rcases compress_labels_spec hc hg with ⟨c1, c2, c3⟩
      refine ⟨matches_transfer c1 c2 c3 hm, by omega⟩

/-- C3: after `compress_labels` runs at the end of `build()`, every
compact node's slice `labels[label_start .. label_start + label_len]` of
the rewritten label buffer equals the exact label bytes the node had
before compression.  Stated for every flattener output (`buildFlatten`)
of a well-formed builder whose node count fits the 23-bit index space,
i.e. for everything `build()` can feed into `compress_labels`. -/
theorem claim_C3 {fuel : Nat} {root : BNode} {N0 N2 : List CompactNode}
    {L0 L2 : List Nat}
    (hf : buildFlatten fuel root = .ok (N0, L0)) (hwf : WFB root)
    (hbound : N0.length ≤ COMPACT_NONE)
    (hc : compress_labels L0 N0 = some (L2, N2)) :
    N2.length = N0.length ∧
    ∀ j, j < N0.length →
      labelSliceAt L2 (nodeAt N2 j) = labelSliceAt L0 (nodeAt N0 j) := by
  rcases buildFlatten_spec hf hwf hbound with ⟨hm, hlen, hgood⟩
  have hg : ∀ cn ∈ N0, ∃ s : List Char,
      labelSliceAt L0 cn = some (strBytes s) ∧ strLen s ≤ 127 := by
    intro cn hcn
    rcases List.mem_iff_getElem.mp hcn with ⟨j, hj, hje⟩
    rcases (hgood j hj).1 with ⟨s, hs1, hs2⟩
    refine ⟨s, ?_, hs2⟩
    rw [← hs1]
    have hn : nodeAt N0 j = cn := by
      rw [nodeAt, List.getD_eq_getElem _ _ hj, hje]
    rw [hn]
  rcases compress_labels_spec hc hg with ⟨c1, c2, c3⟩
  exact ⟨c1, c3⟩

theorem claim_C3_witness :
    buildFlatten 2 freshBuilder = .ok ([⟨0, 0x7FFFFF⟩], []) ∧
    WFB freshBuilder ∧
    ([⟨0, 0x7FFFFF⟩] : List CompactNode).length ≤ COMPACT_NONE ∧
    compress_labels [] [⟨0, 0x7FFFFF⟩] = some ([], [⟨0, 0x7FFFFF⟩]) ∧
    (([] : List CompactNode).length = 1 ∨
      (∀ j, j < ([⟨0, 0x7FFFFF⟩] : List CompactNode).length →
        labelSliceAt [] (nodeAt [⟨0, 0x7FFFFF⟩] j) =
          labelSliceAt [] (nodeAt [⟨0, 0x7FFFFF⟩] j))) := by
  have hwf : WFB freshBuilder :=
    WFB.mk [] [] false (by simp) (by simp) (by simp) (by simp)
  refine ⟨rfl, hwf, by decide, rfl, Or.inr ?_⟩
  exact (@claim_C3 2 freshBuilder [⟨0, 0x7FFFFF⟩] [⟨0, 0x7FFFFF⟩] [] []
    rfl hwf (by decide) rfl).2

/-- C9: a successful `compress_labels` changes only `label_start` (and
the label buffer): the node count is preserved and every node's `packed`
word — hence `first_child`, `label_len`, `is_terminal` and
`has_next_sibling` — is unchanged, for every input, with no
well-formedness assumptions. -/
theorem claim_C9 {labels labels2 : List Nat} {nodes nodes2 : List CompactNode}
    (h : compress_labels labels nodes = some (labels2, nodes2)) :
    nodes2.length = nodes.length ∧
    ∀ j, j < nodes.length →
      (nodeAt nodes2 j).packed = (nodeAt nodes j).packed ∧
      (nodeAt nodes2 j).first_child = (nodeAt nodes j).first_child ∧
      (nodeAt nodes2 j).label_len = (nodeAt nodes j).label_len ∧
      (nodeAt nodes2 j).is_terminal = (nodeAt nodes j).is_terminal ∧
      (nodeAt nodes2 j).has_next_sibling = (nodeAt nodes j).has_next_sibling := by
  rcases compress_labels_frame h with ⟨h1, h2⟩
  refine ⟨h1, ?_⟩
  intro j hj
  have hp := h2 j hj
  rcases eq_of_packed hp with ⟨e1, e2, e3, e4⟩
  exact ⟨hp, e1, e2, e3, e4⟩

theorem claim_C9_witness :
    compress_labels [5, 6] [⟨0, 0x40800000⟩] = some ([5], [⟨0, 0x40800000⟩]) ∧
    (([5, 6] : List Nat).length = 2 ∨
      (([⟨0, 0x40800000⟩] : List CompactNode).length =
          ([⟨0, 0x40800000⟩] : List CompactNode).length ∧
        ∀ j, j < ([⟨0, 0x40800000⟩] : List CompactNode).length →
          (nodeAt [⟨0, 0x40800000⟩] j).packed = (nodeAt [⟨0, 0x40800000⟩] j).packed ∧
          (nodeAt [⟨0, 0x40800000⟩] j).first_child =
            (nodeAt [⟨0, 0x40800000⟩] j).first_child ∧
          (nodeAt [⟨0, 0x40800000⟩] j).label_len =
            (nodeAt [⟨0, 0x40800000⟩] j).label_len ∧
          (nodeAt [⟨0, 0x40800000⟩] j).is_terminal =
            (nodeAt [⟨0, 0x40800000⟩] j).is_terminal ∧
          (nodeAt [⟨0, 0x40800000⟩] j).has_next_sibling =
            (nodeAt [⟨0, 0x40800000⟩] j).has_next_sibling)) := by
  refine ⟨?_, Or.inr ?_⟩
  · rfl
  · exact @claim_C9 [5, 6] [5] [⟨0, 0x40800000⟩] [⟨0, 0x40800000⟩] rfl

theorem matches_facts {N : List CompactNode} {L : List Nat} {i : Nat} {t : BNode}
    (h : Matches N L i t) :
    i < N.length ∧ labelSliceAt L (nodeAt N i) = some (strBytes t.pfx) ∧
    (nodeAt N i).is_terminal = t.is_leaf := by
  cases h with
  | leafN i p cs lf hi hlab hterm hkids hfc => exact ⟨hi, hlab, hterm⟩
  | nodeN i p cs lf s hi hlab hterm hne hfc hs hgt hblock hsib hkids =>
    exact ⟨hi, hlab, hterm⟩

theorem sortChildren_idx {cs : List (Char × BNode)} {x : BNode}
    (h : x ∈ sortChildren cs) :
    ∃ j, j < (sortChildren cs).length ∧ (sortChildren cs).getD j freshBuilder = x := by
  rcases List.mem_iff_getElem.mp h with ⟨j, hj, hje⟩
  exact ⟨j, hj, by rw [List.getD_eq_getElem _ _ hj, hje]⟩

theorem get?_nodeAt {nodes : List CompactNode} {i : Nat} (h : i < nodes.length) :
    nodes.get? i = some (nodeAt nodes i) := by
  rw [nodeAt, List.getD_eq_getElem _ _ h, List.get?_eq_getElem?,
    List.getElem?_eq_getElem h]

theorem scanSiblings_spec {N : List CompactNode} {L : List Nat} {s : Nat}
    {cs : List (Char × BNode)}
    (hblock : s + (sortChildren cs).length ≤ N.length)
    (hsib : ∀ j, j < (sortChildren cs).length →
      (nodeAt N (s + j)).has_next_sibling =
        decide (j + 1 < (sortChildren cs).length))
    (hlab : ∀ j, j < (sortChildren cs).length →
      labelSliceAt L (nodeAt N (s + j)) =
        some (strBytes ((sortChildren cs).getD j freshBuilder).pfx)) :
    ∀ (fuel : Nat) (j0 : Nat) (keyPart : List Nat),
      j0 < (sortChildren cs).length →
      (sortChildren cs).length - j0 ≤ fuel →
      (∃ j, j0 ≤ j ∧ j < (sortChildren cs).length ∧
        isPre (strBytes ((sortChildren cs).getD j freshBuilder).pfx) keyPart = true ∧
        scanSiblings N L keyPart fuel (s + j0) =
          .ok (some (s + j,
            (strBytes ((sortChildren cs).getD j freshBuilder).pfx).length))) ∨
      ((∀ j2, j0 ≤ j2 → j2 < (sortChildren cs).length →
          isPre (strBytes ((sortChildren cs).getD j2 freshBuilder).pfx) keyPart =
            false) ∧
        scanSiblings N L keyPart fuel (s + j0) = .ok none) := by
  intro fuel
  induction fuel with
  | zero =>
    intro j0 keyPart hj0 hf
    omega
  | succ fuel ih =>
    intro j0 keyPart hj0 hf
    rw [scanSiblings]
    rw [getLabel, get?_nodeAt (by omega)]
    dsimp only
    rw [hlab j0 hj0]
    dsimp only
    by_cases hp : isPre (strBytes ((sortChildren cs).getD j0 freshBuilder).pfx)
        keyPart = true
    · rw [if_pos hp]
      exact Or.inl ⟨j0, le_refl _, hj0, hp, rfl⟩
    · rw [if_neg hp]
      have hna : N.getD (s + j0) default = nodeAt N (s + j0) := rfl
      rw [hna, hsib j0 hj0]
      by_cases hnx : j0 + 1 < (sortChildren cs).length
      · rw [if_pos (by simpa using hnx)]
        have hadd : s + j0 + 1 = s + (j0 + 1) := by omega
        rw [hadd]
        rcases ih (j0 + 1) keyPart hnx (by omega) with
          ⟨j, hj1, hj2, hj3, hj4⟩ | ⟨hall, hres⟩
        · exact Or.inl ⟨j, by omega, hj2, hj3, hj4⟩
        · refine Or.inr ⟨?_, hres⟩
          intro j2 hge hlt
          by_cases he : j2 = j0
          · subst he
            exact Bool.not_eq_true _ ▸ (by simpa using hp)
          · exact hall j2 (by omega) hlt
      · rw [if_neg (by simpa using hnx)]
        refine Or.inr ⟨?_, rfl⟩
        intro j2 hge hlt
        have he : j2 = j0 := by omega
        subst he
        simpa using hp

theorem hasWord_nil {t : BNode} (h : t.is_leaf = true) : HasWord t [] := by
  cases t with
  | mk p cs lf =>
    have hlf : lf = true := h
    subst hlf
    exact HasWord.stop p cs

theorem hasWord_nil_leaf {t : BNode} (hwf : WFB t) (h : HasWord t []) :
    t.is_leaf = true := by
  cases t with
  | mk p cs lf =>
    rcases hasWord_inv.mp h with ⟨_, hlf⟩ | ⟨k, n, w', hmem, hw', hv⟩
    · exact hlf
    · exfalso
      rcases List.append_eq_nil.mp hv.symm with ⟨hp0, _⟩
      exact (wfb_inv hwf).2.1 (k, n) hmem hp0

theorem containsLoop_spec :
    ∀ (fuel : Nat) (N : List CompactNode) (L : List Nat) (i : Nat) (t : BNode)
      (key : List Nat) (cursor : Nat),
      Matches N L i t → WFB t →
      cursor ≤ key.length →
      key.length - cursor < fuel →
      ∃ b, containsLoop N L key fuel i cursor = .ok b ∧
        (b = true ↔ ∃ v : List Char, strBytes v = key.drop cursor ∧
          (HasWord t v ∨ (v = [] ∧ t.is_leaf = true))) := by
  intro fuel
  induction fuel with
  | zero =>
    intro N L i t key cursor hm hwf hc hf
    omega
  | succ fuel ih =>
    intro N L i t key cursor hm hwf hc hf
    rw [containsLoop]
    have hfacts := matches_facts hm
    rw [get?_nodeAt hfacts.1]
    dsimp only
    by_cases hcur : cursor < key.length
    · rw [if_pos hcur]
      have hRne : key.drop cursor ≠ [] := by
        intro he
        have := congrArg List.length he
        simp only [List.length_drop, List.length_nil] at this
        omega
      cases hm with
      | leafN i p cs lf hi hlab hterm hkids hfc =>
        rw [if_pos hfc]
        refine ⟨false, rfl, ?_⟩
        simp only [Bool.false_eq_true, false_iff]
        rintro ⟨v, hv, hw | ⟨hv0, hlf⟩⟩
        · have hcs : cs = [] := sortChildren_nil_iff.mp hkids
          subst hcs
          rcases hasWord_inv.mp hw with ⟨hv0, _⟩ | ⟨k, n, w', hmem, _, _⟩
          · subst hv0
            exact hRne hv.symm
          · simp at hmem
        · subst hv0
          exact hRne hv.symm
      | nodeN i p cs lf s hi hlab hterm hne hfc hs hgt hblock hsib hkids =>
        rw [hfc, if_neg hs]
        have hk0 : 0 < (sortChildren cs).length := List.length_pos.mpr hne
        have hlab2 : ∀ j, j < (sortChildren cs).length →
            labelSliceAt L (nodeAt N (s + j)) =
              some (strBytes ((sortChildren cs).getD j freshBuilder).pfx) :=
          fun j hj => (matches_facts (hkids j hj)).2.1
        rcases scanSiblings_spec hblock hsib hlab2 (N.length + 1) 0
            (key.drop cursor) hk0 (by omega) with
          ⟨j, _, hjk, hpre, hscan⟩ | ⟨hall, hscan⟩
        · have hscan2 : scanSiblings N L (key.drop cursor) (N.length + 1) s =
              .ok (some (s + j,
                (strBytes ((sortChildren cs).getD j freshBuilder).pfx).length)) := hscan
          rw [hscan2]
          dsimp only
          have hkid_mem : (sortChildren cs).getD j freshBuilder ∈ sortChildren cs := by
            rw [List.getD_eq_getElem _ _ hjk]
            exact List.getElem_mem _
          rcases sortChildren_mem.mp hkid_mem with ⟨kc, hkc⟩
          have hkid_wf : WFB ((sortChildren cs).getD j freshBuilder) :=
            (wfb_inv hwf).2.2.2 (kc, _) hkc
          have hkpfx_ne : ((sortChildren cs).getD j freshBuilder).pfx ≠ [] :=
            (wfb_inv hwf).2.1 (kc, _) hkc
          have hpre2 : strBytes ((sortChildren cs).getD j freshBuilder).pfx <+:
              key.drop cursor := isPre_iff.mp hpre
          have hbne : strBytes ((sortChildren cs).getD j freshBuilder).pfx ≠ [] := by
            intro he
            exact hkpfx_ne (strBytes_eq_nil.mp he)
          have hcons_pos :
              0 < (strBytes ((sortChildren cs).getD j freshBuilder).pfx).length :=
            List.length_pos.mpr hbne
          have hcons_le :
              (strBytes ((sortChildren cs).getD j freshBuilder).pfx).length ≤
              key.length - cursor := by
            have := hpre2.length_le
            rw [List.length_drop] at this
            exact this
          have hdrop : key.drop
              (cursor + (strBytes ((sortChildren cs).getD j freshBuilder).pfx).length) =
              (key.drop cursor).drop
                (strBytes ((sortChildren cs).getD j freshBuilder).pfx).length := by
            rw [List.drop_drop, Nat.add_comm]
          rcases ih N L (s + j) ((sortChildren cs).getD j freshBuilder) key
              (cursor + (strBytes ((sortChildren cs).getD j freshBuilder).pfx).length)
              (hkids j hjk) hkid_wf (by omega) (by omega) with ⟨b, hres, hiff⟩
          refine ⟨b, hres, ?_⟩
          constructor
          · intro hb
            rcases hiff.mp hb with ⟨v', hv', hcase⟩
            refine ⟨((sortChildren cs).getD j freshBuilder).pfx ++ v', ?_, ?_⟩
            · rw [strBytes_append, hv', hdrop]
              exact List.prefix_iff_eq_append.mp hpre2
            · left
              rcases hcase with hw | ⟨hv0, hlf⟩
              · exact HasWord.via p cs lf kc _ v' hkc hw
              · subst hv0
                exact HasWord.via p cs lf kc _ [] hkc (hasWord_nil hlf)
          · rintro ⟨v, hv, hw | ⟨hv0, hlf⟩⟩
            · have hvne : v ≠ [] := by
                intro he
                subst he
                exact hRne hv.symm
              rcases hasWord_head hwf hw hvne with ⟨kc2, n, w', hmem2, hw2, hveq, hhead⟩
              have hnpfx_ne : n.pfx ≠ [] := (wfb_inv hwf).2.1 (kc2, n) hmem2
              have hnbne : strBytes n.pfx ≠ [] := by
                intro he
                exact hnpfx_ne (strBytes_eq_nil.mp he)
              have hnpre : strBytes n.pfx <+: key.drop cursor := by
                rw [← hv, hveq, strBytes_append]
                exact List.prefix_append _ _
              have hheads :
                  ((sortChildren cs).getD j freshBuilder).pfx.head? = n.pfx.head? := by
                rcases List.prefix_or_prefix_of_prefix hpre2 hnpre with hab | hab
                · exact heads_eq_of_strBytes_pre hkpfx_ne hnpfx_ne hab
                · exact (heads_eq_of_strBytes_pre hnpfx_ne hkpfx_ne hab).symm
              have hk1 := (wfb_inv hwf).2.2.1 (kc, _) hkc
              have hk2 := (wfb_inv hwf).2.2.1 (kc2, n) hmem2
              have hkk : kc = kc2 := by
                rw [hk1, hk2] at hheads
                exact Option.some.injEq _ _ ▸ hheads
              subst hkk
              have hn_eq : (sortChildren cs).getD j freshBuilder = n :=
                mem_key_unique (wfb_inv hwf).1 hkc hmem2
              apply hiff.mpr
              refine ⟨w', ?_, Or.inl (hn_eq ▸ hw2)⟩
              rw [hdrop, ← hv, hveq, strBytes_append, hn_eq, List.drop_left]
            · subst hv0
              exact absurd hv.symm hRne
        · have hscan2 : scanSiblings N L (key.drop cursor) (N.length + 1) s =
              .ok none := hscan
          rw [hscan2]
          refine ⟨false, rfl, ?_⟩
          simp only [Bool.false_eq_true, false_iff]
          rintro ⟨v, hv, hw | ⟨hv0, hlf⟩⟩
          · have hvne : v ≠ [] := by
              intro he
              subst he
              exact hRne hv.symm
            rcases hasWord_head hwf hw hvne with ⟨kc2, n, w', hmem2, hw2, hveq, hhead⟩
            have hnmem : n ∈ sortChildren cs := sortChildren_mem.mpr ⟨kc2, hmem2⟩
            rcases sortChildren_idx hnmem with ⟨jn, hjn, hjne⟩
            have hnpre : strBytes n.pfx <+: key.drop cursor := by
              rw [← hv, hveq, strBytes_append]
              exact List.prefix_append _ _
            have := hall jn (by omega) hjn
            rw [hjne] at this
            rw [isPre_iff.mpr hnpre] at this
            exact Bool.noConfusion this
          · subst hv0
            exact absurd hv.symm hRne
    · rw [if_neg hcur]
      refine ⟨(nodeAt N i).is_terminal, rfl, ?_⟩
      rw [hfacts.2.2]
      have hdrop0 : key.drop cursor = [] := List.drop_eq_nil_of_le (by omega)
      constructor
      · intro hlf
        exact ⟨[], by rw [hdrop0]; rfl, Or.inr ⟨rfl, hlf⟩⟩
      · rintro ⟨v, hv, hw | ⟨hv0, hlf⟩⟩
        · have hv0 : v = [] := by
            apply strBytes_eq_nil.mp
            rw [hv, hdrop0]
          subst hv0
          exact hasWord_nil_leaf hwf hw
        · exact hlf

/-- C1 (corrected): on a trie built from the inserted words, `contains`
decides exactly membership among the *non-empty* inserted words: it
returns true for every inserted non-empty word and false for every
other string — in particular for proper prefixes of inserted words that
were not themselves inserted, and for the empty key.  The original
claim fails only in that an inserted empty string is not contained:
`insert("")` is a no-op (see `claim_C1_counter`). -/
theorem claim_C1 {ws : List (List Char)} {root : BNode} {fuel : Nat}
    {N : List CompactNode} {L : List Nat}
    (hins : insertAll ws = .ok root)
    (hbuild : TrieBuilder.build fuel root = .ok (N, L))
    (hN : N.length ≤ COMPACT_NONE) (x : List Char) :
    CompactRadixTrie.contains N L x = .ok (decide (x ∈ ws ∧ x ≠ [])) := by
  rcases insertAll_spec hins with ⟨hwf, hpfx, hleaf, hword⟩
  rcases build_spec hbuild hwf hN with ⟨hm, hlen⟩
  rw [CompactRadixTrie.contains]
  rcases containsLoop_spec ((strBytes x).length + 1) N L 0 root (strBytes x) 0 hm hwf
    (by omega) (by omega) with ⟨b, hres, hiff⟩
  rw [List.drop_zero] at hiff
  rw [hres]
  congr 1
  by_cases hP : x ∈ ws ∧ x ≠ []
  · rw [decide_eq_true hP]
    exact hiff.mpr ⟨x, rfl, Or.inl ((hword x).mpr hP)⟩
  · rw [decide_eq_false hP]
    by_contra hb
    have hb2 : b = true := by
      cases b
      · exact absurd rfl hb
      · rfl
    rcases hiff.mp hb2 with ⟨v, hv, hcase⟩
    have hvx : v = x := strBytes_inj hv
    subst hvx
    rcases hcase with hw | ⟨hv0, hlf⟩
    · exact hP ((hword v).mp hw)
    · rw [hleaf] at hlf
      exact Bool.noConfusion hlf

theorem claim_C1_counter :
    insertAll [[]] = .ok freshBuilder ∧
    TrieBuilder.build 2 freshBuilder = .ok ([⟨0, 0x7FFFFF⟩], []) ∧
    CompactRadixTrie.contains [⟨0, 0x7FFFFF⟩] [] [] = .ok false :=
  ⟨rfl, rfl, rfl⟩

theorem claim_C1_witness :
    insertAll [['a']] = .ok ⟨[], [('a', ⟨['a'], [], true⟩)], false⟩ ∧
    TrieBuilder.build 5 ⟨[], [('a', ⟨['a'], [], true⟩)], false⟩ =
      .ok ([⟨0, 1⟩, ⟨0, 0x40FFFFFF⟩], [97]) ∧
    ([⟨0, 1⟩, ⟨0, 0x40FFFFFF⟩] : List CompactNode).length ≤ COMPACT_NONE ∧
    CompactRadixTrie.contains [⟨0, 1⟩, ⟨0, 0x40FFFFFF⟩] [97] ['a'] =
      .ok (decide (['a'] ∈ [['a']] ∧ ['a'] ≠ [])) ∧
    CompactRadixTrie.contains [⟨0, 1⟩, ⟨0, 0x40FFFFFF⟩] [97] [] =
      .ok (decide (([] : List Char) ∈ [['a']] ∧ ([] : List Char) ≠ [])) := by
  refine ⟨rfl, rfl, by decide, ?_, ?_⟩
  · exact @claim_C1 [['a']] ⟨[], [('a', ⟨['a'], [], true⟩)], false⟩ 5
      [⟨0, 1⟩, ⟨0, 0x40FFFFFF⟩] [97] rfl rfl (by decide) ['a']
  · exact @claim_C1 [['a']] ⟨[], [('a', ⟨['a'], [], true⟩)], false⟩ 5
      [⟨0, 1⟩, ⟨0, 0x40FFFFFF⟩] [97] rfl rfl (by decide) []

theorem asciiB_inv {p : List Char} {cs : List (Char × BNode)} {lf : Bool}
    (h : AsciiB ⟨p, cs, lf⟩) : allAscii p ∧ ∀ kn ∈ cs, AsciiB kn.2 := by
  cases h with
  | mk _ _ _ hp hrec => exact ⟨hp, hrec⟩

theorem allAscii_take {s : List Char} (h : allAscii s) (n : Nat) :
    allAscii (s.take n) :=
  fun c hc => h c (List.mem_of_mem_take hc)

theorem allAscii_drop {s : List Char} (h : allAscii s) (n : Nat) :
    allAscii (s.drop n) :=
  fun c hc => h c (List.mem_of_mem_drop hc)

theorem alInsert_mem_weak {l : List (Char × BNode)} {k : Char} {v : BNode} :
    ∀ {kn : Char × BNode}, kn ∈ alInsert l k v → kn.2 = v ∨ kn ∈ l := by
  induction l with
  | nil =>
    intro kn h
    rw [alInsert, List.mem_singleton] at h
    subst h
    exact Or.inl rfl
  | cons hd tl ih =>
    intro kn h
    rcases hd with ⟨k2, w⟩
    rw [alInsert] at h
    by_cases he : k2 = k
    · rw [if_pos he, List.mem_cons] at h
      rcases h with h | h
      · subst h
        exact Or.inl rfl
      · exact Or.inr (List.mem_cons_of_mem _ h)
    · rw [if_neg he, List.mem_cons] at h
      rcases h with h | h
      · exact Or.inr (h ▸ List.mem_cons_self _ _)
      · rcases ih h with h2 | h2
        · exact Or.inl h2
        · exact Or.inr (List.mem_cons_of_mem _ h2)

theorem insertGo_ascii :
    ∀ (fuel : Nat) (t : BNode) (w : List Char), WFB t → AsciiB t → allAscii w →
      w.length < fuel →
      ∃ t2, insertGo fuel t w = .ok t2 ∧ AsciiB t2 := by
  intro fuel
  induction fuel with
  | zero =>
    intro t w _ _ _ hf
    omega
  | succ fuel ih =>
    intro t w hwf hasc hw hf
    rcases t with ⟨p, cs, lf⟩
    rcases asciiB_inv hasc with ⟨hp, hrec⟩
    cases w with
    | nil =>
      refine ⟨⟨p, cs, lf⟩, ?_, hasc⟩
      simp only [insertGo]
    | cons fc wtl =>
      simp only [insertGo, BNode.children, BNode.pfx, BNode.is_leaf]
      cases hlk : alLookup cs fc with
      | none =>
        refine ⟨_, rfl, ?_⟩
        refine AsciiB.mk p _ lf hp ?_
        intro kn hkn
        rcases alInsert_mem_weak hkn with h2 | h2
        · rw [h2]
          exact AsciiB.mk _ [] true hw (by simp)
        · exact hrec kn h2
      | some child =>
        have hcm : (fc, child) ∈ cs := alLookup_mem hlk
        have hchild_asc : AsciiB child := hrec (fc, child) hcm
        have hchild_wf : WFB child := (wfb_inv hwf).2.2.2 (fc, child) hcm
        have hchild_ne : child.pfx ≠ [] := (wfb_inv hwf).2.1 (fc, child) hcm
        rcases child with ⟨cp, ccs, clf⟩
        dsimp only
        rcases asciiB_inv hchild_asc with ⟨hcp_asc, hccs_asc⟩
        have hchild_ne2 : cp ≠ [] := hchild_ne
        have hsl : strLen cp = cp.length := strLen_ascii hcp_asc
        have hslw : strLen (fc :: wtl) = (fc :: wtl).length := strLen_ascii hw
        have hcl_le_c : commonPreLen (strBytes cp) (strBytes (fc :: wtl)) ≤
            cp.length := by
          have h1 := commonPreLen_le_left (strBytes cp) (strBytes (fc :: wtl))
          have hb : (strBytes cp).length = strLen cp := rfl
          omega
        have hcl_le_w : commonPreLen (strBytes cp) (strBytes (fc :: wtl)) ≤
            (fc :: wtl).length := by
          have h1 := commonPreLen_le_right (strBytes cp) (strBytes (fc :: wtl))
          have hb : (strBytes (fc :: wtl)).length = strLen (fc :: wtl) := rfl
          omega
        by_cases hcl : commonPreLen (strBytes cp) (strBytes (fc :: wtl)) = strLen cp
        · rw [if_pos hcl]
          rw [splitAtByte_ascii hw hcl_le_w]
          dsimp only
          by_cases hrest : ((fc :: wtl).drop
              (commonPreLen (strBytes cp) (strBytes (fc :: wtl)))).isEmpty
          · rw [if_pos hrest]
            refine ⟨_, rfl, ?_⟩
            refine AsciiB.mk p _ lf hp ?_
            intro kn hkn
            rcases alInsert_mem_weak hkn with h2 | h2
            · rw [h2]
              exact AsciiB.mk cp ccs true hcp_asc hccs_asc
            · exact hrec kn h2
          · rw [if_neg hrest]
            have hclpos : 0 < commonPreLen (strBytes cp) (strBytes (fc :: wtl)) := by
              rw [hcl, hsl]
              exact List.length_pos.mpr hchild_ne2
            have hrl : ((fc :: wtl).drop (commonPreLen (strBytes cp)
                (strBytes (fc :: wtl)))).length < fuel := by
              rw [List.length_drop, List.length_cons]
              rw [List.length_cons] at hf
              omega
            rcases ih ⟨cp, ccs, clf⟩ ((fc :: wtl).drop (commonPreLen (strBytes cp)
                (strBytes (fc :: wtl)))) hchild_wf hchild_asc
                (allAscii_drop hw _) hrl with ⟨child2, hres, hasc2⟩
            rw [hres]
            dsimp only
            refine ⟨_, rfl, ?_⟩
            refine AsciiB.mk p _ lf hp ?_
            intro kn hkn
            rcases alInsert_mem_weak hkn with h2 | h2
            · rw [h2]
              exact hasc2
            · exact hrec kn h2
        · rw [if_neg hcl]
          rw [splitAtByte_ascii hcp_asc hcl_le_c]
          dsimp only
          rw [splitAtByte_ascii hw hcl_le_w]
          dsimp only
          have hcs_ne : cp.drop (commonPreLen (strBytes cp)
              (strBytes (fc :: wtl))) ≠ [] := by
            intro he
            have h2 := congrArg List.length he
            rw [List.length_drop, List.length_nil] at h2
            omega
          cases hcsfx : cp.drop (commonPreLen (strBytes cp) (strBytes (fc :: wtl))) with
          | nil => exact absurd hcsfx hcs_ne
          | cons sk stail =>
            dsimp only
            have hsplit_asc : AsciiB ⟨sk :: stail, ccs, clf⟩ := by
              refine AsciiB.mk _ _ _ ?_ hccs_asc
              rw [← hcsfx]
              exact allAscii_drop hcp_asc _
            cases hisfx : (fc :: wtl).drop (commonPreLen (strBytes cp)
                (strBytes (fc :: wtl))) with
            | nil =>
              refine ⟨_, rfl, ?_⟩
              refine AsciiB.mk p _ lf hp ?_
              intro kn hkn
              rcases alInsert_mem_weak hkn with h2 | h2
              · rw [h2]
                refine AsciiB.mk _ _ _ (allAscii_take hcp_asc _) ?_
                intro kn2 hkn2
                rw [List.mem_singleton] at hkn2
                rw [hkn2]
                exact hsplit_asc
              · exact hrec kn h2
            | cons ik itail =>
              refine ⟨_, rfl, ?_⟩
              refine AsciiB.mk p _ lf hp ?_
              intro kn hkn
              rcases alInsert_mem_weak hkn with h2 | h2
              · rw [h2]
                refine AsciiB.mk _ _ _ (allAscii_take hcp_asc _) ?_
                intro kn2 hkn2
                rcases alInsert_mem_weak hkn2 with h3 | h3
                · rw [h3]
                  refine AsciiB.mk _ [] true ?_ (by simp)
                  rw [← hisfx]
                  exact allAscii_drop hw _
                · rw [List.mem_singleton] at h3
                  rw [h3]
                  exact hsplit_asc
              · exact hrec kn h2

/-- C5 (corrected): `insert` does *not* accept every non-empty word —
when the byte LCP of the new word and an existing edge label ends inside
a multi-byte character the `&str` slicing panics (`claim_C5_counter`
hits this with "aé"/"aè").  Amended safety: on builder states reachable
by 7-bit insertions (well-formed with all labels 7-bit), inserting any
7-bit word always completes normally, preserving both invariants. -/
theorem claim_C5 {t : BNode} (hwf : WFB t) (hasc : AsciiB t) (w : List Char)
    (hw : allAscii w) :
    ∃ t2, TrieBuilder.insert t w = .ok t2 ∧ WFB t2 ∧ AsciiB t2 := by
  rcases insertGo_ascii (w.length + 1) t w hwf hasc hw (by omega) with
    ⟨t2, hres, hasc2⟩
  have hok : TrieBuilder.insert t w = .ok t2 := by
    rw [TrieBuilder.insert]
    exact hres
  have hwf2 := (insertGo_spec (w.length + 1) t w t2 hwf hres).1
  exact ⟨t2, hok, hwf2, hasc2⟩

theorem claim_C5_witness :
    allAscii ['a', 'b'] ∧
    ∃ t2, TrieBuilder.insert freshBuilder ['a', 'b'] = .ok t2 ∧
      WFB t2 ∧ AsciiB t2 := by
  have hab : allAscii ['a', 'b'] := by
    unfold allAscii
    decide
  refine ⟨hab, claim_C5 ?_ ?_ ['a', 'b'] hab⟩
  · exact WFB.mk [] [] false (by simp) (by simp) (by simp) (by simp)
  · exact AsciiB.mk [] [] false (by unfold allAscii; decide) (by simp)

theorem le4get_le4 {n : Nat} (h : n < 2 ^ 32) (rest : List Nat) :
    le4get (le4 n ++ rest) 0 = n := by
  simp only [le4, le4get, List.cons_append, List.nil_append, List.getD_cons_zero,
    List.getD_cons_succ]
  omega

theorem le4get_drop (l : List Nat) (i : Nat) :
    le4get (l.drop i) 0 = le4get l i := by
  simp only [le4get, List.getD_eq_getElem?_getD, List.getElem?_drop]
  rfl

theorem nodeBytes_length (n : CompactNode) : (nodeBytes n).length = 8 := rfl

theorem flatten_nodeBytes_length (nodes : List CompactNode) :
    ((nodes.map nodeBytes).flatten).length = nodes.length * 8 := by
  induction nodes with
  | nil => rfl
  | cons nd tl ih =>
    simp only [List.map_cons, List.flatten_cons, List.length_append, ih,
      nodeBytes_length, List.length_cons]
    omega

theorem decodeNodes_map :
    ∀ (nodes : List CompactNode) (rest : List Nat),
      (∀ n ∈ nodes, n.label_start < 2 ^ 32 ∧ n.packed < 2 ^ 32) →
      decodeNodes nodes.length ((nodes.map nodeBytes).flatten ++ rest) = nodes := by
  intro nodes
  induction nodes with
  | nil => intro rest _; rfl
  | cons nd tl ih =>
    intro rest hb
    rcases hb nd (List.mem_cons_self _ _) with ⟨h1, h2⟩
    simp only [List.map_cons, List.flatten_cons, List.length_cons]
    rw [decodeNodes]
    have hsplit : nodeBytes nd ++ (tl.map nodeBytes).flatten ++ rest =
        le4 nd.label_start ++ (le4 nd.packed ++ ((tl.map nodeBytes).flatten ++ rest)) := by
      rw [nodeBytes]
      simp [List.append_assoc]
    rw [hsplit]
    rw [le4get_le4 h1]
    have hd4 : (le4 nd.label_start ++ (le4 nd.packed ++
        ((tl.map nodeBytes).flatten ++ rest))).drop 4 =
        le4 nd.packed ++ ((tl.map nodeBytes).flatten ++ rest) := by
      have : (4 : Nat) = (le4 nd.label_start).length := by simp [le4]
      rw [this, List.drop_left]
    rw [← le4get_drop _ 4, hd4, le4get_le4 h2]
    have hd8 : (le4 nd.label_start ++ (le4 nd.packed ++
        ((tl.map nodeBytes).flatten ++ rest))).drop 8 =
        (tl.map nodeBytes).flatten ++ rest := by
      rw [← List.append_assoc]
      have : (8 : Nat) = (le4 nd.label_start ++ le4 nd.packed).length := by simp [le4]
      rw [this, List.drop_left]
    rw [hd8, ih rest (fun n hn => hb n (List.mem_cons_of_mem _ hn))]

theorem from_to_bytes {nodes : List CompactNode} {labels : List Nat}
    (hN : nodes.length < 2 ^ 32) (hL : labels.length < 2 ^ 32)
    (hf : ∀ n ∈ nodes, n.label_start < 2 ^ 32 ∧ n.packed < 2 ^ 32) :
    CompactRadixTrie.from_bytes (CompactRadixTrie.to_bytes nodes labels) =
      some (nodes, labels) := by
  rw [CompactRadixTrie.to_bytes, CompactRadixTrie.from_bytes]
  have hlen : (le4 nodes.length ++ (nodes.map nodeBytes).flatten ++
      le4 labels.length ++ labels).length =
      4 + nodes.length * 8 + 4 + labels.length := by
    simp only [List.length_append, flatten_nodeBytes_length]
    simp [le4]
  have hcount : le4get (le4 nodes.length ++ (nodes.map nodeBytes).flatten ++
      le4 labels.length ++ labels) 0 = nodes.length := by
    rw [List.append_assoc, List.append_assoc]
    exact le4get_le4 hN _
  rw [if_neg (by omega)]
  rw [hcount]
  rw [if_neg (by omega), if_neg (by omega)]
  have hdrop4 : (le4 nodes.length ++ (nodes.map nodeBytes).flatten ++
      le4 labels.length ++ labels).drop 4 =
      (nodes.map nodeBytes).flatten ++ (le4 labels.length ++ labels) := by
    rw [List.append_assoc, List.append_assoc]
    have : (4 : Nat) = (le4 nodes.length).length := by simp [le4]
    rw [this, List.drop_left]
  have hdropNE : (le4 nodes.length ++ (nodes.map nodeBytes).flatten ++
      le4 labels.length ++ labels).drop (4 + nodes.length * 8) =
      le4 labels.length ++ labels := by
    rw [List.append_assoc]
    have : (4 + nodes.length * 8 : Nat) =
        (le4 nodes.length ++ (nodes.map nodeBytes).flatten).length := by
      simp only [List.length_append, flatten_nodeBytes_length]
      simp [le4]
    rw [this, List.drop_left]
  have hlc : le4get (le4 nodes.length ++ (nodes.map nodeBytes).flatten ++
      le4 labels.length ++ labels) (4 + nodes.length * 8) = labels.length := by
    rw [← le4get_drop _ (4 + nodes.length * 8), hdropNE]
    exact le4get_le4 hL _
  rw [hlc]
  rw [if_neg (by omega)]
  have hdropNE4 : (le4 nodes.length ++ (nodes.map nodeBytes).flatten ++
      le4 labels.length ++ labels).drop (4 + nodes.length * 8 + 4) = labels := by
    have h2 : (4 + nodes.length * 8 + 4 : Nat) =
        (le4 nodes.length ++ (nodes.map nodeBytes).flatten ++
          le4 labels.length).length := by
      simp only [List.length_append, flatten_nodeBytes_length]
      simp [le4]
    rw [h2, List.drop_left]
  rw [hdrop4, hdropNE4]
  have htake : ((nodes.map nodeBytes).flatten ++
      (le4 labels.length ++ labels)).take (nodes.length * 8) =
      (nodes.map nodeBytes).flatten := by
    have : nodes.length * 8 = ((nodes.map nodeBytes).flatten).length :=
      (flatten_nodeBytes_length nodes).symm
    rw [this, List.take_left]
  rw [htake]
  have hdecode : decodeNodes nodes.length ((nodes.map nodeBytes).flatten) = nodes := by
    have := decodeNodes_map nodes [] hf
    rwa [List.append_nil] at this
  rw [hdecode, List.take_length]

/-- C4: the serialization round trip is exact: for every trie view whose
counts and node fields fit in `u32` (true of every view a `TrieBuilder`
can produce: node count below `2^23`, both fields stored as `u32`),
`from_bytes (to_bytes ..)` returns the identical node and label arrays,
hence `contains` and `suggest` outputs are preserved for every key,
every prefix and every `k`. -/
theorem claim_C4 {nodes : List CompactNode} {labels : List Nat}
    (hN : nodes.length < 2 ^ 32) (hL : labels.length < 2 ^ 32)
    (hf : ∀ n ∈ nodes, n.label_start < 2 ^ 32 ∧ n.packed < 2 ^ 32) :
    ∃ N2 L2,
      CompactRadixTrie.from_bytes (CompactRadixTrie.to_bytes nodes labels) =
        some (N2, L2) ∧
      (∀ key, CompactRadixTrie.contains N2 L2 key =
        CompactRadixTrie.contains nodes labels key) ∧
      (∀ p k, CompactRadixTrie.suggest N2 L2 p k =
        CompactRadixTrie.suggest nodes labels p k) :=
  ⟨nodes, labels, from_to_bytes hN hL hf, fun _ => rfl, fun _ _ => rfl⟩

theorem claim_C4_witness :
    ([⟨0, 1⟩, ⟨0, 0x40FFFFFF⟩] : List CompactNode).length < 2 ^ 32 ∧
    ([97] : List Nat).length < 2 ^ 32 ∧
    (∀ n ∈ ([⟨0, 1⟩, ⟨0, 0x40FFFFFF⟩] : List CompactNode),
      n.label_start < 2 ^ 32 ∧ n.packed < 2 ^ 32) ∧
    ∃ N2 L2,
      CompactRadixTrie.from_bytes
          (CompactRadixTrie.to_bytes [⟨0, 1⟩, ⟨0, 0x40FFFFFF⟩] [97]) =
        some (N2, L2) ∧
      (∀ key, CompactRadixTrie.contains N2 L2 key =
        CompactRadixTrie.contains [⟨0, 1⟩, ⟨0, 0x40FFFFFF⟩] [97] key) ∧
      (∀ p k, CompactRadixTrie.suggest N2 L2 p k =
        CompactRadixTrie.suggest [⟨0, 1⟩, ⟨0, 0x40FFFFFF⟩] [97] p k) := by
  refine ⟨by decide, by decide, by decide, ?_⟩
  exact claim_C4 (by decide) (by decide) (by decide)

theorem insertFold_ascii :
    ∀ (ws : List (List Char)) (t root : BNode), WFB t → AsciiB t →
      (∀ w ∈ ws, allAscii w) →
      ws.foldl (fun acc w => match acc with
        | Exec.ok t => TrieBuilder.insert t w
        | e => e) (Exec.ok t) = Exec.ok root →
      AsciiB root ∧ WFB root := by
  intro ws
  induction ws with
  | nil =>
    intro t root hwf hasc _ h
    rw [List.foldl_nil, Exec.ok.injEq] at h
    subst h
    exact ⟨hasc, hwf⟩
  | cons w rest ih =>
    intro t root hwf hasc hall h
    rcases insertGo_ascii (w.length + 1) t w hwf hasc
        (hall w (List.mem_cons_self _ _)) (by omega) with ⟨t2, hres, hasc2⟩
    have hwf2 : WFB t2 := (insertGo_spec (w.length + 1) t w t2 hwf hres).1
    rw [List.foldl_cons] at h
    have hstep : (match (Exec.ok t : Exec BNode) with
        | .ok t => TrieBuilder.insert t w
        | e => e) = .ok t2 := by
      dsimp only
      rw [TrieBuilder.insert]
      exact hres
    rw [hstep] at h
    exact ih t2 root hwf2 hasc2 (fun w2 hw2 => hall w2 (List.mem_cons_of_mem _ hw2)) h

theorem treeWords_empty :
    ∀ (fuel : Nat) (t : BNode), WFB t → (∀ v, ¬ HasWord t v) →
      treeWords fuel t = [] := by
  intro fuel
  induction fuel with
  | zero => intro t _ _; rfl
  | succ fuel ih =>
    intro t hwf hno
    rcases t with ⟨p, cs, lf⟩
    rw [treeWords]
    have hlf : lf = false := by
      cases hl : lf
      · rfl
      · exact absurd (HasWord.stop p cs) (hl ▸ hno [])
    rw [hlf]
    simp only [BNode.is_leaf, if_neg (Bool.false_ne_true), List.nil_append]
    rw [List.flatten_eq_nil_iff]
    intro l hl
    rcases List.mem_map.mp hl with ⟨c, hc, hce⟩
    rcases sortChildren_mem.mp hc with ⟨kc, hkc⟩
    have hcno : ∀ w, ¬ HasWord c w := by
      intro w hw
      exact hno (c.pfx ++ w) (HasWord.via p cs lf kc c w hkc hw)
    have hcwf : WFB c := (wfb_inv hwf).2.2.2 (kc, c) hkc
    rw [← hce, ih c hcwf hcno, List.map_nil]

theorem treeWords_stable :
    ∀ (fuel1 fuel2 : Nat) (t : BNode), WFB t →
      (∀ v, HasWord t v → v.length < fuel1) →
      (∀ v, HasWord t v → v.length < fuel2) →
      treeWords fuel1 t = treeWords fuel2 t := by
  intro fuel1
  induction fuel1 with
  | zero =>
    intro fuel2 t hwf h1 _
    have hno : ∀ v, ¬ HasWord t v := fun v hv => by
      have := h1 v hv
      omega
    rw [treeWords_empty 0 t hwf hno, treeWords_empty fuel2 t hwf hno]
  | succ fuel1 ih =>
    intro fuel2 t hwf h1 h2
    cases fuel2 with
    | zero =>
      have hno : ∀ v, ¬ HasWord t v := fun v hv => by
        have := h2 v hv
        omega
      rw [treeWords_empty (fuel1 + 1) t hwf hno, treeWords_empty 0 t hwf hno]
    | succ fuel2 =>
      rcases t with ⟨p, cs, lf⟩
      rw [treeWords, treeWords]
      congr 1
      congr 1
      refine List.map_congr_left ?_
      intro c hc
      rcases sortChildren_mem.mp hc with ⟨kc, hkc⟩
      have hcwf : WFB c := (wfb_inv hwf).2.2.2 (kc, c) hkc
      have hcne : c.pfx ≠ [] := (wfb_inv hwf).2.1 (kc, c) hkc
      have hc1 : ∀ w, HasWord c w → w.length < fuel1 := by
        intro w hw
        have := h1 (c.pfx ++ w) (HasWord.via p cs lf kc c w hkc hw)
        rw [List.length_append] at this
        have hpl : 0 < c.pfx.length := List.length_pos.mpr hcne
        omega
      have hc2 : ∀ w, HasWord c w → w.length < fuel2 := by
        intro w hw
        have := h2 (c.pfx ++ w) (HasWord.via p cs lf kc c w hkc hw)
        rw [List.length_append] at this
        have hpl : 0 < c.pfx.length := List.length_pos.mpr hcne
        omega
      rw [ih fuel2 c hcwf hc1 hc2]

theorem treeWords_sound :
    ∀ (fuel : Nat) (t : BNode) (v : List Char), WFB t →
      v ∈ treeWords fuel t → (v = [] ∧ t.is_leaf = true) ∨ HasWord t v := by
  intro fuel
  induction fuel with
  | zero =>
    intro t v _ h
    simp [treeWords] at h
  | succ fuel ih =>
    intro t v hwf h
    rcases t with ⟨p, cs, lf⟩
    rw [treeWords, List.mem_append] at h
    rcases h with h | h
    · cases hl : lf
      · rw [hl] at h
        simp only [BNode.is_leaf, Bool.false_eq_true, if_neg (Bool.false_ne_true)] at h
        simp at h
      · rw [hl] at h
        simp at h
        exact Or.inl ⟨h.2, rfl⟩
    · rcases List.mem_flatten.mp h with ⟨l, hl, hv⟩
      rcases List.mem_map.mp hl with ⟨c, hc, hce⟩
      rw [← hce] at hv
      rcases List.mem_map.mp hv with ⟨w, hw, hwe⟩
      rcases sortChildren_mem.mp hc with ⟨kc, hkc⟩
      have hcwf : WFB c := (wfb_inv hwf).2.2.2 (kc, c) hkc
      rcases ih c w hcwf hw with ⟨hw0, hcl⟩ | hcw
      · subst hw0
        subst hwe
        exact Or.inr (HasWord.via p cs lf kc c [] hkc (hasWord_nil hcl))
      · subst hwe
        exact Or.inr (HasWord.via p cs lf kc c w hkc hcw)

theorem treeWords_complete :
    ∀ (fuel : Nat) (t : BNode) (v : List Char), WFB t →
      (v = [] ∧ t.is_leaf = true) ∨ HasWord t v → v.length < fuel →
      v ∈ treeWords fuel t := by
  intro fuel
  induction fuel with
  | zero =>
    intro t v _ _ hl
    omega
  | succ fuel ih =>
    intro t v hwf h hl
    rcases t with ⟨p, cs, lf⟩
    rw [treeWords, List.mem_append]
    rcases h with ⟨hv0, hlf⟩ | hw
    · subst hv0
      left
      have hlf2 : lf = true := hlf
      rw [hlf2]
      simp [BNode.is_leaf]
    · rcases hasWord_inv.mp hw with ⟨hv0, hlf⟩ | ⟨kc, c, w, hkc, hcw, hve⟩
      · subst hv0
        left
        rw [hlf]
        simp [BNode.is_leaf]
      · right
        subst hve
        have hcwf : WFB c := (wfb_inv hwf).2.2.2 (kc, c) hkc
        have hcne : c.pfx ≠ [] := (wfb_inv hwf).2.1 (kc, c) hkc
        have hcmem : c ∈ sortChildren cs := sortChildren_mem.mpr ⟨kc, hkc⟩
        refine List.mem_flatten.mpr ⟨(treeWords fuel c).map (fun w2 => c.pfx ++ w2),
          List.mem_map.mpr ⟨c, hcmem, rfl⟩, ?_⟩
        refine List.mem_map.mpr ⟨w, ?_, rfl⟩
        refine ih c w hcwf (Or.inr hcw) ?_
        rw [List.length_append] at hl
        have h0 : 0 < c.pfx.length := List.length_pos.mpr hcne
        omega

theorem lexLt_nil_cons (x : Nat) (y : List Nat) : lexLt [] (x :: y) = true := rfl

theorem lexLt_head {b1 b2 : Nat} (x y : List Nat) (h : b1 < b2) :
    lexLt (b1 :: x) (b2 :: y) = true := by
  rw [lexLt, if_pos h]

theorem lexLe_head_lt {b1 b2 : Nat} {x y : List Nat}
    (h : lexLe (b1 :: x) (b2 :: y) = true) (hne : b1 ≠ b2) : b1 < b2 := by
  rw [lexLe] at h
  by_cases h1 : b1 < b2
  · exact h1
  · rw [if_neg h1] at h
    by_cases h2 : b2 < b1
    · rw [if_pos h2] at h
      exact Bool.noConfusion h
    · omega

theorem lexLt_append_same :
    ∀ (c a b : List Nat), lexLt a b = true → lexLt (c ++ a) (c ++ b) = true := by
  intro c
  induction c with
  | nil => intro a b h; exact h
  | cons d r ih =>
    intro a b h
    rw [List.cons_append, List.cons_append, lexLt, if_neg (Nat.lt_irrefl d),
      if_neg (Nat.lt_irrefl d)]
    exact ih a b h

theorem strBytes_head_ascii {c0 : Char} (rest : List Char) (h : c0.toNat < 128) :
    strBytes (c0 :: rest) = c0.toNat :: strBytes rest := by
  rw [strBytes_cons, utf8Encode_ascii h]
  rfl

theorem sortChildren_sorted (cs : List (Char × BNode)) :
    (sortChildren cs).Pairwise
      (fun a b => lexLe (strBytes a.pfx) (strBytes b.pfx) = true) := by
  haveI : IsTotal BNode
      (fun a b => lexLe (strBytes a.pfx) (strBytes b.pfx) = true) :=
    ⟨fun a b => lexLe_total _ _⟩
  haveI : IsTrans BNode
      (fun a b => lexLe (strBytes a.pfx) (strBytes b.pfx) = true) :=
    ⟨fun a b c h1 h2 => lexLe_trans h1 h2⟩
  exact List.sorted_insertionSort _ _

theorem sortChildren_heads {p : List Char} {cs : List (Char × BNode)} {lf : Bool}
    (hwf : WFB ⟨p, cs, lf⟩) :
    (sortChildren cs).Pairwise (fun a b => a.pfx.head? ≠ b.pfx.head?) := by
  rcases wfb_inv hwf with ⟨hkeys, hne, hhead, hrec⟩
  have hperm : (cs.map Prod.snd).Perm (sortChildren cs) :=
    (List.perm_insertionSort _ _).symm
  refine (hperm.pairwise_iff (fun hab he => hab he.symm)).mp ?_
  rw [List.pairwise_map]
  have hk2 : cs.Pairwise (fun a b => a.1 ≠ b.1) := List.pairwise_map.mp hkeys
  refine List.Pairwise.imp_of_mem ?_ hk2
  intro a b ha hb hne2
  rw [hhead a ha, hhead b hb]
  intro he
  rw [Option.some.injEq] at he
  exact hne2 he

theorem asciiB_pfx {t : BNode} (h : AsciiB t) : allAscii t.pfx := by
  cases t with
  | mk p cs lf => exact (asciiB_inv h).1

theorem asciiB_children {t : BNode} (h : AsciiB t) : ∀ kn ∈ t.children, AsciiB kn.2 := by
  cases t with
  | mk p cs lf => exact (asciiB_inv h).2

theorem treeWords_sorted :
    ∀ (fuel : Nat) (t : BNode), WFB t → AsciiB t →
      (treeWords fuel t).Pairwise
        (fun a b => lexLt (strBytes a) (strBytes b) = true) := by
  intro fuel
  induction fuel with
  | zero => intro t _ _; exact List.Pairwise.nil
  | succ fuel ih =>
    intro t hwf hasc
    rcases t with ⟨p, cs, lf⟩
    rcases wfb_inv hwf with ⟨hkeys, hne, hhead, hrec⟩
    have hrecA := asciiB_children hasc
    rw [treeWords]
    rw [List.pairwise_append]
    refine ⟨?_, ?_, ?_⟩
    · split <;> simp
    · rw [List.pairwise_flatten]
      constructor
      · intro l hl
        rcases List.mem_map.mp hl with ⟨c, hc, hce⟩
        rcases sortChildren_mem.mp hc with ⟨kc, hkc⟩
        subst hce
        rw [List.pairwise_map]
        have hcwf : WFB c := hrec (kc, c) hkc
        have hcasc : AsciiB c := hrecA (kc, c) hkc
        refine List.Pairwise.imp ?_ (ih c hcwf hcasc)
        intro a b hab
        rw [strBytes_append, strBytes_append]
        exact lexLt_append_same _ _ _ hab
      · rw [List.pairwise_map]
        have hpair := (sortChildren_sorted cs).and (sortChildren_heads hwf)
        refine List.Pairwise.imp_of_mem ?_ hpair
        intro c1 c2 hc1 hc2 hcc x hx y hy
        rcases List.mem_map.mp hx with ⟨w1, _, he1⟩
        rcases List.mem_map.mp hy with ⟨w2, _, he2⟩
        subst he1
        subst he2
        rcases sortChildren_mem.mp hc1 with ⟨k1, hk1⟩
        rcases sortChildren_mem.mp hc2 with ⟨k2, hk2⟩
        have h1ne : c1.pfx ≠ [] := hne (k1, c1) hk1
        have h2ne : c2.pfx ≠ [] := hne (k2, c2) hk2
        have h1asc : allAscii c1.pfx := asciiB_pfx (hrecA (k1, c1) hk1)
        have h2asc : allAscii c2.pfx := asciiB_pfx (hrecA (k2, c2) hk2)
        cases hc1p : c1.pfx with
        | nil => exact absurd hc1p h1ne
        | cons a0 a1 =>
          cases hc2p : c2.pfx with
          | nil => exact absurd hc2p h2ne
          | cons b0 b1 =>
            have ha0 : a0.toNat < 128 := by
              rw [hc1p] at h1asc
              exact h1asc a0 (List.mem_cons_self _ _)
            have hb0 : b0.toNat < 128 := by
              rw [hc2p] at h2asc
              exact h2asc b0 (List.mem_cons_self _ _)
            have hlt : a0.toNat < b0.toNat := by
              have hle := hcc.1
              rw [hc1p, hc2p, strBytes_head_ascii _ ha0,
                strBytes_head_ascii _ hb0] at hle
              refine lexLe_head_lt hle ?_
              intro he
              have hab : a0 = b0 := char_eq_of_toNat_eq he
              exact hcc.2 (by rw [hc1p, hc2p, hab]; rfl)
            rw [List.cons_append, List.cons_append,
              strBytes_head_ascii _ ha0, strBytes_head_ascii _ hb0]
            exact lexLt_head _ _ hlt
    · intro a ha b hb
      have ha0 : a = [] := by
        by_cases hl : (BNode.mk p cs lf).is_leaf = true
        · rw [if_pos hl, List.mem_singleton] at ha
          exact ha
        · rw [if_neg hl] at ha
          simp at ha
      subst ha0
      rcases List.mem_flatten.mp hb with ⟨l, hl, hbl⟩
      rcases List.mem_map.mp hl with ⟨c, hc, hce⟩
      rw [← hce] at hbl
      rcases List.mem_map.mp hbl with ⟨w, _, hwe⟩
      subst hwe
      rcases sortChildren_mem.mp hc with ⟨kc, hkc⟩
      have hcne : c.pfx ≠ [] := hne (kc, c) hkc
      have hbne : strBytes (c.pfx ++ w) ≠ [] := by
        rw [strBytes_append]
        intro he
        rcases List.append_eq_nil.mp he with ⟨he1, _⟩
        exact hcne (strBytes_eq_nil.mp he1)
      cases hsb : strBytes (c.pfx ++ w) with
      | nil => exact absurd hsb hbne
      | cons x0 y0 =>
        exact lexLt_nil_cons x0 y0

theorem map_emission (b : List Nat) (tf : Nat) (blocks : List BNode) :
    (((blocks.map (fun c => (treeWords tf c).map (fun w => c.pfx ++ w))).flatten).map
        (fun v => b ++ strBytes v)) =
      ((blocks.map (fun c => (treeWords tf c).map
        (fun v => (b ++ strBytes c.pfx) ++ strBytes v))).flatten) := by
  rw [List.map_flatten, List.map_map]
  congr 1
  refine List.map_congr_left ?_
  intro c _
  dsimp only [Function.comp]
  rw [List.map_map]
  refine List.map_congr_left ?_
  intro w _
  dsimp only [Function.comp]
  rw [strBytes_append, List.append_assoc]

theorem collect_mutual : ∀ fuel : Nat,
    (∀ (N : List CompactNode) (L : List Nat) (k i : Nat) (t : BNode)
      (res : List (List Nat)) (buf : List Nat) (off tf : Nat),
      Matches N L i t → WFB t →
      (∀ v, HasWord t v → v.length < tf) →
      off ≤ (strBytes t.pfx).length →
      2 * (N.length - i) ≤ fuel →
      collectGo N L k fuel i off buf res = .ok (res ++
        ((treeWords tf t).map
          (fun v => (buf ++ (strBytes t.pfx).drop off) ++ strBytes v)).take
            (k - res.length))) ∧
    (∀ (N : List CompactNode) (L : List Nat) (k s j0 tf : Nat)
      (cs : List (Char × BNode)) (res : List (List Nat)) (buf : List Nat),
      j0 < (sortChildren cs).length →
      s + (sortChildren cs).length ≤ N.length →
      (∀ j, j < (sortChildren cs).length →
        Matches N L (s + j) ((sortChildren cs).getD j freshBuilder)) →
      (∀ j, j < (sortChildren cs).length →
        WFB ((sortChildren cs).getD j freshBuilder)) →
      (∀ j, j < (sortChildren cs).length →
        (nodeAt N (s + j)).has_next_sibling =
          decide (j + 1 < (sortChildren cs).length)) →
      (∀ j, j < (sortChildren cs).length → ∀ v,
        HasWord ((sortChildren cs).getD j freshBuilder) v → v.length < tf) →
      2 * (N.length - (s + j0)) + 1 ≤ fuel →
      collectSibs N L k fuel (s + j0) buf res = .ok (res ++
        ((((sortChildren cs).drop j0).map
          (fun c => (treeWords tf c).map
            (fun v => (buf ++ strBytes c.pfx) ++ strBytes v))).flatten).take
              (k - res.length))) := by
  intro fuel
  induction fuel with
  | zero =>
    constructor
    · intro N L k i t res buf off tf hm _ _ _ hfuel
      have hi := (matches_facts hm).1
      omega
    · intro N L k s j0 tf cs res buf hj0 hblock _ _ _ _ hfuel
      omega
  | succ fuel ih =>
    constructor
    · intro N L k i t res buf off tf hm hwf hshort hoff hfuel
      rw [collectGo]
      by_cases hk : k ≤ res.length
      · rw [if_pos hk]
        have hz : k - res.length = 0 := by omega
        rw [hz, List.take_zero, List.append_nil]
      · rw [if_neg hk]
        have hstab : treeWords tf t = treeWords (tf + 1) t :=
          treeWords_stable tf (tf + 1) t hwf hshort
            (fun v hv => by have := hshort v hv; omega)
        rw [hstab]
        have hi := (matches_facts hm).1
        rw [getLabel, get?_nodeAt hi]
        dsimp only
        cases hm with
        | leafN i p cs lf hi2 hlab hterm hkids hfc =>
          rw [hlab]
          dsimp only
          have hoff2 : off ≤ (strBytes p).length := hoff
          rw [if_neg (by omega)]
          have hna : N.getD i default = nodeAt N i := rfl
          rw [hna, hterm, hfc]
          rw [treeWords]
          simp only [BNode.is_leaf, BNode.children,
            show (BNode.mk p cs lf).pfx = p from rfl, hkids, List.map_nil,
            List.flatten_nil, List.append_nil]
          cases hl : lf
          · simp only [Bool.false_eq_true, if_false]
            rw [if_neg hk]
            simp only [if_true, List.map_nil, List.take_nil, List.append_nil]
          · simp only [eq_self_iff_true, if_true]
            rw [ite_self]
            simp only [List.map_cons, List.map_nil, strBytes_nil, List.append_nil]
            have hkr : k - res.length = (k - res.length - 1) + 1 := by omega
            rw [hkr, List.take_succ_cons, List.take_nil]
        | nodeN i p cs lf s hi2 hlab hterm hne hfc hs hgt hblock hsib hkids =>
          rw [hlab]
          dsimp only
          have hoff2 : off ≤ (strBytes p).length := hoff
          rw [if_neg (by omega)]
          have hna : N.getD i default = nodeAt N i := rfl
          rw [hna, hterm, hfc]
          have hlen0 : 0 < (sortChildren cs).length := List.length_pos.mpr hne
          have hwfk : ∀ j, j < (sortChildren cs).length →
              WFB ((sortChildren cs).getD j freshBuilder) := by
            intro j hj
            have hmem : (sortChildren cs).getD j freshBuilder ∈ sortChildren cs := by
              rw [List.getD_eq_getElem _ _ hj]
              exact List.getElem_mem _
            rcases sortChildren_mem.mp hmem with ⟨kc, hkc⟩
            exact wfb_children hwf (kc, _) hkc
          have hshortk : ∀ j, j < (sortChildren cs).length → ∀ v,
              HasWord ((sortChildren cs).getD j freshBuilder) v → v.length < tf := by
            intro j hj v hv
            have hmem : (sortChildren cs).getD j freshBuilder ∈ sortChildren cs := by
              rw [List.getD_eq_getElem _ _ hj]
              exact List.getElem_mem _
            rcases sortChildren_mem.mp hmem with ⟨kc, hkc⟩
            have hbig := hshort (((sortChildren cs).getD j freshBuilder).pfx ++ v)
              (HasWord.via p cs lf kc _ v hkc hv)
            rw [List.length_append] at hbig
            have hpne : ((sortChildren cs).getD j freshBuilder).pfx ≠ [] :=
              (wfb_inv hwf).2.1 (kc, _) hkc
            have hpl : 0 < ((sortChildren cs).getD j freshBuilder).pfx.length :=
              List.length_pos.mpr hpne
            omega
          rw [treeWords]
          simp only [BNode.is_leaf, BNode.children,
            show (BNode.mk p cs lf).pfx = p from rfl]
          cases hl : lf
          · simp only [Bool.false_eq_true, if_false]
            rw [if_neg hk, if_neg hs]
            have hsibsEq : collectSibs N L k fuel s
                (buf ++ (strBytes p).drop off) res = .ok (res ++
                  (((sortChildren cs).map
                    (fun c => (treeWords tf c).map
                      (fun v => ((buf ++ (strBytes p).drop off) ++ strBytes c.pfx)
                        ++ strBytes v))).flatten).take (k - res.length)) :=
              ih.2 N L k s 0 tf cs res (buf ++ (strBytes p).drop off)
                hlen0 hblock hkids hwfk hsib hshortk (by omega)
            rw [hsibsEq, List.nil_append, map_emission]
          · simp only [eq_self_iff_true, if_true]
            have hlen1 : (res ++ [buf ++ (strBytes p).drop off]).length =
                res.length + 1 := by
              simp only [List.length_append, List.length_cons, List.length_nil]
            by_cases hk2 : k ≤ (res ++ [buf ++ (strBytes p).drop off]).length
            · rw [if_pos hk2]
              rw [hlen1] at hk2
              have h1 : k - res.length = 1 := by omega
              simp only [List.map_append, List.map_cons, List.map_nil,
                strBytes_nil, List.append_nil]
              rw [h1, List.singleton_append, List.take_succ_cons, List.take_zero]
            · rw [if_neg hk2, if_neg hs]
              rw [hlen1] at hk2
              have hsibsEq : collectSibs N L k fuel s
                  (buf ++ (strBytes p).drop off)
                  (res ++ [buf ++ (strBytes p).drop off]) = .ok
                    ((res ++ [buf ++ (strBytes p).drop off]) ++
                    (((sortChildren cs).map
                      (fun c => (treeWords tf c).map
                        (fun v => ((buf ++ (strBytes p).drop off) ++ strBytes c.pfx)
                          ++ strBytes v))).flatten).take
                        (k - (res ++ [buf ++ (strBytes p).drop off]).length)) :=
                ih.2 N L k s 0 tf cs (res ++ [buf ++ (strBytes p).drop off])
                  (buf ++ (strBytes p).drop off)
                  hlen0 hblock hkids hwfk hsib hshortk (by omega)
              rw [hsibsEq, hlen1]
              simp only [List.map_append, List.map_cons, List.map_nil,
                strBytes_nil, List.append_nil]
              rw [List.singleton_append, map_emission]
              have hkr : k - res.length = (k - res.length - 1) + 1 := by omega
              rw [hkr, List.take_succ_cons]
              have ha : k - res.length - 1 = k - (res.length + 1) := by omega
              rw [ha, List.append_assoc, List.singleton_append]
    · intro N L k s j0 tf cs res buf hj0 hblock hm hwfk hsib hshort hfuel
      rw [collectSibs]
      have hgoEq : collectGo N L k fuel (s + j0) 0 buf res = .ok (res ++
          ((treeWords tf ((sortChildren cs).getD j0 freshBuilder)).map
            (fun v => (buf ++ strBytes ((sortChildren cs).getD j0 freshBuilder).pfx)
              ++ strBytes v)).take (k - res.length)) := by
        have hgo := ih.1 N L k (s + j0) ((sortChildren cs).getD j0 freshBuilder)
          res buf 0 tf (hm j0 hj0) (hwfk j0 hj0) (hshort j0 hj0)
          (Nat.zero_le _) (by omega)
        simp only [List.drop_zero] at hgo
        exact hgo
      rw [hgoEq]
      dsimp only
      have hdrop : (sortChildren cs).drop j0 =
          (sortChildren cs).getD j0 freshBuilder :: (sortChildren cs).drop (j0 + 1) := by
        rw [List.getD_eq_getElem _ _ hj0]
        exact List.drop_eq_getElem_cons hj0
      rw [hdrop, List.map_cons, List.flatten_cons]
      by_cases hk : k ≤ res.length
      · have h0 : k - res.length = 0 := by omega
        rw [h0, List.take_zero, List.take_zero, List.append_nil, if_pos hk]
      · by_cases hk2 : k ≤ (res ++
            ((treeWords tf ((sortChildren cs).getD j0 freshBuilder)).map
              (fun v => (buf ++ strBytes ((sortChildren cs).getD j0 freshBuilder).pfx)
                ++ strBytes v)).take (k - res.length)).length
        · rw [if_pos hk2]
          simp only [List.length_append, List.length_take] at hk2
          rw [List.take_append_eq_append_take]
          have h0 : k - res.length -
              ((treeWords tf ((sortChildren cs).getD j0 freshBuilder)).map
                (fun v => (buf ++ strBytes ((sortChildren cs).getD j0 freshBuilder).pfx)
                  ++ strBytes v)).length = 0 := by
            simp only [List.length_map]
            simp only [List.length_map] at hk2
            omega
          rw [h0, List.take_zero, List.append_nil]
        · rw [if_neg hk2]
          simp only [List.length_append, List.length_take] at hk2
          have hbgt : ((treeWords tf ((sortChildren cs).getD j0 freshBuilder)).map
              (fun v => (buf ++ strBytes ((sortChildren cs).getD j0 freshBuilder).pfx)
                ++ strBytes v)).length < k - res.length := by omega
          have htake : ((treeWords tf ((sortChildren cs).getD j0 freshBuilder)).map
              (fun v => (buf ++ strBytes ((sortChildren cs).getD j0 freshBuilder).pfx)
                ++ strBytes v)).take (k - res.length) =
              (treeWords tf ((sortChildren cs).getD j0 freshBuilder)).map
                (fun v => (buf ++ strBytes ((sortChildren cs).getD j0 freshBuilder).pfx)
                  ++ strBytes v) := List.take_of_length_le (by omega)
          rw [htake]
          have hna : N.getD (s + j0) default = nodeAt N (s + j0) := rfl
          rw [hna, hsib j0 hj0]
          by_cases hnx : j0 + 1 < (sortChildren cs).length
          · rw [if_pos (by simpa using hnx)]
            have hrec : collectSibs N L k fuel (s + j0 + 1) buf
                (res ++ (treeWords tf ((sortChildren cs).getD j0 freshBuilder)).map
                  (fun v => (buf ++ strBytes ((sortChildren cs).getD j0 freshBuilder).pfx)
                    ++ strBytes v)) = .ok
                  ((res ++ (treeWords tf ((sortChildren cs).getD j0 freshBuilder)).map
                    (fun v => (buf ++ strBytes ((sortChildren cs).getD j0 freshBuilder).pfx)
                      ++ strBytes v)) ++
                  ((((sortChildren cs).drop (j0 + 1)).map
                    (fun c => (treeWords tf c).map
                      (fun v => (buf ++ strBytes c.pfx) ++ strBytes v))).flatten).take
                    (k - (res ++ (treeWords tf ((sortChildren cs).getD j0 freshBuilder)).map
                      (fun v => (buf ++ strBytes ((sortChildren cs).getD j0 freshBuilder).pfx)
                        ++ strBytes v)).length)) :=
              ih.2 N L k s (j0 + 1) tf cs
                (res ++ (treeWords tf ((sortChildren cs).getD j0 freshBuilder)).map
                  (fun v => (buf ++ strBytes ((sortChildren cs).getD j0 freshBuilder).pfx)
                    ++ strBytes v)) buf
                hnx hblock hm hwfk hsib hshort (by omega)
            rw [hrec]
            rw [List.take_append_eq_append_take, htake]
            have hlen2 : (res ++ (treeWords tf ((sortChildren cs).getD j0 freshBuilder)).map
                (fun v => (buf ++ strBytes ((sortChildren cs).getD j0 freshBuilder).pfx)
                  ++ strBytes v)).length = res.length +
                ((treeWords tf ((sortChildren cs).getD j0 freshBuilder)).map
                  (fun v => (buf ++ strBytes ((sortChildren cs).getD j0 freshBuilder).pfx)
                    ++ strBytes v)).length := List.length_append _ _
            rw [hlen2]
            have ha : k - (res.length +
                ((treeWords tf ((sortChildren cs).getD j0 freshBuilder)).map
                  (fun v => (buf ++ strBytes ((sortChildren cs).getD j0 freshBuilder).pfx)
                    ++ strBytes v)).length) = k - res.length -
                ((treeWords tf ((sortChildren cs).getD j0 freshBuilder)).map
                  (fun v => (buf ++ strBytes ((sortChildren cs).getD j0 freshBuilder).pfx)
                    ++ strBytes v)).length := by omega
            rw [ha, List.append_assoc]
          · rw [if_neg (by simpa using hnx)]
            have hdropnil : (sortChildren cs).drop (j0 + 1) = [] :=
              List.drop_eq_nil_of_le (by omega)
            rw [hdropnil, List.map_nil, List.flatten_nil, List.append_nil, htake]

theorem pre_head {a c : List Nat} (h : a <+: c) (ha : a ≠ []) : a.head? = c.head? := by
  rcases h with ⟨r, hr⟩
  rw [← hr]
  exact (head?_append_left r ha).symm

theorem commonPreLen_pos_head {a b : List Nat} (h : 0 < commonPreLen a b) :
    a.head? = b.head? := by
  cases a with
  | nil => simp [commonPreLen] at h
  | cons x xs =>
    cases b with
    | nil => simp [commonPreLen] at h
    | cons y ys =>
      by_cases hxy : x = y
      · simp [hxy]
      · rw [commonPreLen, if_neg hxy] at h
        omega

theorem isPre_append_same : ∀ (c a b : List Nat), isPre (c ++ a) (c ++ b) = isPre a b := by
  intro c
  induction c with
  | nil => intro a b; rfl
  | cons d r ih =>
    intro a b
    rw [List.cons_append, List.cons_append, isPre]
    simp [ih]

theorem getD_app_left {l b : List Nat} {n : Nat} (h : n < l.length) (d : Nat) :
    (l ++ b).getD n d = l.getD n d := by
  rw [List.getD_eq_getElem _ _ (by rw [List.length_append]; omega),
    List.getD_eq_getElem _ _ h, List.getElem_append_left]

theorem strBytes_head_ne {a b : List Char} (ha : a ≠ []) (hb : b ≠ [])
    (haa : allAscii a) (hab : allAscii b) (h : a.head? ≠ b.head?) :
    (strBytes a).head? ≠ (strBytes b).head? := by
  cases a with
  | nil => exact absurd rfl ha
  | cons c1 r1 =>
    cases b with
    | nil => exact absurd rfl hb
    | cons c2 r2 =>
      rw [strBytes_head_ascii _ (haa c1 (List.mem_cons_self _ _)),
        strBytes_head_ascii _ (hab c2 (List.mem_cons_self _ _))]
      intro he
      rw [List.head?_cons, List.head?_cons, Option.some.injEq] at he
      exact h (by rw [List.head?_cons, List.head?_cons, char_eq_of_toNat_eq he])

theorem kid_head_ne {pp : List Char} {cs : List (Char × BNode)} {lf : Bool}
    (hwf : WFB ⟨pp, cs, lf⟩) (hasc : AsciiB ⟨pp, cs, lf⟩) :
    ∀ j1 j2, j1 < (sortChildren cs).length → j2 < (sortChildren cs).length →
      j1 ≠ j2 →
      (strBytes ((sortChildren cs).getD j1 freshBuilder).pfx).head? ≠
        (strBytes ((sortChildren cs).getD j2 freshBuilder).pfx).head? := by
  have hpair := sortChildren_heads hwf
  have hkmem : ∀ j, j < (sortChildren cs).length →
      ∃ kc, (kc, (sortChildren cs).getD j freshBuilder) ∈ cs := by
    intro j hj
    have hmem : (sortChildren cs).getD j freshBuilder ∈ sortChildren cs := by
      rw [List.getD_eq_getElem _ _ hj]
      exact List.getElem_mem _
    exact sortChildren_mem.mp hmem
  have hch : ∀ j, j < (sortChildren cs).length →
      ((sortChildren cs).getD j freshBuilder).pfx ≠ [] ∧
        allAscii ((sortChildren cs).getD j freshBuilder).pfx := by
    intro j hj
    rcases hkmem j hj with ⟨kc, hkc⟩
    exact ⟨(wfb_inv hwf).2.1 (kc, _) hkc,
      asciiB_pfx ((asciiB_inv hasc).2 (kc, _) hkc)⟩
  have hcore : ∀ j1 j2, j1 < j2 → (h2 : j2 < (sortChildren cs).length) →
      ((sortChildren cs).getD j1 freshBuilder).pfx.head? ≠
        ((sortChildren cs).getD j2 freshBuilder).pfx.head? := by
    intro j1 j2 h12 h2
    have h1 : j1 < (sortChildren cs).length := by omega
    have := List.pairwise_iff_getElem.mp hpair j1 j2 h1 h2 h12
    rw [List.getD_eq_getElem _ _ h1, List.getD_eq_getElem _ _ h2]
    exact this
  intro j1 j2 h1 h2 hne
  rcases Nat.lt_or_ge j1 j2 with hlt | hge
  · exact strBytes_head_ne (hch j1 h1).1 (hch j2 h2).1 (hch j1 h1).2 (hch j2 h2).2
      (hcore j1 j2 hlt h2)
  · have hlt : j2 < j1 := by omega
    exact fun he => (strBytes_head_ne (hch j2 h2).1 (hch j1 h1).1 (hch j2 h2).2
      (hch j1 h1).2 (hcore j2 j1 hlt h1)) he.symm

theorem suggestScan_spec {N : List CompactNode} {L : List Nat} {p : List Nat}
    {k cursor tf s : Nat} {cs : List (Char × BNode)}
    (hblock : s + (sortChildren cs).length ≤ N.length)
    (hsib : ∀ j, j < (sortChildren cs).length →
      (nodeAt N (s + j)).has_next_sibling = decide (j + 1 < (sortChildren cs).length))
    (hm : ∀ j, j < (sortChildren cs).length →
      Matches N L (s + j) ((sortChildren cs).getD j freshBuilder))
    (hwfk : ∀ j, j < (sortChildren cs).length →
      WFB ((sortChildren cs).getD j freshBuilder))
    (hshortk : ∀ j, j < (sortChildren cs).length → ∀ v,
      HasWord ((sortChildren cs).getD j freshBuilder) v → v.length < tf) :
    ∀ (fuel j0 : Nat) (B : List Nat), j0 < (sortChildren cs).length →
      (sortChildren cs).length - j0 ≤ fuel →
      ((∀ j2, j0 ≤ j2 → j2 < (sortChildren cs).length →
          commonPreLen (strBytes ((sortChildren cs).getD j2 freshBuilder).pfx)
            (p.drop cursor) = 0) ∧
        suggestScan N L p k fuel (s + j0) cursor B = .ok (.inl [])) ∨
      (∃ j, j0 ≤ j ∧ j < (sortChildren cs).length ∧
        0 < commonPreLen (strBytes ((sortChildren cs).getD j freshBuilder).pfx)
          (p.drop cursor) ∧
        ((commonPreLen (strBytes ((sortChildren cs).getD j freshBuilder).pfx)
            (p.drop cursor) = (p.drop cursor).length ∧
          suggestScan N L p k fuel (s + j0) cursor B = .ok (.inl
            (((treeWords tf ((sortChildren cs).getD j freshBuilder)).map
              (fun v => ((B ++ p.drop cursor) ++
                (strBytes ((sortChildren cs).getD j freshBuilder).pfx).drop
                  (p.drop cursor).length) ++ strBytes v)).take k))) ∨
        (commonPreLen (strBytes ((sortChildren cs).getD j freshBuilder).pfx)
            (p.drop cursor) =
            (strBytes ((sortChildren cs).getD j freshBuilder).pfx).length ∧
          commonPreLen (strBytes ((sortChildren cs).getD j freshBuilder).pfx)
            (p.drop cursor) < (p.drop cursor).length ∧
          suggestScan N L p k fuel (s + j0) cursor B = .ok (.inr
            (s + j, cursor + (strBytes ((sortChildren cs).getD j freshBuilder).pfx).length,
              B ++ strBytes ((sortChildren cs).getD j freshBuilder).pfx))) ∨
        (commonPreLen (strBytes ((sortChildren cs).getD j freshBuilder).pfx)
            (p.drop cursor) <
            (strBytes ((sortChildren cs).getD j freshBuilder).pfx).length ∧
          commonPreLen (strBytes ((sortChildren cs).getD j freshBuilder).pfx)
            (p.drop cursor) < (p.drop cursor).length ∧
          suggestScan N L p k fuel (s + j0) cursor B = .ok (.inl [])))) := by
  intro fuel
  induction fuel with
  | zero =>
    intro j0 B hj0 hf
    omega
  | succ fuel ih =>
    intro j0 B hj0 hf
    have hlabj : labelSliceAt L (nodeAt N (s + j0)) =
        some (strBytes ((sortChildren cs).getD j0 freshBuilder).pfx) :=
      (matches_facts (hm j0 hj0)).2.1
    by_cases hcl : 0 < commonPreLen
        (strBytes ((sortChildren cs).getD j0 freshBuilder).pfx) (p.drop cursor)
    · by_cases hkl : commonPreLen
          (strBytes ((sortChildren cs).getD j0 freshBuilder).pfx) (p.drop cursor) =
          (p.drop cursor).length
      · -- collect branch
        have htak2 : (strBytes ((sortChildren cs).getD j0 freshBuilder).pfx).take
            ((p.drop cursor).length) = p.drop cursor := by
          rw [← hkl, commonPreLen_take, hkl, List.take_length]
        have hgo := (collect_mutual (2 * N.length + 2)).1 N L k (s + j0)
          ((sortChildren cs).getD j0 freshBuilder) []
          (B ++ (strBytes ((sortChildren cs).getD j0 freshBuilder).pfx).take
            (commonPreLen (strBytes ((sortChildren cs).getD j0 freshBuilder).pfx)
              (p.drop cursor)))
          (commonPreLen (strBytes ((sortChildren cs).getD j0 freshBuilder).pfx)
            (p.drop cursor)) tf
          (hm j0 hj0) (hwfk j0 hj0) (hshortk j0 hj0)
          (commonPreLen_le_left _ _) (by omega)
        have heq : suggestScan N L p k (fuel + 1) (s + j0) cursor B = .ok (.inl
            (((treeWords tf ((sortChildren cs).getD j0 freshBuilder)).map
              (fun v => ((B ++ p.drop cursor) ++
                (strBytes ((sortChildren cs).getD j0 freshBuilder).pfx).drop
                  (p.drop cursor).length) ++ strBytes v)).take k)) := by
          rw [suggestScan, getLabel, get?_nodeAt (show s + j0 < N.length by omega)]
          dsimp only
          rw [hlabj]
          dsimp only
          rw [if_pos hcl, if_pos hkl, hgo]
          dsimp only
          simp only [List.nil_append, List.length_nil, Nat.sub_zero, hkl, htak2]
        exact Or.inr ⟨j0, le_refl _, hj0, hcl, Or.inl ⟨hkl, heq⟩⟩
      · by_cases hll : commonPreLen
            (strBytes ((sortChildren cs).getD j0 freshBuilder).pfx) (p.drop cursor) =
            (strBytes ((sortChildren cs).getD j0 freshBuilder).pfx).length
        · have heq : suggestScan N L p k (fuel + 1) (s + j0) cursor B = .ok (.inr
              (s + j0, cursor +
                (strBytes ((sortChildren cs).getD j0 freshBuilder).pfx).length,
                B ++ strBytes ((sortChildren cs).getD j0 freshBuilder).pfx)) := by
            rw [suggestScan, getLabel, get?_nodeAt (show s + j0 < N.length by omega)]
            dsimp only
            rw [hlabj]
            dsimp only
            rw [if_pos hcl, if_neg hkl, if_pos hll]
            simp only [hll, List.take_length]
          refine Or.inr ⟨j0, le_refl _, hj0, hcl, Or.inr (Or.inl ⟨hll, ?_, heq⟩)⟩
          exact lt_of_le_of_ne (commonPreLen_le_right _ _) hkl
        · have heq : suggestScan N L p k (fuel + 1) (s + j0) cursor B =
              .ok (.inl []) := by
            rw [suggestScan, getLabel, get?_nodeAt (show s + j0 < N.length by omega)]
            dsimp only
            rw [hlabj]
            dsimp only
            rw [if_pos hcl, if_neg hkl, if_neg hll]
          refine Or.inr ⟨j0, le_refl _, hj0, hcl, Or.inr (Or.inr ⟨?_, ?_, heq⟩)⟩
          · exact lt_of_le_of_ne (commonPreLen_le_left _ _) hll
          · exact lt_of_le_of_ne (commonPreLen_le_right _ _) hkl
    · have hstep : suggestScan N L p k (fuel + 1) (s + j0) cursor B =
          (if (nodeAt N (s + j0)).has_next_sibling
            then suggestScan N L p k fuel (s + j0 + 1) cursor B
            else .ok (.inl [])) := by
        rw [suggestScan, getLabel, get?_nodeAt (show s + j0 < N.length by omega)]
        dsimp only
        rw [hlabj]
        dsimp only
        rw [if_neg hcl]
        rfl
      rw [hsib j0 hj0] at hstep
      by_cases hnx : j0 + 1 < (sortChildren cs).length
      · rw [if_pos (by simpa using hnx)] at hstep
        have hadd : s + j0 + 1 = s + (j0 + 1) := by omega
        rw [hadd] at hstep
        rcases ih (j0 + 1) B hnx (by omega) with ⟨hall, hres⟩ | ⟨j, hj1, hj2, hj3, hj4⟩
        · refine Or.inl ⟨?_, by rw [hstep, hres]⟩
          intro j2 hge hlt
          by_cases he : j2 = j0
          · subst he
            omega
          · exact hall j2 (by omega) hlt
        · refine Or.inr ⟨j, by omega, hj2, hj3, ?_⟩
          rcases hj4 with ⟨h1, h2⟩ | ⟨h1, h2, h3⟩ | ⟨h1, h2, h3⟩
          · exact Or.inl ⟨h1, by rw [hstep, h2]⟩
          · exact Or.inr (Or.inl ⟨h1, h2, by rw [hstep, h3]⟩)
          · exact Or.inr (Or.inr ⟨h1, h2, by rw [hstep, h3]⟩)
      · rw [if_neg (by simpa using hnx)] at hstep
        refine Or.inl ⟨?_, hstep⟩
        intro j2 hge hlt
        have he : j2 = j0 := by omega
        subst he
        omega

theorem flatten_single {α β : Type} (f : α → List β) (l : List α) (d : α) :
    ∀ j : Nat, j < l.length →
      (∀ i, i < l.length → i ≠ j → f (l.getD i d) = []) →
      (l.map f).flatten = f (l.getD j d) := by
  induction l with
  | nil => intro j hj _; simp at hj
  | cons x xs ih =>
    intro j hj hz
    cases j with
    | zero =>
      simp only [List.map_cons, List.flatten_cons, List.getD_cons_zero]
      have hrest : (xs.map f).flatten = [] := by
        rw [List.flatten_eq_nil_iff]
        intro m hm
        rcases List.mem_map.mp hm with ⟨a, ha, hae⟩
        rcases List.mem_iff_getElem.mp ha with ⟨i, hi, hie⟩
        have hzi := hz (i + 1) (by simp only [List.length_cons]; omega) (by omega)
        rw [List.getD_cons_succ, List.getD_eq_getElem xs d hi, hie, hae] at hzi
        exact hzi
      rw [hrest, List.append_nil]
    | succ m =>
      simp only [List.map_cons, List.flatten_cons, List.getD_cons_succ]
      have h0 : f x = [] := by
        have hz0 := hz 0 (by simp only [List.length_cons]; omega) (by omega)
        rw [List.getD_cons_zero] at hz0
        exact hz0
      rw [h0, List.nil_append]
      refine ih m (by simp only [List.length_cons] at hj; omega) ?_
      intro i hi hij
      have hzi := hz (i + 1) (by simp only [List.length_cons]; omega) (by omega)
      rw [List.getD_cons_succ] at hzi
      exact hzi

theorem isPre_nil_right {kp : List Nat} (h : kp ≠ []) : isPre kp [] = false := by
  cases kp with
  | nil => exact absurd rfl h
  | cons a as => rfl

theorem tree_filter_nil {pp : List Char} {cs : List (Char × BNode)} {lf : Bool}
    {kp : List Nat} (hwf : WFB ⟨pp, cs, lf⟩) (hkp : kp ≠ [])
    (hz : ∀ j, j < (sortChildren cs).length →
      commonPreLen (strBytes ((sortChildren cs).getD j freshBuilder).pfx) kp = 0) :
    ∀ tfa : Nat,
      (treeWords tfa ⟨pp, cs, lf⟩).filter (fun w => isPre kp (strBytes w)) = [] := by
  intro tfa
  rw [List.filter_eq_nil_iff]
  intro v hv
  have hs := treeWords_sound tfa _ v hwf hv
  have hnil : ¬ isPre kp (strBytes ([] : List Char)) = true := by
    rw [strBytes_nil, isPre_nil_right hkp]
    exact Bool.false_ne_true
  rcases hs with ⟨hv0, _⟩ | hw
  · subst hv0
    exact hnil
  · rcases hasWord_inv.mp hw with ⟨hv0, _⟩ | ⟨kc, n, w', hmem, _, hve⟩
    · subst hv0
      exact hnil
    · subst hve
      intro hisp
      have hnmem : n ∈ sortChildren cs := sortChildren_mem.mpr ⟨kc, hmem⟩
      rcases sortChildren_idx hnmem with ⟨j, hjl, hje⟩
      have hpne : n.pfx ≠ [] := (wfb_inv hwf).2.1 (kc, n) hmem
      have hbne : strBytes n.pfx ≠ [] := fun he => hpne (strBytes_eq_nil.mp he)
      have hpre : kp <+: strBytes n.pfx ++ strBytes w' := by
        rw [← strBytes_append]
        exact isPre_iff.mp hisp
      have hhd : kp.head? = (strBytes n.pfx).head? := by
        rw [pre_head hpre hkp]
        exact head?_append_left _ hbne
      have hpos : 0 < commonPreLen (strBytes n.pfx) kp :=
        commonPreLen_pos hbne hhd.symm
      rw [← hje] at hpos
      rw [hz j hjl] at hpos
      omega

theorem tree_filter_unique {pp : List Char} {cs : List (Char × BNode)} {lf : Bool}
    {kp : List Nat} {tf j : Nat}
    (hwf : WFB ⟨pp, cs, lf⟩) (hasc : AsciiB ⟨pp, cs, lf⟩) (hkp : kp ≠ [])
    (hj : j < (sortChildren cs).length)
    (hhead : 0 < commonPreLen
      (strBytes ((sortChildren cs).getD j freshBuilder).pfx) kp) :
    (treeWords (tf + 1) ⟨pp, cs, lf⟩).filter (fun w => isPre kp (strBytes w)) =
      ((treeWords tf ((sortChildren cs).getD j freshBuilder)).filter
        (fun w => isPre kp
          (strBytes (((sortChildren cs).getD j freshBuilder).pfx ++ w)))).map
        (fun w => ((sortChildren cs).getD j freshBuilder).pfx ++ w) := by
  rw [treeWords]
  rw [List.filter_append]
  have hleaf : ((if (BNode.mk pp cs lf).is_leaf = true then [[]] else []).filter
      (fun w => isPre kp (strBytes w))) = [] := by
    split
    · simp only [List.filter_cons, strBytes_nil, isPre_nil_right hkp, List.filter_nil]
      rfl
    · rfl
  rw [hleaf, List.nil_append]
  rw [List.filter_flatten, List.map_map]
  have hsingle := flatten_single
    ((List.filter (fun w => isPre kp (strBytes w))) ∘
      (fun c => (treeWords tf c).map (fun w => c.pfx ++ w)))
    (sortChildren (BNode.mk pp cs lf).children) freshBuilder j
    (by simpa using hj) ?_
  · rw [hsingle]
    dsimp only [Function.comp]
    rw [List.filter_map]
    rfl
  · intro i hil hine
    dsimp only [Function.comp]
    rw [List.filter_eq_nil_iff]
    intro v hv
    rcases List.mem_map.mp hv with ⟨w, _, hwe⟩
    subst hwe
    intro hisp
    have hil2 : i < (sortChildren cs).length := by simpa using hil
    have himem : (sortChildren cs).getD i freshBuilder ∈ sortChildren cs := by
      rw [List.getD_eq_getElem _ _ hil2]
      exact List.getElem_mem _
    rcases sortChildren_mem.mp himem with ⟨kci, hkci⟩
    have hjmem : (sortChildren cs).getD j freshBuilder ∈ sortChildren cs := by
      rw [List.getD_eq_getElem _ _ hj]
      exact List.getElem_mem _
    rcases sortChildren_mem.mp hjmem with ⟨kcj, hkcj⟩
    have hpnei : ((sortChildren cs).getD i freshBuilder).pfx ≠ [] :=
      (wfb_inv hwf).2.1 (kci, _) hkci
    have hbnei : strBytes ((sortChildren cs).getD i freshBuilder).pfx ≠ [] :=
      fun he => hpnei (strBytes_eq_nil.mp he)
    have hpnej : ((sortChildren cs).getD j freshBuilder).pfx ≠ [] :=
      (wfb_inv hwf).2.1 (kcj, _) hkcj
    have hbnej : strBytes ((sortChildren cs).getD j freshBuilder).pfx ≠ [] :=
      fun he => hpnej (strBytes_eq_nil.mp he)
    have hprei : kp <+:
        strBytes ((sortChildren cs).getD i freshBuilder).pfx ++ strBytes w := by
      rw [← strBytes_append]
      exact isPre_iff.mp hisp
    have hhdi : kp.head? =
        (strBytes ((sortChildren cs).getD i freshBuilder).pfx).head? := by
      rw [pre_head hprei hkp]
      exact head?_append_left _ hbnei
    have hhdj : (strBytes ((sortChildren cs).getD j freshBuilder).pfx).head? =
        kp.head? := commonPreLen_pos_head hhead
    exact kid_head_ne hwf hasc j i hj hil2 (fun he => hine (he.symm)) (by rw [hhdj, hhdi])

theorem suggestLoop_spec :
    ∀ (fuel : Nat) (N : List CompactNode) (L : List Nat) (p : List Nat)
      (k i cursor tf : Nat) (t : BNode),
      Matches N L i t → WFB t → AsciiB t →
      (∀ v, HasWord t v → v.length < tf) →
      cursor ≤ p.length →
      (cursor = p.length → t.is_leaf = false) →
      p.length - cursor < fuel →
      suggestLoop N L p k fuel i cursor (p.take cursor) = .ok
        ((((treeWords tf t).filter (fun w => isPre (p.drop cursor) (strBytes w))).map
          (fun w => p.take cursor ++ strBytes w)).take k) := by
  intro fuel
  induction fuel with
  | zero =>
    intro N L p k i cursor tf t _ _ _ _ _ _ hfuel
    omega
  | succ fuel ih =>
    intro N L p k i cursor tf t hm hwf hasc hshort hcle hterm hfuel
    rw [suggestLoop, get?_nodeAt (matches_facts hm).1]
    dsimp only
    have hstab : treeWords tf t = treeWords (tf + 1) t :=
      treeWords_stable tf (tf + 1) t hwf hshort
        (fun v hv => by have := hshort v hv; omega)
    by_cases hcur : cursor < p.length
    · rw [if_pos hcur]
      have hkpne : p.drop cursor ≠ [] := by
        intro he
        have hlen := congrArg List.length he
        rw [List.length_drop, List.length_nil] at hlen
        omega
      cases hm with
      | leafN i pp cs lf hi hlab hterm2 hkids hfc =>
        rw [hfc, if_pos rfl]
        have hfil := tree_filter_nil hwf hkpne
          (fun j hj => by rw [hkids] at hj; simp at hj) tf
        rw [hfil, List.map_nil, List.take_nil]
      | nodeN i pp cs lf s hi hlab hterm2 hne hfc hs hgt hblock hsib hkids =>
        rw [hfc, if_neg hs]
        have hlen0 : 0 < (sortChildren cs).length := List.length_pos.mpr hne
        have hwfk : ∀ j, j < (sortChildren cs).length →
            WFB ((sortChildren cs).getD j freshBuilder) := by
          intro j hj
          have hmem : (sortChildren cs).getD j freshBuilder ∈ sortChildren cs := by
            rw [List.getD_eq_getElem _ _ hj]
            exact List.getElem_mem _
          rcases sortChildren_mem.mp hmem with ⟨kc, hkc⟩
          exact wfb_children hwf (kc, _) hkc
        have hshortk : ∀ j, j < (sortChildren cs).length → ∀ v,
            HasWord ((sortChildren cs).getD j freshBuilder) v → v.length < tf := by
          intro j hj v hv
          have hmem : (sortChildren cs).getD j freshBuilder ∈ sortChildren cs := by
            rw [List.getD_eq_getElem _ _ hj]
            exact List.getElem_mem _
          rcases sortChildren_mem.mp hmem with ⟨kc, hkc⟩
          have hbig := hshort (((sortChildren cs).getD j freshBuilder).pfx ++ v)
            (HasWord.via pp cs lf kc _ v hkc hv)
          rw [List.length_append] at hbig
          omega
        have hscan := @suggestScan_spec N L p k cursor tf s cs hblock hsib hkids
          hwfk hshortk (N.length + 1) 0 (p.take cursor) hlen0 (by omega)
        rcases hscan with ⟨hall, hres⟩ | ⟨j, _, hjl, hclpos, hcase⟩
        · have hres2 : suggestScan N L p k (N.length + 1) s cursor (p.take cursor) =
              .ok (.inl []) := hres
          rw [hres2]
          dsimp only
          have hfil := tree_filter_nil hwf hkpne
            (fun j2 hj2 => hall j2 (Nat.zero_le _) hj2) tf
          rw [hstab] at hfil
          rw [hstab, hfil, List.map_nil, List.take_nil]
        · have hkmemj : (sortChildren cs).getD j freshBuilder ∈ sortChildren cs := by
            rw [List.getD_eq_getElem _ _ hjl]
            exact List.getElem_mem _
          rcases sortChildren_mem.mp hkmemj with ⟨kcj, hkcj⟩
          have hkasc : AsciiB ((sortChildren cs).getD j freshBuilder) :=
            (asciiB_inv hasc).2 (kcj, _) hkcj
          rcases hcase with ⟨hkl, hres⟩ | ⟨hll, hlt, hres⟩ | ⟨hlt1, hlt2, hres⟩
          · -- prefix exhausted inside the child label: collect below it
            have hres2 : suggestScan N L p k (N.length + 1) s cursor (p.take cursor) =
                .ok (.inl
                  (((treeWords tf ((sortChildren cs).getD j freshBuilder)).map
                    (fun v => ((p.take cursor ++ p.drop cursor) ++
                      (strBytes ((sortChildren cs).getD j freshBuilder).pfx).drop
                        (p.drop cursor).length) ++ strBytes v)).take k)) := hres
            rw [hres2]
            dsimp only
            have h1 := commonPreLen_take
              (strBytes ((sortChildren cs).getD j freshBuilder).pfx) (p.drop cursor)
            rw [hkl, List.take_length] at h1
            have hskp := List.take_append_drop (p.drop cursor).length
              (strBytes ((sortChildren cs).getD j freshBuilder).pfx)
            rw [h1] at hskp
            have hkppre : p.drop cursor <+:
                strBytes ((sortChildren cs).getD j freshBuilder).pfx := by
              rw [← h1]
              exact List.take_prefix _ _
            have hfilself : (treeWords tf ((sortChildren cs).getD j freshBuilder)).filter
                (fun w => isPre (p.drop cursor)
                  (strBytes (((sortChildren cs).getD j freshBuilder).pfx ++ w))) =
                treeWords tf ((sortChildren cs).getD j freshBuilder) := by
              rw [List.filter_eq_self]
              intro w _
              rw [strBytes_append]
              exact isPre_iff.mpr (hkppre.trans (List.prefix_append _ _))
            rw [hstab, tree_filter_unique hwf hasc hkpne hjl hclpos, hfilself,
              List.map_map]
            refine congrArg Exec.ok ?_
            refine congrArg (List.take k) ?_
            refine List.map_congr_left ?_
            intro v _
            dsimp only [Function.comp]
            rw [strBytes_append]
            conv_rhs => rw [← hskp]
            simp only [List.append_assoc]
          · -- the whole child label matched: descend
            have hres2 : suggestScan N L p k (N.length + 1) s cursor (p.take cursor) =
                .ok (.inr (s + j,
                  cursor + (strBytes ((sortChildren cs).getD j freshBuilder).pfx).length,
                  p.take cursor ++
                    strBytes ((sortChildren cs).getD j freshBuilder).pfx)) := hres
            rw [hres2]
            dsimp only
            have h1 := commonPreLen_take
              (strBytes ((sortChildren cs).getD j freshBuilder).pfx) (p.drop cursor)
            rw [hll, List.take_length] at h1
            have hlt2 : (strBytes ((sortChildren cs).getD j freshBuilder).pfx).length <
                (p.drop cursor).length := by
              rw [← hll]
              exact hlt
            have hlt3 : (strBytes ((sortChildren cs).getD j freshBuilder).pfx).length <
                p.length - cursor := by
              rw [List.length_drop] at hlt2
              exact hlt2
            have hpos : 0 <
                (strBytes ((sortChildren cs).getD j freshBuilder).pfx).length := by
              rw [← hll]
              exact hclpos
            have hbuf : p.take cursor ++
                strBytes ((sortChildren cs).getD j freshBuilder).pfx =
                p.take (cursor +
                  (strBytes ((sortChildren cs).getD j freshBuilder).pfx).length) := by
              rw [List.take_add]
              rw [← h1]
            rw [hbuf]
            have hih := ih N L p k (s + j)
              (cursor + (strBytes ((sortChildren cs).getD j freshBuilder).pfx).length)
              tf ((sortChildren cs).getD j freshBuilder)
              (hkids j hjl) (hwfk j hjl) hkasc (hshortk j hjl)
              (by omega) (fun hEq => absurd hEq (by omega)) (by omega)
            rw [hih]
            have hdd : (p.drop cursor).drop
                (strBytes ((sortChildren cs).getD j freshBuilder).pfx).length =
                p.drop (cursor +
                  (strBytes ((sortChildren cs).getD j freshBuilder).pfx).length) := by
              rw [List.drop_drop]
              try congr 1
              try omega
            have hpred : ∀ w ∈ treeWords tf ((sortChildren cs).getD j freshBuilder),
                (isPre (p.drop cursor)
                  (strBytes (((sortChildren cs).getD j freshBuilder).pfx ++ w))) =
                (isPre (p.drop (cursor +
                  (strBytes ((sortChildren cs).getD j freshBuilder).pfx).length))
                  (strBytes w)) := by
              intro w _
              rw [strBytes_append]
              conv_lhs => rw [← List.take_append_drop
                (strBytes ((sortChildren cs).getD j freshBuilder).pfx).length
                (p.drop cursor), ← h1]
              rw [isPre_append_same, hdd]
            rw [hstab, tree_filter_unique hwf hasc hkpne hjl hclpos,
              List.filter_congr hpred, List.map_map]
            refine congrArg Exec.ok ?_
            refine congrArg (List.take k) ?_
            refine List.map_congr_left ?_
            intro v _
            dsimp only [Function.comp]
            rw [strBytes_append, ← List.append_assoc, hbuf]
          · -- mid-edge divergence
            have hres2 : suggestScan N L p k (N.length + 1) s cursor (p.take cursor) =
                .ok (.inl []) := hres
            rw [hres2]
            dsimp only
            have hfilnil : (treeWords tf ((sortChildren cs).getD j freshBuilder)).filter
                (fun w => isPre (p.drop cursor)
                  (strBytes (((sortChildren cs).getD j freshBuilder).pfx ++ w))) = [] := by
              rw [List.filter_eq_nil_iff]
              intro w _ hisp
              have hpre : p.drop cursor <+:
                  strBytes ((sortChildren cs).getD j freshBuilder).pfx ++ strBytes w := by
                rw [← strBytes_append]
                exact isPre_iff.mp hisp
              have hg1 := getD_of_prefix 0 hpre hlt2
              rw [getD_app_left hlt1 0] at hg1
              exact commonPreLen_ne hlt1 hlt2 hg1
            rw [hstab, tree_filter_unique hwf hasc hkpne hjl hclpos, hfilnil,
              List.map_nil, List.map_nil, List.take_nil]
    · rw [if_neg hcur]
      have hceq : cursor = p.length := by omega
      have hlf : t.is_leaf = false := hterm hceq
      have htermN : (nodeAt N i).is_terminal = false := by
        rw [(matches_facts hm).2.2, hlf]
      rw [htermN]
      simp only [Bool.false_eq_true, if_false]
      have hdrop0 : p.drop cursor = [] := by
        rw [hceq]
        exact List.drop_length _
      have htake0 : p.take cursor = p := by
        rw [hceq]
        exact List.take_length _
      have hfilself : (treeWords (tf + 1) t).filter
          (fun w => isPre (p.drop cursor) (strBytes w)) = treeWords (tf + 1) t := by
        rw [hdrop0]
        exact List.filter_eq_self.mpr (fun a _ => rfl)
      cases hm with
      | leafN i pp cs lf hi hlab hterm2 hkids hfc =>
        rw [hfc, if_pos rfl]
        have hnow : ∀ v, ¬ HasWord (BNode.mk pp cs lf) v := by
          intro v hv
          rcases hasWord_inv.mp hv with ⟨_, hlf'⟩ | ⟨kc, n, w', hmem, _, _⟩
          · have hlf2 : lf = false := hlf
            rw [hlf2] at hlf'
            exact Bool.noConfusion hlf'
          · have hnmem : n ∈ sortChildren cs := sortChildren_mem.mpr ⟨kc, hmem⟩
            rw [hkids] at hnmem
            simp at hnmem
        rw [treeWords_empty tf _ hwf hnow, List.filter_nil, List.map_nil, List.take_nil]
      | nodeN i pp cs lf s hi hlab hterm2 hne hfc hs hgt hblock hsib hkids =>
        rw [hfc, if_neg hs]
        have hlen0 : 0 < (sortChildren cs).length := List.length_pos.mpr hne
        have hwfk : ∀ j, j < (sortChildren cs).length →
            WFB ((sortChildren cs).getD j freshBuilder) := by
          intro j hj
          have hmem : (sortChildren cs).getD j freshBuilder ∈ sortChildren cs := by
            rw [List.getD_eq_getElem _ _ hj]
            exact List.getElem_mem _
          rcases sortChildren_mem.mp hmem with ⟨kc, hkc⟩
          exact wfb_children hwf (kc, _) hkc
        have hshortk : ∀ j, j < (sortChildren cs).length → ∀ v,
            HasWord ((sortChildren cs).getD j freshBuilder) v → v.length < tf := by
          intro j hj v hv
          have hmem : (sortChildren cs).getD j freshBuilder ∈ sortChildren cs := by
            rw [List.getD_eq_getElem _ _ hj]
            exact List.getElem_mem _
          rcases sortChildren_mem.mp hmem with ⟨kc, hkc⟩
          have hbig := hshort (((sortChildren cs).getD j freshBuilder).pfx ++ v)
            (HasWord.via pp cs lf kc _ v hkc hv)
          rw [List.length_append] at hbig
          omega
        have hsibs := (collect_mutual (2 * N.length + 2)).2 N L k s 0 tf cs [] p
          hlen0 hblock hkids hwfk hsib hshortk (by omega)
        have hsibs2 : collectSibs N L k (2 * N.length + 2) s p [] = .ok
            ((((sortChildren cs).map
              (fun c => (treeWords tf c).map
                (fun v => (p ++ strBytes c.pfx) ++ strBytes v))).flatten).take k) := by
          have h0 := hsibs
          simp only [List.drop_zero, List.nil_append, List.length_nil,
            Nat.sub_zero] at h0
          exact h0
        rw [hsibs2, hstab, hfilself, htake0]
        rw [treeWords]
        have hlf2 : lf = false := hlf
        rw [hlf2]
        simp only [BNode.is_leaf, BNode.children, Bool.false_eq_true, if_false,
          List.nil_append]
        rw [map_emission]

theorem treeWords_root {ws : List (List Char)} {root : BNode} {tf : Nat}
    (hwf : WFB root) (hasc : AsciiB root) (hleaf : root.is_leaf = false)
    (hword : ∀ v, HasWord root v ↔ v ∈ ws ∧ v ≠ [])
    (hshort : ∀ v, HasWord root v → v.length < tf) :
    treeWords tf root = sortedWords ws := by
  have hr : ∀ a b : List Char,
      (fun a b => lexLe (strBytes a) (strBytes b) = true) a b →
      (fun a b => lexLe (strBytes a) (strBytes b) = true) b a → a = b := by
    intro a b h1 h2
    exact strBytes_inj (lexLe_antisymm h1 h2)
  haveI hanti : IsAntisymm (List Char)
      (fun a b => lexLe (strBytes a) (strBytes b) = true) := ⟨hr⟩
  haveI : IsTotal (List Char)
      (fun a b => lexLe (strBytes a) (strBytes b) = true) :=
    ⟨fun a b => lexLe_total _ _⟩
  haveI : IsTrans (List Char)
      (fun a b => lexLe (strBytes a) (strBytes b) = true) :=
    ⟨fun a b c h1 h2 => lexLe_trans h1 h2⟩
  have hs1 : (treeWords tf root).Sorted
      (fun a b => lexLe (strBytes a) (strBytes b) = true) :=
    List.Pairwise.imp (fun h => lexLe_of_lexLt h) (treeWords_sorted tf root hwf hasc)
  have hs2 : (sortedWords ws).Sorted
      (fun a b => lexLe (strBytes a) (strBytes b) = true) := by
    rw [sortedWords]
    exact List.sorted_insertionSort _ _
  have hnd1 : (treeWords tf root).Nodup := by
    refine List.Pairwise.imp ?_ (treeWords_sorted tf root hwf hasc)
    intro a b h he
    subst he
    rw [lexLt_irrefl] at h
    exact Bool.noConfusion h
  have hnd2 : (sortedWords ws).Nodup := by
    rw [sortedWords]
    exact ((List.perm_insertionSort _ _).nodup_iff).mpr (List.nodup_dedup _)
  have hmem : ∀ v, v ∈ treeWords tf root ↔ v ∈ sortedWords ws := by
    intro v
    constructor
    · intro hv
      rcases treeWords_sound tf root v hwf hv with ⟨hv0, hlf⟩ | hw
      · rw [hlf] at hleaf
        exact Bool.noConfusion hleaf
      · rcases (hword v).mp hw with ⟨hmem2, hne⟩
        rw [sortedWords]
        rw [(List.perm_insertionSort _ _).mem_iff]
        rw [List.mem_dedup, List.mem_filter]
        refine ⟨hmem2, ?_⟩
        simp [hne]
    · intro hv
      rw [sortedWords, (List.perm_insertionSort _ _).mem_iff, List.mem_dedup,
        List.mem_filter] at hv
      rcases hv with ⟨hmem2, hne⟩
      have hne2 : v ≠ [] := by
        intro he
        rw [he] at hne
        simp at hne
      have hw : HasWord root v := (hword v).mpr ⟨hmem2, hne2⟩
      exact treeWords_complete tf root v hwf (Or.inr hw) (hshort v hw)
  exact List.eq_of_perm_of_sorted
    ((List.perm_ext_iff_of_nodup hnd1 hnd2).mpr hmem) hs1 hs2

/-- C2: for every 7-bit word set, `suggest(p, k)` returns exactly the
inserted words having `p` as a byte prefix, in ascending byte-lexicographic
order, truncated to the first `k` — for every prefix and every `k`,
including `k = 0`.  (The restriction to 7-bit insertions is the
correction: with multi-byte labels the sibling scan can commit to the
wrong child, see the counterexample.) -/
theorem claim_C2 {ws : List (List Char)} {root : BNode} {fuel : Nat}
    {N : List CompactNode} {L : List Nat}
    (hins : insertAll ws = .ok root)
    (hascW : ∀ w ∈ ws, allAscii w)
    (hbuild : TrieBuilder.build fuel root = .ok (N, L))
    (hN : N.length ≤ COMPACT_NONE) (p : List Char) (k : Nat) :
    CompactRadixTrie.suggest N L p k = .ok (expectedSuggest ws p k) := by
  rcases insertAll_spec hins with ⟨hwf, hpfx, hleaf, hword⟩
  have hwf0 : WFB freshBuilder := WFB.mk _ _ _ (by simp) (by simp) (by simp) (by simp)
  have hasc0 : AsciiB freshBuilder :=
    AsciiB.mk [] [] false (fun c hc => absurd hc (List.not_mem_nil c))
      (fun kn hkn => absurd hkn (List.not_mem_nil kn))
  have hins2 := hins
  unfold insertAll at hins2
  have hascB : AsciiB root := (insertFold_ascii ws freshBuilder root hwf0 hasc0
    hascW hins2).1
  rcases build_spec hbuild hwf hN with ⟨hm, hlen⟩
  have hshort : ∀ v, HasWord root v → v.length < (ws.map List.length).sum + 1 := by
    intro v hv
    have hvm : v ∈ ws := ((hword v).mp hv).1
    have hle : v.length ≤ (ws.map List.length).sum :=
      List.single_le_sum (fun y _ => Nat.zero_le y) v.length
        (List.mem_map.mpr ⟨v, hvm, rfl⟩)
    omega
  have hloop : suggestLoop N L (strBytes p) k ((strBytes p).length + 1) 0 0 [] =
      .ok ((((treeWords ((ws.map List.length).sum + 1) root).filter
        (fun w => isPre (strBytes p) (strBytes w))).map strBytes).take k) :=
    suggestLoop_spec ((strBytes p).length + 1) N L (strBytes p) k 0 0
      ((ws.map List.length).sum + 1) root hm hwf hascB hshort (Nat.zero_le _)
      (fun _ => hleaf) (by omega)
  rw [CompactRadixTrie.suggest, hloop,
    treeWords_root hwf hascB hleaf hword hshort]
  rfl

/-- C2 counterexample: with the two words `"é"` and `"è"` (whose UTF-8
encodings share their first byte), `suggest("é", 10)` returns no results
even though `contains("é")` is true and the expected result is the word
itself: the descent commits to the first sibling with a non-zero byte
LCP, which is the wrong child. -/
theorem claim_C2_counter :
    ∃ (root : BNode) (N : List CompactNode) (L : List Nat),
      insertAll [['é'], ['è']] = .ok root ∧
      TrieBuilder.build 10 root = .ok (N, L) ∧
      N.length ≤ COMPACT_NONE ∧
      CompactRadixTrie.contains N L ['é'] = .ok true ∧
      CompactRadixTrie.suggest N L ['é'] 10 = .ok [] ∧
      expectedSuggest [['é'], ['è']] ['é'] 10 = [strBytes ['é']] := by
  refine ⟨_, _, _, rfl, rfl, by decide, rfl, rfl, by decide⟩

theorem claim_C2_witness :
    ∃ (root : BNode) (N : List CompactNode) (L : List Nat),
      insertAll [['a', 'b'], ['a']] = .ok root ∧
      TrieBuilder.build 10 root = .ok (N, L) ∧
      CompactRadixTrie.suggest N L ['a'] 2 =
        .ok (expectedSuggest [['a', 'b'], ['a']] ['a'] 2) := by
  refine ⟨_, _, _, rfl, rfl, ?_⟩
  exact @claim_C2 [['a', 'b'], ['a']] _ 10 _ _ rfl
    (by unfold allAscii; decide) rfl (by decide) ['a'] 2

theorem labOK_inv {p : List Char} {cs : List (Char × BNode)} {lf : Bool}
    (h : LabOK ⟨p, cs, lf⟩) : strLen p ≤ 127 ∧ ∀ kn ∈ cs, LabOK kn.2 := by
  cases h with
  | mk p cs lf hp hrec => exact ⟨hp, hrec⟩

theorem countT_eq (c : BNode) : countT c = 1 + countL c.children := by
  cases c with
  | mk p cs lf => rfl

theorem countT_pos (c : BNode) : 1 ≤ countT c := by
  cases c with
  | mk p cs lf => rw [countT]; omega

theorem countL_eq : ∀ cs : List (Char × BNode),
    countL cs = (cs.map (fun kn => countT kn.2)).sum := by
  intro cs
  induction cs with
  | nil => rfl
  | cons kn rest ih => rw [countL, List.map_cons, List.sum_cons, ih]

theorem sum_sortChildren (cs : List (Char × BNode)) :
    ((sortChildren cs).map countT).sum = countL cs := by
  rw [countL_eq]
  have hperm : ((sortChildren cs).map countT).Perm
      ((cs.map Prod.snd).map countT) :=
    ((List.perm_insertionSort _ _)).map countT
  rw [hperm.sum_eq, List.map_map]
  rfl

theorem kidsum : ∀ kids : List BNode,
    (kids.map (fun c => countL c.children)).sum + kids.length =
      (kids.map countT).sum := by
  intro kids
  induction kids with
  | nil => rfl
  | cons c rest ih =>
    rw [List.map_cons, List.map_cons, List.sum_cons, List.sum_cons, List.length_cons,
      countT_eq c]
    omega

theorem map_range_getD {α β : Type} (g : α → β) (d : α) :
    ∀ l : List α, (List.range l.length).map (fun j => g (l.getD j d)) = l.map g := by
  intro l
  refine List.ext_getElem (by simp) ?_
  intro i h1 h2
  simp only [List.getElem_map, List.getElem_range]
  rw [List.getD_eq_getElem l d (by simpa using h2)]

theorem countL_ge_len (cs : List (Char × BNode)) : cs.length ≤ countL cs := by
  induction cs with
  | nil => exact Nat.le_refl _
  | cons kn rest ih =>
    rw [countL, List.length_cons]
    have := countT_pos kn.2
    omega

theorem buildKids_total (start n : Nat) :
    ∀ (kids : List BNode) (i : Nat) (nodes : List CompactNode) (labels : List Nat)
      (newq : List (Nat × BNode)),
      (∀ c ∈ kids, strLen c.pfx ≤ 127) →
      ∃ nodes2 labels2 newq2,
        buildKids start n i kids nodes labels newq = .ok (nodes2, labels2, newq2) := by
  intro kids
  induction kids with
  | nil =>
    intro i nodes labels newq _
    exact ⟨nodes, labels, newq, rfl⟩
  | cons hd rest ih =>
    intro i nodes labels newq hall
    rw [buildKids]
    rw [if_neg (by have := hall hd (List.mem_cons_self _ _); omega)]
    exact ih (i + 1) _ _ _ (fun c hc => hall c (List.mem_cons_of_mem _ hc))

theorem labOK_pfx {t : BNode} (h : LabOK t) : strLen t.pfx ≤ 127 := by
  cases t with
  | mk p cs lf => exact (labOK_inv h).1

theorem labOK_children {t : BNode} (h : LabOK t) : ∀ kn ∈ t.children, LabOK kn.2 := by
  cases t with
  | mk p cs lf => exact (labOK_inv h).2

theorem qCount_cons (it : Nat × BNode) (q : List (Nat × BNode)) :
    qCount (it :: q) = countL (it.2 : BNode).children + qCount q := by
  rw [qCount, List.map_cons, List.sum_cons]
  rfl

theorem qCount_append (q1 q2 : List (Nat × BNode)) :
    qCount (q1 ++ q2) = qCount q1 + qCount q2 := by
  rw [qCount, List.map_append, List.sum_append]
  rfl

theorem qCount_map_range (kids : List BNode) (f : Nat → Nat) :
    qCount ((List.range kids.length).map (fun j => (f j, kids.getD j freshBuilder))) =
      (kids.map (fun c => countL c.children)).sum := by
  rw [qCount, List.map_map]
  have hc : ((fun it => countL ((it : Nat × BNode).2 : BNode).children) ∘
      (fun j => (f j, kids.getD j freshBuilder))) =
      (fun j => (fun c : BNode => countL c.children) (kids.getD j freshBuilder)) := rfl
  rw [hc, map_range_getD (fun c : BNode => countL c.children) freshBuilder kids]

theorem patch_slice (labels : List Nat) (n : CompactNode) (s : Nat) (hs : s < 2 ^ 23)
    (hp : n.packed < 2 ^ 32) :
    labelSliceAt labels (patchFirstChild n s) = labelSliceAt labels n := by
  rcases patch_spec n s hs hp with ⟨p1, p2, p3, p4⟩
  rw [labelSliceAt, labelSliceAt, p2, label_len_hi, label_len_hi, p3]

theorem buildLoop_total :
    ∀ (fuel : Nat) (q : List (Nat × BNode)) (nodes : List CompactNode) (labels : List Nat),
      (∀ it ∈ q, LabOK it.2) →
      (∀ cn ∈ nodes, (∃ bs, labelSliceAt labels cn = some bs) ∧ cn.packed < 2 ^ 32) →
      nodes.length + qCount q ≤ 2 ^ 23 →
      q.length + qCount q < fuel →
      ∃ nodes2 labels2, buildLoop fuel nodes labels q = .ok (nodes2, labels2) ∧
        nodes2.length = nodes.length + qCount q ∧
        (∀ cn ∈ nodes2, (∃ bs, labelSliceAt labels2 cn = some bs) ∧
          cn.packed < 2 ^ 32) := by
  intro fuel
  induction fuel with
  | zero =>
    intro q nodes labels _ _ _ hfuel
    omega
  | succ fuel ih =>
    intro q nodes labels hq hgood hcnt hfuel
    cases q with
    | nil =>
      exact ⟨nodes, labels, rfl, rfl, hgood⟩
    | cons it qrest =>
      rcases it with ⟨pidx, src⟩
      rw [buildLoop]
      by_cases he : src.children.isEmpty = true
      · rw [if_pos he]
        have hc0 : countL src.children = 0 := by
          rw [List.isEmpty_iff] at he
          rw [he]
          rfl
        have hqc : qCount ((pidx, src) :: qrest) = qCount qrest := by
          rw [qCount_cons]
          dsimp only
          rw [hc0, Nat.zero_add]
        rcases ih qrest nodes labels (fun it2 h2 => hq it2 (List.mem_cons_of_mem _ h2))
          hgood (by rw [hqc] at hcnt; exact hcnt)
          (by rw [hqc] at hfuel; simp only [List.length_cons] at hfuel; omega) with
          ⟨n2, l2, hrun, hlen, hg2⟩
        exact ⟨n2, l2, hrun, by rw [hqc]; exact hlen, hg2⟩
      · rw [if_neg he]
        dsimp only
        have hne : src.children ≠ [] := by
          intro h0
          rw [h0] at he
          exact he rfl
        have hlsrc : LabOK src := hq (pidx, src) (List.mem_cons_self _ _)
        have hkl : ∀ c ∈ sortChildren src.children, strLen c.pfx ≤ 127 := by
          intro c hc
          rcases sortChildren_mem.mp hc with ⟨kc, hkc⟩
          exact labOK_pfx (labOK_children hlsrc (kc, c) hkc)
        have hclen : src.children.length ≤ countL src.children := countL_ge_len _
        have hclpos : 1 ≤ countL src.children := by
          have h1 : 0 < src.children.length := List.length_pos.mpr hne
          omega
        have hqx : qCount ((pidx, src) :: qrest) =
            countL src.children + qCount qrest := qCount_cons (pidx, src) qrest
        have hstart : ¬ (0x007FFFFF < nodes.length) := by
          rw [hqx] at hcnt
          omega
        rw [if_neg hstart]
        rcases buildKids_total nodes.length (sortChildren src.children).length
          (sortChildren src.children) 0
          (nodes.set pidx (patchFirstChild (nodes.getD pidx default) nodes.length))
          labels [] hkl with ⟨nodes2', labels2', newq, hbk⟩
        rw [hbk]
        dsimp only
        rcases buildKids_spec nodes.length (sortChildren src.children).length
          (sortChildren src.children) 0 _ labels [] nodes2' labels2' newq hbk with
          ⟨k1, k2, k3, k4, k5⟩
        have hsetlen : (nodes.set pidx (patchFirstChild (nodes.getD pidx default)
            nodes.length)).length = nodes.length := List.length_set _ _ _
        have hn2len : nodes2'.length =
            nodes.length + (sortChildren src.children).length := by
          rw [k1, hsetlen]
        have hnql : newq.length = (sortChildren src.children).length := by
          rw [k4]
          simp only [List.nil_append, List.length_map, List.length_range]
        have hqnew : qCount newq = ((sortChildren src.children).map
            (fun c => countL c.children)).sum := by
          rw [k4, List.nil_append]
          exact qCount_map_range _ _
        have hsum : (sortChildren src.children).length + qCount newq =
            countL src.children := by
          rw [hqnew]
          have hk := kidsum (sortChildren src.children)
          rw [sum_sortChildren] at hk
          omega
        have hq2 : ∀ it2 ∈ qrest ++ newq, LabOK it2.2 := by
          intro it2 h2
          rcases List.mem_append.mp h2 with h2 | h2
          · exact hq it2 (List.mem_cons_of_mem _ h2)
          · rw [k4, List.nil_append] at h2
            rcases List.mem_map.mp h2 with ⟨j, hjr, hje⟩
            rw [← hje]
            dsimp only
            have hjlen : j < (sortChildren src.children).length := List.mem_range.mp hjr
            have hmem2 : (sortChildren src.children).getD j freshBuilder ∈
                sortChildren src.children := by
              rw [List.getD_eq_getElem _ _ hjlen]
              exact List.getElem_mem _
            rcases sortChildren_mem.mp hmem2 with ⟨kc, hkc⟩
            exact labOK_children hlsrc (kc, _) hkc
        have hgood2 : ∀ cn ∈ nodes2',
            (∃ bs, labelSliceAt labels2' cn = some bs) ∧ cn.packed < 2 ^ 32 := by
          intro cn hcn
          rcases List.mem_iff_getElem.mp hcn with ⟨jj, hjj, hje⟩
          have hcn2 : cn = nodeAt nodes2' jj := by
            rw [nodeAt, List.getD_eq_getElem _ _ hjj, hje]
          by_cases hlt : jj < nodes.length
          · have hk3 := k3 jj (by rw [hsetlen]; exact hlt)
            by_cases hpe : jj = pidx
            · subst hpe
              have hset : nodeAt (nodes.set jj (patchFirstChild (nodes.getD jj default)
                  nodes.length)) jj = patchFirstChild (nodes.getD jj default)
                  nodes.length := nodeAt_set_self _ hlt
              rcases hgood (nodeAt nodes jj) (nodeAt_mem hlt) with ⟨⟨bs, hbs⟩, hp32⟩
              have hp32d : (nodes.getD jj default).packed < 2 ^ 32 := hp32
              have hps := patch_slice labels (nodes.getD jj default) nodes.length
                (by omega) hp32d
              have hbs2 : labelSliceAt labels (nodes.getD jj default) = some bs := hbs
              rcases patch_spec (nodes.getD jj default) nodes.length (by omega)
                hp32d with ⟨p1, p2, p3, p4⟩
              constructor
              · refine ⟨bs, ?_⟩
                rw [hcn2, hk3, hset]
                exact labelSliceAt_prefix_stable k2 (by rw [hps]; exact hbs2)
              · rw [hcn2, hk3, hset]
                exact p4
            · have hset : nodeAt (nodes.set pidx (patchFirstChild
                  (nodes.getD pidx default) nodes.length)) jj = nodeAt nodes jj :=
                nodeAt_set_ne _ (fun hh => hpe hh.symm)
              rcases hgood (nodeAt nodes jj) (nodeAt_mem hlt) with ⟨⟨bs, hbs⟩, hp32⟩
              constructor
              · refine ⟨bs, ?_⟩
                rw [hcn2, hk3, hset]
                exact labelSliceAt_prefix_stable k2 hbs
              · rw [hcn2, hk3, hset]
                exact hp32
          · have hjlt : jj - nodes.length < (sortChildren src.children).length := by
              rw [hn2len] at hjj
              omega
            rcases k5 (jj - nodes.length) hjlt with ⟨⟨ls, hnew⟩, hslice, _⟩
            rw [hsetlen] at hnew hslice
            have hje2 : nodes.length + (jj - nodes.length) = jj := by omega
            rw [hje2] at hnew hslice
            constructor
            · exact ⟨_, by rw [hcn2]; exact hslice⟩
            · rw [hcn2, hnew]
              exact (new_spec _ _ _ _ _).2.2.2.2.2
        have hcnt2 : nodes2'.length + qCount (qrest ++ newq) ≤ 2 ^ 23 := by
          rw [hn2len, qCount_append]
          rw [hqx] at hcnt
          omega
        have hfl2 : (qrest ++ newq).length + qCount (qrest ++ newq) < fuel := by
          rw [List.length_append, hnql, qCount_append]
          rw [hqx] at hfuel
          simp only [List.length_cons] at hfuel
          omega
        rcases ih (qrest ++ newq) nodes2' labels2' hq2 hgood2 hcnt2 hfl2 with
          ⟨n3, l3, hrun, hlen3, hg3⟩
        refine ⟨n3, l3, hrun, ?_, hg3⟩
        rw [hlen3, hn2len, qCount_append, hqx]
        omega

theorem buildFlatten_total {root : BNode} {fuel : Nat}
    (hl : LabOK root) (hcnt : countT root ≤ 2 ^ 23) (hfuel : countT root < fuel) :
    ∃ N L, buildFlatten fuel root = .ok (N, L) ∧ N.length = countT root ∧
      (∀ cn ∈ N, ∃ bs, labelSliceAt L cn = some bs) := by
  have h127 : strLen root.pfx ≤ 127 := labOK_pfx hl
  rw [buildFlatten, if_neg (by omega)]
  have hll0 : (CompactNode.new 0 COMPACT_NONE (strLen root.pfx) root.is_leaf
      false).label_len = strLen root.pfx := by
    rw [(new_spec _ _ _ _ _).2.2.1]
    exact Nat.mod_eq_of_lt (by omega)
  have hslice0 : labelSliceAt (strBytes root.pfx)
      (CompactNode.new 0 COMPACT_NONE (strLen root.pfx) root.is_leaf false) =
      some (strBytes root.pfx) := by
    rw [labelSliceAt, (new_spec _ _ _ _ _).1, hll0]
    have hsl : strLen root.pfx = (strBytes root.pfx).length := rfl
    rw [if_pos (by omega)]
    simp [hsl]
  have hgood0 : ∀ cn ∈ [CompactNode.new 0 COMPACT_NONE (strLen root.pfx)
      root.is_leaf false],
      (∃ bs, labelSliceAt (strBytes root.pfx) cn = some bs) ∧
        cn.packed < 2 ^ 32 := by
    intro cn hcn
    rw [List.mem_singleton] at hcn
    subst hcn
    exact ⟨⟨strBytes root.pfx, hslice0⟩, (new_spec _ _ _ _ _).2.2.2.2.2⟩
  have hq0 : ∀ it ∈ [((0 : Nat), root)], LabOK (it.2 : BNode) := by
    intro it hit
    rw [List.mem_singleton] at hit
    subst hit
    exact hl
  have hq1 : qCount [((0 : Nat), root)] = countL root.children := rfl
  have hce := countT_eq root
  rcases buildLoop_total fuel [((0 : Nat), root)]
    [CompactNode.new 0 COMPACT_NONE (strLen root.pfx) root.is_leaf false]
    (strBytes root.pfx) hq0 hgood0
    (by simp only [List.length_singleton, hq1]; omega)
    (by simp only [List.length_singleton, hq1]; omega) with
    ⟨N, L, hrun, hlen, hgd⟩
  refine ⟨N, L, hrun, ?_, fun cn hcn => (hgd cn hcn).1⟩
  rw [hlen]
  simp only [List.length_singleton, hq1]
  omega

theorem dedupLabels_total (labels : List Nat) :
    ∀ (nodes : List CompactNode) (us0 : List (List Char)) (ids0 : List Nat),
      (∀ cn ∈ nodes, ∃ bs, labelSliceAt labels cn = some bs) →
      ∃ us ids, dedupLabels labels nodes us0 ids0 = some (us, ids) := by
  intro nodes
  induction nodes with
  | nil =>
    intro us0 ids0 _
    exact ⟨us0, ids0, rfl⟩
  | cons node rest ih =>
    intro us0 ids0 hall
    rw [dedupLabels]
    rcases hall node (List.mem_cons_self _ _) with ⟨bs, hbs⟩
    rw [hbs]
    dsimp only
    cases hsi : strIdx us0 (utf8DecodeLossy bs) with
    | some id =>
      dsimp only
      exact ih _ _ (fun cn hcn => hall cn (List.mem_cons_of_mem _ hcn))
    | none =>
      dsimp only
      exact ih _ _ (fun cn hcn => hall cn (List.mem_cons_of_mem _ hcn))

theorem compress_labels_total {labels : List Nat} {nodes : List CompactNode}
    (hne : nodes ≠ [])
    (hall : ∀ cn ∈ nodes, ∃ bs, labelSliceAt labels cn = some bs) :
    ∃ out, compress_labels labels nodes = some out := by
  rw [compress_labels]
  rcases dedupLabels_total labels nodes [] [] hall with ⟨us, ids, hd⟩
  rw [hd]
  dsimp only
  have hus : ¬ us.length = 0 := by
    rcases dedupLabels_spec labels nodes [] [] us ids hd with ⟨_, _, _, _, _, d6⟩
    cases nodes with
    | nil => exact absurd rfl hne
    | cons n0 nrest =>
      rcases d6 0 (by simp) with ⟨bs2, _, hlt, _⟩
      omega
  rw [if_neg hus]
  exact ⟨_, rfl⟩

theorem build_total {root : BNode} {fuel : Nat}
    (hl : LabOK root) (hcnt : countT root ≤ 2 ^ 23) (hfuel : countT root < fuel) :
    ∃ N L, TrieBuilder.build fuel root = .ok (N, L) ∧ N.length = countT root := by
  rcases buildFlatten_total hl hcnt hfuel with ⟨N0, L0, hrun, hlen, hgd⟩
  rw [TrieBuilder.build, hrun]
  dsimp only
  have hne : N0 ≠ [] := by
    intro h0
    rw [h0] at hlen
    have := countT_pos root
    simp only [List.length_nil] at hlen
    omega
  rcases compress_labels_total hne hgd with ⟨⟨labels2, nodes2⟩, hcl⟩
  rw [hcl]
  refine ⟨nodes2, labels2, rfl, ?_⟩
  rcases compress_labels_frame hcl with ⟨hl2, _⟩
  rw [hl2, hlen]

theorem chainB_labOK : ∀ n, LabOK (chainB n) := by
  intro n
  induction n with
  | zero => exact LabOK.mk _ _ _ (by decide) (by simp)
  | succ m ih =>
    refine LabOK.mk _ _ _ (by decide) ?_
    intro kn hkn
    rw [List.mem_singleton] at hkn
    subst hkn
    exact ih

theorem chainB_count : ∀ n, countT (chainB n) = n + 1 := by
  intro n
  induction n with
  | zero => rfl
  | succ m ih =>
    rw [chainB, countT, countL]
    dsimp only
    rw [ih, countL]
    omega

/-- C7 counterexample: a chain of exactly `2^23` single-child nodes
builds successfully — no `TrieTooLarge` — even though its node count
`2^23` exceeds the claimed `2^23 - 1` limit: the size check fires only
when a child block would START past `0x7FFFFF`, so the last pushed
node may occupy index `0x7FFFFF` (colliding with the `COMPACT_NONE`
sentinel) and the total may reach `2^23`. -/
theorem claim_C7_counter :
    ∃ N L, TrieBuilder.build (2 ^ 23 + 1) (chainB (2 ^ 23 - 1)) = .ok (N, L) ∧
      2 ^ 23 - 1 < N.length := by
  have hc : countT (chainB (2 ^ 23 - 1)) = 2 ^ 23 := by
    rw [chainB_count]
    omega
  rcases @build_total (chainB (2 ^ 23 - 1)) (2 ^ 23 + 1) (chainB_labOK _)
    (by rw [hc]) (by rw [hc]; omega) with ⟨N, L, hrun, hlen⟩
  exact ⟨N, L, hrun, by rw [hlen, hc]; omega⟩

theorem labOK_of {t : BNode} (h1 : strLen t.pfx ≤ 127)
    (h2 : ∀ kn ∈ t.children, LabOK kn.2) : LabOK t := by
  cases t with
  | mk p cs lf => exact LabOK.mk p cs lf h1 h2

theorem buildKids_bad (start n : Nat) :
    ∀ (kids : List BNode) (i : Nat) (nodes : List CompactNode) (labels : List Nat)
      (newq : List (Nat × BNode)) (c : BNode), c ∈ kids → 127 < strLen c.pfx →
      buildKids start n i kids nodes labels newq = .panic .labelTooLong := by
  intro kids
  induction kids with
  | nil =>
    intro i nodes labels newq c hc _
    simp at hc
  | cons hd rest ih =>
    intro i nodes labels newq c hc hlong
    rw [buildKids]
    by_cases hh : 127 < strLen hd.pfx
    · rw [if_pos hh]
    · rw [if_neg hh]
      rcases List.mem_cons.mp hc with he2 | hm
      · subst he2
        omega
      · exact ih (i + 1) _ _ _ c hm hlong

theorem buildLoop_bad :
    ∀ (fuel : Nat) (q : List (Nat × BNode)) (nodes : List CompactNode) (labels : List Nat),
      (∀ it ∈ q, strLen (it.2 : BNode).pfx ≤ 127) →
      (∃ it ∈ q, ¬ LabOK (it.2 : BNode)) →
      nodes.length + qCount q ≤ 2 ^ 23 →
      q.length + qCount q < fuel →
      buildLoop fuel nodes labels q = .panic .labelTooLong := by
  intro fuel
  induction fuel with
  | zero =>
    intro q nodes labels _ _ _ hfuel
    omega
  | succ fuel ih =>
    intro q nodes labels hown hbad hcnt hfuel
    cases q with
    | nil =>
      rcases hbad with ⟨it, hit, _⟩
      simp at hit
    | cons it0 qrest =>
      rcases it0 with ⟨pidx, src⟩
      rw [buildLoop]
      by_cases he : src.children.isEmpty = true
      · rw [if_pos he]
        have hchil : src.children = [] := List.isEmpty_iff.mp he
        have hsrcOK : LabOK src := labOK_of
          (hown (pidx, src) (List.mem_cons_self _ _))
          (by rw [hchil]; intro kn hkn; simp at hkn)
        have hc0 : countL src.children = 0 := by
          rw [hchil]
          rfl
        have hqc : qCount ((pidx, src) :: qrest) = qCount qrest := by
          rw [qCount_cons]
          dsimp only
          rw [hc0, Nat.zero_add]
        have hbad2 : ∃ it2 ∈ qrest, ¬ LabOK (it2.2 : BNode) := by
          rcases hbad with ⟨it, hit, hnl⟩
          rcases List.mem_cons.mp hit with heq | hm
          · exfalso
            apply hnl
            rw [heq]
            exact hsrcOK
          · exact ⟨it, hm, hnl⟩
        exact ih qrest nodes labels (fun it2 h2 => hown it2 (List.mem_cons_of_mem _ h2))
          hbad2 (by rw [hqc] at hcnt; exact hcnt)
          (by rw [hqc] at hfuel; simp only [List.length_cons] at hfuel; omega)
      · rw [if_neg he]
        dsimp only
        have hne : src.children ≠ [] := by
          intro h0
          rw [h0] at he
          exact he rfl
        have hclen : src.children.length ≤ countL src.children := countL_ge_len _
        have hclpos : 1 ≤ countL src.children := by
          have h1 : 0 < src.children.length := List.length_pos.mpr hne
          omega
        have hqx : qCount ((pidx, src) :: qrest) =
            countL src.children + qCount qrest := qCount_cons (pidx, src) qrest
        have hstart : ¬ (0x007FFFFF < nodes.length) := by
          rw [hqx] at hcnt
          omega
        rw [if_neg hstart]
        by_cases hlong : ∃ c ∈ sortChildren src.children, 127 < strLen c.pfx
        · rcases hlong with ⟨c, hc, hlc⟩
          rw [buildKids_bad nodes.length (sortChildren src.children).length
            (sortChildren src.children) 0
            (nodes.set pidx (patchFirstChild (nodes.getD pidx default) nodes.length))
            labels [] c hc hlc]
        · push_neg at hlong
          have hkl : ∀ c ∈ sortChildren src.children, strLen c.pfx ≤ 127 := hlong
          rcases buildKids_total nodes.length (sortChildren src.children).length
            (sortChildren src.children) 0
            (nodes.set pidx (patchFirstChild (nodes.getD pidx default) nodes.length))
            labels [] hkl with ⟨nodes2', labels2', newq, hbk⟩
          rw [hbk]
          dsimp only
          rcases buildKids_spec nodes.length (sortChildren src.children).length
            (sortChildren src.children) 0 _ labels [] nodes2' labels2' newq hbk with
            ⟨k1, k2, k3, k4, k5⟩
          have hsetlen : (nodes.set pidx (patchFirstChild (nodes.getD pidx default)
              nodes.length)).length = nodes.length := List.length_set _ _ _
          have hn2len : nodes2'.length =
              nodes.length + (sortChildren src.children).length := by
            rw [k1, hsetlen]
          have hnql : newq.length = (sortChildren src.children).length := by
            rw [k4]
            simp only [List.nil_append, List.length_map, List.length_range]
          have hqnew : qCount newq = ((sortChildren src.children).map
              (fun c => countL c.children)).sum := by
            rw [k4, List.nil_append]
            exact qCount_map_range _ _
          have hsum : (sortChildren src.children).length + qCount newq =
              countL src.children := by
            rw [hqnew]
            have hk := kidsum (sortChildren src.children)
            rw [sum_sortChildren] at hk
            omega
          have hown2 : ∀ it2 ∈ qrest ++ newq, strLen (it2.2 : BNode).pfx ≤ 127 := by
            intro it2 h2
            rcases List.mem_append.mp h2 with h2 | h2
            · exact hown it2 (List.mem_cons_of_mem _ h2)
            · rw [k4, List.nil_append] at h2
              rcases List.mem_map.mp h2 with ⟨j, hjr, hje⟩
              rw [← hje]
              dsimp only
              have hjlen : j < (sortChildren src.children).length :=
                List.mem_range.mp hjr
              have hmem2 : (sortChildren src.children).getD j freshBuilder ∈
                  sortChildren src.children := by
                rw [List.getD_eq_getElem _ _ hjlen]
                exact List.getElem_mem _
              exact hkl _ hmem2
          have hbad2 : ∃ it2 ∈ qrest ++ newq, ¬ LabOK (it2.2 : BNode) := by
            rcases hbad with ⟨it, hit, hnl⟩
            rcases List.mem_cons.mp hit with heq | hm
            · have hnsrc : ¬ LabOK src := by
                rw [heq] at hnl
                exact hnl
              have hexk : ∃ kn ∈ src.children, ¬ LabOK (kn.2 : BNode) := by
                by_contra hall
                push_neg at hall
                exact hnsrc (labOK_of (hown (pidx, src) (List.mem_cons_self _ _)) hall)
              rcases hexk with ⟨kn, hkn, hknb⟩
              have hknmem : (kn.2 : BNode) ∈ sortChildren src.children :=
                sortChildren_mem.mpr ⟨kn.1, by simpa using hkn⟩
              rcases sortChildren_idx hknmem with ⟨j, hjlen, hje⟩
              refine ⟨(nodes.length + 0 + j,
                (sortChildren src.children).getD j freshBuilder), ?_, ?_⟩
              · refine List.mem_append_right _ ?_
                rw [k4, List.nil_append]
                exact List.mem_map.mpr ⟨j, List.mem_range.mpr hjlen, rfl⟩
              · dsimp only
                rw [hje]
                exact hknb
            · exact ⟨it, List.mem_append_left _ hm, hnl⟩
          refine ih (qrest ++ newq) nodes2' labels2' hown2 hbad2 ?_ ?_
          · rw [hn2len, qCount_append]
            rw [hqx] at hcnt
            omega
          · rw [List.length_append, hnql, qCount_append]
            rw [hqx] at hfuel
            simp only [List.length_cons] at hfuel
            omega

theorem buildFlatten_bad {root : BNode} {fuel : Nat}
    (hcnt : countT root ≤ 2 ^ 23) (hfuel : countT root < fuel)
    (hbad : ¬ LabOK root) :
    buildFlatten fuel root = .panic .labelTooLong := by
  rw [buildFlatten]
  by_cases h127 : 127 < strLen root.pfx
  · rw [if_pos h127]
  · rw [if_neg h127]
    have hq1 : qCount [((0 : Nat), root)] = countL root.children := rfl
    have hce := countT_eq root
    refine buildLoop_bad fuel [((0 : Nat), root)] _ _ ?_ ?_ ?_ ?_
    · intro it hit
      rw [List.mem_singleton] at hit
      subst hit
      exact Nat.le_of_not_lt h127
    · exact ⟨((0 : Nat), root), List.mem_singleton.mpr rfl, hbad⟩
    · simp only [List.length_singleton, hq1]
      omega
    · simp only [List.length_singleton, hq1]
      omega

theorem build_bad {root : BNode} {fuel : Nat}
    (hcnt : countT root ≤ 2 ^ 23) (hfuel : countT root < fuel)
    (hbad : ¬ LabOK root) :
    TrieBuilder.build fuel root = .panic .labelTooLong := by
  rw [TrieBuilder.build, buildFlatten_bad hcnt hfuel hbad]

/-- C7: within the spec's size regime (at most `2^23` nodes, fuel past
the node count), `build` fails with `LabelTooLong` exactly when some
edge label of the tree exceeds 127 bytes — whether the root's own label
or any descendant's, such as a long label created by inserting a long
word and caught by the per-child check of the BFS loop — and completes
normally otherwise.  The node-count bound `2^23` is one more than the
claim's `2^23 - 1`: the `TrieTooLarge` check only constrains where a
child block may start, not the final node count (see the
counterexample). -/
theorem claim_C7 (root : BNode) (fuel : Nat)
    (hcnt : countT root ≤ 2 ^ 23) (hfuel : countT root < fuel) :
    (¬ LabOK root → TrieBuilder.build fuel root = .panic .labelTooLong) ∧
    (LabOK root → ∃ N L, TrieBuilder.build fuel root = .ok (N, L) ∧
      N.length = countT root) :=
  ⟨fun hbad => build_bad hcnt hfuel hbad, fun hok => build_total hok hcnt hfuel⟩

set_option maxRecDepth 10000 in
theorem claim_C7_witness :
    insertAll [List.replicate 127 'a'] =
      .ok ⟨[], [('a', ⟨List.replicate 127 'a', [], true⟩)], false⟩ ∧
    insertAll [List.replicate 128 'a'] =
      .ok ⟨[], [('a', ⟨List.replicate 128 'a', [], true⟩)], false⟩ ∧
    (∃ N L, TrieBuilder.build 3
        ⟨[], [('a', ⟨List.replicate 127 'a', [], true⟩)], false⟩ = .ok (N, L) ∧
      N.length = countT ⟨[], [('a', ⟨List.replicate 127 'a', [], true⟩)], false⟩) ∧
    TrieBuilder.build 3 ⟨[], [('a', ⟨List.replicate 128 'a', [], true⟩)], false⟩ =
      .panic .labelTooLong := by
  refine ⟨rfl, rfl, ?_, ?_⟩
  · refine (claim_C7 (⟨[], [('a', ⟨List.replicate 127 'a', [], true⟩)], false⟩ : BNode)
      3 (by decide) (by decide)).2 ?_
    refine labOK_of (by decide) ?_
    intro kn hkn
    have hkn2 : kn = ('a', (⟨List.replicate 127 'a', [], true⟩ : BNode)) := by
      simpa [BNode.children] using hkn
    subst hkn2
    refine labOK_of (by decide) ?_
    intro kn2 hkn2
    simp [BNode.children] at hkn2
  · refine (claim_C7 (⟨[], [('a', ⟨List.replicate 128 'a', [], true⟩)], false⟩ : BNode)
      3 (by decide) (by decide)).1 ?_
    intro h
    have h2 := labOK_pfx ((labOK_inv h).2 ('a', ⟨List.replicate 128 'a', [], true⟩)
      (List.mem_singleton.mpr rfl))
    exact absurd h2 (by decide)
